import Mathlib

/-!
# coderpad: the replicated character sequence (package `crdt`) and the client engine

A shallow embedding of `src/crdt/woot.go` and of the operation handling of
`src/client/engine.go`.

Modelling conventions.

* A Go `string` held by a `Character` is valid UTF-8 (ids are built by `fmt.Sprint`, values come
  from a rune, from `string(byte)` or from the JSON decoder), so it is a Lean `String`: a sequence
  of Unicode scalar values.  Go compares strings bytewise; on valid UTF-8 this is the
  lexicographic order of the code points, written `a.data < b.data` here.
* The content of a file is a sequence of bytes, `List UInt8`.
* Go's `int` is modelled by `Int`: positions and `LocalClock` count characters and insertions,
  far from the bounds of a 64-bit integer.  A slice is a `List`.
* A method with a pointer receiver that mutates the document returns the document after the call.
* The package-level variables `SiteID` and `LocalClock` are the record `Globals`, passed in and out
  of the functions that read or write them.
* `IntegrateInsert` is recursive; the embedding recurses on a fuel argument and returns `none`
  when the fuel is used up.  A result `some r` is the result of the Go function.
-/

namespace crdt

/-- The struct `Character`. -/
structure Character where
  ID : String
  Visible : Bool
  Value : String
  PrevID : String
  NextID : String
deriving DecidableEq, Repr, Inhabited

/-- The struct `Document`. -/
structure Document where
  Characters : List Character
deriving DecidableEq, Repr

/-- The error values of the package, and the failure of `os.ReadFile`. -/
inductive Error where
  | ErrOutOfBounds
  | ErrEmptyCharacter
  | ErrBoundsMissing
  | ErrReadFile
deriving DecidableEq, Repr

/-- The package-level variables `SiteID` and `LocalClock`. -/
structure Globals where
  SiteID : Int
  LocalClock : Int
deriving DecidableEq, Repr

def StartCharacter : Character :=
  { ID := "start", Visible := false, Value := "", PrevID := "", NextID := "end" }

def EndCharacter : Character :=
  { ID := "end", Visible := false, Value := "", PrevID := "start", NextID := "" }

/-- The composite literal `Character{ID: "-1"}`: every other field has its zero value. -/
def notFound : Character :=
  { ID := "-1", Visible := false, Value := "", PrevID := "", NextID := "" }

def New : Document :=
  { Characters := [StartCharacter, EndCharacter] }

/-- The loop of `Content`: the builder is the accumulator. -/
def Content (document : Document) : String :=
  document.Characters.foldl (fun builder character =>
    if character.Visible then builder ++ character.Value else builder) ""

/-- The loop of `IthVisible`, on the characters not yet visited and the current `visibleCount`. -/
def IthVisibleLoop (visiblePosition : Int) : List Character → Int → Character
  | [], _ => notFound
  | character :: rest, visibleCount =>
    if character.Visible then
      if visibleCount = visiblePosition - 1 then character
      else IthVisibleLoop visiblePosition rest (visibleCount + 1)
    else IthVisibleLoop visiblePosition rest visibleCount

def IthVisible (document : Document) (visiblePosition : Int) : Character :=
  IthVisibleLoop visiblePosition document.Characters 0

def Document.Length (document : Document) : Int :=
  document.Characters.length

/-- The loop of `Position`, on the characters not yet visited and the current `index`. -/
def PositionLoop (characterID : String) : List Character → Int → Int
  | [], _ => -1
  | character :: rest, index =>
    if characterID = character.ID then index + 1
    else PositionLoop characterID rest (index + 1)

def Document.Position (document : Document) (characterID : String) : Int :=
  PositionLoop characterID document.Characters 0

def Document.Contains (document : Document) (characterID : String) : Bool :=
  document.Position characterID != -1

/-- The loop of `Find`. -/
def FindLoop (id : String) : List Character → Character
  | [] => notFound
  | character :: rest => if character.ID = id then character else FindLoop id rest

def Document.Find (document : Document) (id : String) : Character :=
  FindLoop id document.Characters

/-- The slice expression `s[lo:hi]`. -/
def slice (s : List Character) (lo hi : Int) : List Character :=
  (s.take hi.toNat).drop lo.toNat

def Document.Subseq (document : Document) (startCharacter endCharacter : Character) :
    List Character × Option Error :=
  let startIndex := document.Position startCharacter.ID
  let endIndex := document.Position endCharacter.ID
  if startIndex = -1 ∨ endIndex = -1 then (document.Characters, some Error.ErrBoundsMissing)
  else if startIndex > endIndex then (document.Characters, some Error.ErrBoundsMissing)
  else if startIndex = endIndex then ([], none)
  else (slice document.Characters startIndex (endIndex - 1), none)

def Document.LocalInsert (document : Document) (character : Character) (position : Int) :
    Document × Option Error :=
  if position ≤ 0 ∨ position ≥ document.Length then (document, some Error.ErrOutOfBounds)
  else if character.ID = "" then (document, some Error.ErrEmptyCharacter)
  else
    let inserted := document.Characters.take position.toNat
      ++ ([character] ++ document.Characters.drop position.toNat)
    let linkedLeft := inserted.modify
      (fun neighbour => { neighbour with NextID := character.ID }) (position - 1).toNat
    let linkedRight := linkedLeft.modify
      (fun neighbour => { neighbour with PrevID := character.ID }) (position + 1).toNat
    ({ Characters := linkedRight }, none)

/-- The loop `for index < len(subsequence)-1 && subsequence[index].ID < character.ID { index++ }`
of `IntegrateInsert`.  The list argument is `subsequence[index:]`, so `index < len(subsequence)-1`
says that it holds `subsequence[index]` and at least one more element. -/
def walk (characterID : String) : List Character → Nat → Nat
  | current :: following :: rest, index =>
    if current.ID.data < characterID.data then walk characterID (following :: rest) (index + 1)
    else index
  | _, index => index

/-- The body of `IntegrateInsert`, with fuel for the recursion. -/
def IntegrateInsertFuel : Nat → Document → Character → Character → Character →
    Option (Document × Option Error)
  | 0, _, _, _, _ => none
  | fuel + 1, document, character, prevCharacter, nextCharacter =>
    match document.Subseq prevCharacter nextCharacter with
    | (_, some err) => some (document, some err)
    | (subsequence, none) =>
      let insertPosition := document.Position nextCharacter.ID - 1
      if subsequence.length = 0 then
        some (document.LocalInsert character insertPosition)
      else if subsequence.length = 1 then
        some (document.LocalInsert character (insertPosition - 1))
      else
        let index := walk character.ID (subsequence.drop 1) 1
        IntegrateInsertFuel fuel document character
          (subsequence.getD (index - 1) default) (subsequence.getD index default)

/-- The method `IntegrateInsert`.  Each recursive call has a right bound of smaller `Position`, so
the length of the document bounds the depth of the recursion. -/
def Document.IntegrateInsert (document : Document)
    (character prevCharacter nextCharacter : Character) : Option (Document × Option Error) :=
  IntegrateInsertFuel (document.Characters.length + 1) document character
    prevCharacter nextCharacter

/-- The text `fmt.Sprint(n)` of an `int`: its decimal digits, after a minus sign when negative. -/
def Sprint (n : Int) : String :=
  match n with
  | Int.ofNat m => Nat.repr m
  | Int.negSucc m => "-" ++ Nat.repr (m + 1)

/-- The method `GenerateInsert`: it returns the globals after `LocalClock++` as well. -/
def Document.GenerateInsert (globals : Globals) (document : Document) (position : Int)
    (value : String) : Option (Globals × Document × Option Error) :=
  let globals := { globals with LocalClock := globals.LocalClock + 1 }
  let prevCharacter := IthVisible document (position - 1)
  let nextCharacter := IthVisible document position
  let prevCharacter := if prevCharacter.ID = "-1" then document.Find "start" else prevCharacter
  let nextCharacter := if nextCharacter.ID = "-1" then document.Find "end" else nextCharacter
  let character : Character :=
    { ID := Sprint globals.SiteID ++ Sprint globals.LocalClock
      Visible := true
      Value := value
      PrevID := prevCharacter.ID
      NextID := nextCharacter.ID }
  (document.IntegrateInsert character prevCharacter nextCharacter).map
    (fun result => (globals, result.1, result.2))

def Document.IntegrateDelete (document : Document) (character : Character) : Document :=
  let position := document.Position character.ID
  if position = -1 then document
  else
    { Characters := document.Characters.modify
        (fun target => { target with Visible := false }) (position - 1).toNat }

def Document.GenerateDelete (document : Document) (position : Int) : Document :=
  let character := IthVisible document position
  document.IntegrateDelete character

/-- The method `Insert`: the globals and the document after the call, the returned string and the
returned error.  `newDocument` and `document` are the same pointer. -/
def Document.Insert (globals : Globals) (document : Document) (position : Int) (value : String) :
    Option (Globals × Document × String × Option Error) :=
  match document.GenerateInsert globals position value with
  | none => none
  | some (globals, newDocument, some err) => some (globals, newDocument, Content newDocument, some err)
  | some (globals, newDocument, none) => some (globals, newDocument, Content newDocument, none)

/-- The method `Delete`: the document after the call and the returned string. -/
def Document.Delete (document : Document) (position : Int) : Document × String :=
  let newDocument := document.GenerateDelete position
  (newDocument, Content newDocument)

/-- The conversion `[]byte(s)`: the UTF-8 encoding of the string. -/
def bytesOf (s : String) : List UInt8 :=
  s.data.flatMap String.utf8EncodeChar

/-- The conversion `string(b)` of a byte `b`: the string holding the one code point `b`. -/
def stringOfByte (b : UInt8) : String :=
  String.singleton (Char.ofNat b.toNat)

/-- The bytes that `Save` hands to `os.WriteFile`. -/
def Save (document : Document) : List UInt8 :=
  bytesOf (Content document)

/-- The inner loop of `Load` over the bytes `lines[i][j]` of one line: the globals, the document
and `position` after the loop, and the error that ended it early. -/
def loadLine : List UInt8 → Globals → Document → Int →
    Option (Globals × Document × Int × Option Error)
  | [], globals, document, position => some (globals, document, position, none)
  | b :: rest, globals, document, position =>
    match document.Insert globals position (stringOfByte b) with
    | none => none
    | some (globals, document, _, some err) => some (globals, document, position, some err)
    | some (globals, document, _, none) => loadLine rest globals document (position + 1)

/-- The outer loop of `Load` over `lines[i:]`. -/
def loadLines : List (List UInt8) → Globals → Document → Int →
    Option (Globals × Document × Option Error)
  | [], globals, document, _ => some (globals, document, none)
  | line :: rest, globals, document, position =>
    match loadLine line globals document position with
    | none => none
    | some (globals, document, _, some err) => some (globals, document, some err)
    | some (globals, document, position, none) =>
      if rest ≠ [] then
        match document.Insert globals position "\n" with
        | none => none
        | some (globals, document, _, some err) => some (globals, document, some err)
        | some (globals, document, _, none) => loadLines rest globals document (position + 1)
      else loadLines rest globals document position

/-- The function `Load`, on the result of `os.ReadFile`: `none` when the read failed, the bytes
of the file otherwise.  `strings.Split(string(content), "\n")` cuts at every byte 10. -/
def Load (globals : Globals) (file : Option (List UInt8)) :
    Option (Globals × Document × Option Error) :=
  match file with
  | none => some (globals, New, some Error.ErrReadFile)
  | some content => loadLines (content.splitOn 10) globals New 1

end crdt

namespace client

open crdt

/-- The struct `commons.Operation`, as `performOperation` builds it and `handleMsg` reads it. -/
structure Operation where
  OperationType : String
  Position : Int
  Value : String
deriving DecidableEq, Repr

/-- The struct `commons.Message`; `ClientID` is the text of the UUID. -/
structure Message where
  Username : String
  Text : String
  MessageType : String
  ClientID : String
  Operation : Operation
  Document : Document
deriving DecidableEq, Repr

def DocSyncMessage : String := "docSync"
def DocReqMessage : String := "docReq"
def SiteIDMessage : String := "SiteID"
def JoinMessage : String := "join"

/-- The variables of the client that the engine reads and writes: the variable `document` of
package `main` and the variables `SiteID` and `LocalClock` of package `crdt`. -/
structure Replica where
  document : Document
  globals : Globals
deriving DecidableEq, Repr

/-- The function `handleMsg`, on the replica: what it writes to the connection and to the editor
is left out.  `atoi` is the value `strconv.Atoi` returns, which is stored whether or not the
conversion failed. -/
def handleMsg (atoi : String → Int) (replica : Replica) (message : Message) : Option Replica :=
  if message.MessageType = DocSyncMessage then
    some { replica with document := message.Document }
  else if message.MessageType = DocReqMessage then
    some replica
  else if message.MessageType = SiteIDMessage then
    some { replica with globals := { replica.globals with SiteID := atoi message.Text } }
  else if message.MessageType = JoinMessage then
    some replica
  else if message.Operation.OperationType = "insert" then
    match replica.document.Insert replica.globals message.Operation.Position
        message.Operation.Value with
    | none => none
    | some (globals, document, _, _) => some { document := document, globals := globals }
  else if message.Operation.OperationType = "delete" then
    some { replica with document := (replica.document.Delete message.Operation.Position).1 }
  else some replica

def OperationInsert : Int := 0
def OperationDelete : Int := 1

/-- The zero value of `commons.Message`. -/
def emptyMessage : Message :=
  { Username := "", Text := "", MessageType := "", ClientID := "",
    Operation := { OperationType := "", Position := 0, Value := "" },
    Document := { Characters := [] } }

/-- The function `performOperation`, on the replica and on `ed.Cursor` (the value the cursor has
when the function is entered): the replica after the call and the message written to the
connection.  `ed.AddRune` ends with `e.Cursor++`; the text of the editor is left out. -/
def performOperation (replica : Replica) (cursor : Int) (operationType : Int) (ch : Char) :
    Option (Replica × Message) :=
  let character := String.singleton ch
  if operationType = OperationInsert then
    let cursor := cursor + 1
    match replica.document.Insert replica.globals cursor character with
    | none => none
    | some (globals, document, _, _) =>
      some ({ document := document, globals := globals },
        { emptyMessage with
          MessageType := "operation"
          Operation := { OperationType := "insert", Position := cursor, Value := character } })
  else if operationType = OperationDelete then
    let cursor := if cursor - 1 < 0 then 0 else cursor
    some ({ replica with document := (replica.document.Delete cursor).1 },
      { emptyMessage with
        MessageType := "operation"
        Operation := { OperationType := "delete", Position := cursor, Value := "" } })
  else some (replica, emptyMessage)

end client

/-! ## The accessors, and the operations with their index checks

Go panics when an index or a slice expression is out of range.  `indexAt`, `setAt` and
`sliceChecked` return `none` for that panic; the functions below are the functions of
`woot.go` written with them.  `Left`, `Right` and `ElementAt` are embedded only in this form. -/

namespace crdt

/-- The zero value `Character{}`. -/
def zeroCharacter : Character :=
  { ID := "", Visible := false, Value := "", PrevID := "", NextID := "" }

/-- The index expression `s[i]`, read: `none` when `i` is out of range. -/
def indexAt (s : List Character) (i : Int) : Option Character :=
  if 0 ≤ i ∧ i < s.length then s[i.toNat]? else none

/-- The assignment `s[i].field = value`, as the update `f` of the element: `none` when `i`
is out of range. -/
def setAt (s : List Character) (i : Int) (f : Character → Character) : Option (List Character) :=
  if 0 ≤ i ∧ i < s.length then some (s.modify f i.toNat) else none

/-- The slice expression `s[lo:hi]`: `none` unless `0 ≤ lo ≤ hi ≤ len(s)`.  Go allows `hi` up
to the capacity, which is never below the length, so a result `some` excludes the panic. -/
def sliceChecked (s : List Character) (lo hi : Int) : Option (List Character) :=
  if 0 ≤ lo ∧ lo ≤ hi ∧ hi ≤ s.length then some (slice s lo hi) else none

/-- The method `ElementAt`; `none` is a panic. -/
def Document.ElementAt (document : Document) (position : Int) :
    Option (Character × Option Error) :=
  if position < 0 ∨ position ≥ document.Length then
    some (zeroCharacter, some Error.ErrOutOfBounds)
  else (indexAt document.Characters position).map (fun character => (character, none))

/-- The method `Left`; `none` is a panic. -/
def Document.Left (document : Document) (characterID : String) : Option String :=
  let index := document.Position characterID
  if index ≤ 0 then (indexAt document.Characters index).map Character.ID
  else (indexAt document.Characters (index - 1)).map Character.ID

/-- The method `Right`; `none` is a panic. -/
def Document.Right (document : Document) (characterID : String) : Option String :=
  let index := document.Position characterID
  if index ≥ (document.Characters.length : Int) - 1 then
    (indexAt document.Characters (index - 1)).map Character.ID
  else (indexAt document.Characters (index + 1)).map Character.ID

/-- The method `Subseq` with its slice expression checked; `none` is a panic. -/
def Document.SubseqChecked (document : Document) (startCharacter endCharacter : Character) :
    Option (List Character × Option Error) :=
  let startIndex := document.Position startCharacter.ID
  let endIndex := document.Position endCharacter.ID
  if startIndex = -1 ∨ endIndex = -1 then
    some (document.Characters, some Error.ErrBoundsMissing)
  else if startIndex > endIndex then some (document.Characters, some Error.ErrBoundsMissing)
  else if startIndex = endIndex then some ([], none)
  else (sliceChecked document.Characters startIndex (endIndex - 1)).map
    (fun subsequence => (subsequence, none))

/-- The method `LocalInsert` with its two slice expressions and its two indexed assignments
checked; `none` is a panic. -/
def Document.LocalInsertChecked (document : Document) (character : Character) (position : Int) :
    Option (Document × Option Error) :=
  if position ≤ 0 ∨ position ≥ document.Length then some (document, some Error.ErrOutOfBounds)
  else if character.ID = "" then some (document, some Error.ErrEmptyCharacter)
  else
    (sliceChecked document.Characters 0 position).bind fun before =>
    (sliceChecked document.Characters position document.Characters.length).bind fun after =>
    (setAt (before ++ ([character] ++ after)) (position - 1)
      (fun neighbour => { neighbour with NextID := character.ID })).bind fun linkedLeft =>
    (setAt linkedLeft (position + 1)
      (fun neighbour => { neighbour with PrevID := character.ID })).map fun linkedRight =>
    ({ Characters := linkedRight }, none)

/-- How a run of a recursive function ends: with a result, with a panic, or with the fuel of the
embedding used up. -/
inductive Run (α : Type) where
  | done : α → Run α
  | panic : Run α
  | outOfFuel : Run α
deriving DecidableEq, Repr

/-- The result of a function without recursion, as a `Run`. -/
def Run.ofOption {α : Type} : Option α → Run α
  | some a => Run.done a
  | none => Run.panic

/-- The result of the embedding with fuel, as a `Run`. -/
def Run.ofFuel {α : Type} : Option α → Run α
  | some a => Run.done a
  | none => Run.outOfFuel

/-- The body of `IntegrateInsert` with every index checked. -/
def IntegrateInsertFuelChecked : Nat → Document → Character → Character → Character →
    Run (Document × Option Error)
  | 0, _, _, _, _ => Run.outOfFuel
  | fuel + 1, document, character, prevCharacter, nextCharacter =>
    match document.SubseqChecked prevCharacter nextCharacter with
    | none => Run.panic
    | some (_, some err) => Run.done (document, some err)
    | some (subsequence, none) =>
      let insertPosition := document.Position nextCharacter.ID - 1
      if subsequence.length = 0 then
        Run.ofOption (document.LocalInsertChecked character insertPosition)
      else if subsequence.length = 1 then
        Run.ofOption (document.LocalInsertChecked character (insertPosition - 1))
      else
        let index := walk character.ID (subsequence.drop 1) 1
        match indexAt subsequence ((index : Int) - 1), indexAt subsequence index with
        | some left, some right => IntegrateInsertFuelChecked fuel document character left right
        | _, _ => Run.panic

/-- The method `IntegrateInsert` with every index checked. -/
def Document.IntegrateInsertChecked (document : Document)
    (character prevCharacter nextCharacter : Character) : Run (Document × Option Error) :=
  IntegrateInsertFuelChecked (document.Characters.length + 1) document character
    prevCharacter nextCharacter

/-- The method `IntegrateDelete` with its indexed assignment checked; `none` is a panic. -/
def Document.IntegrateDeleteChecked (document : Document) (character : Character) :
    Option Document :=
  let position := document.Position character.ID
  if position = -1 then some document
  else (setAt document.Characters (position - 1)
    (fun target => { target with Visible := false })).map Document.mk

/-- The method `GenerateInsert` on the checked `IntegrateInsert`. -/
def Document.GenerateInsertChecked (globals : Globals) (document : Document) (position : Int)
    (value : String) : Run (Globals × Document × Option Error) :=
  let globals := { globals with LocalClock := globals.LocalClock + 1 }
  let prevCharacter := IthVisible document (position - 1)
  let nextCharacter := IthVisible document position
  let prevCharacter := if prevCharacter.ID = "-1" then document.Find "start" else prevCharacter
  let nextCharacter := if nextCharacter.ID = "-1" then document.Find "end" else nextCharacter
  let character : Character :=
    { ID := Sprint globals.SiteID ++ Sprint globals.LocalClock
      Visible := true
      Value := value
      PrevID := prevCharacter.ID
      NextID := nextCharacter.ID }
  match document.IntegrateInsertChecked character prevCharacter nextCharacter with
  | Run.done result => Run.done (globals, result.1, result.2)
  | Run.panic => Run.panic
  | Run.outOfFuel => Run.outOfFuel

/-- The method `GenerateDelete` on the checked `IntegrateDelete`; `none` is a panic. -/
def Document.GenerateDeleteChecked (document : Document) (position : Int) : Option Document :=
  let character := IthVisible document position
  document.IntegrateDeleteChecked character

end crdt

/-! ## The recursion of `IntegrateInsert`, and the site ids of the relay -/

namespace crdt

/-- The recursive calls that `IntegrateInsert` makes, in the order of the calls: the body of
`IntegrateInsert` with the same fuel, returning the pair `subsequence[index-1]`,
`subsequence[index]` of each recursive call instead of the document. -/
def IntegrateInsertCalls : Nat → Document → Character → Character → Character →
    Option (List (Character × Character))
  | 0, _, _, _, _ => none
  | fuel + 1, document, character, prevCharacter, nextCharacter =>
    match document.Subseq prevCharacter nextCharacter with
    | (_, some _) => some []
    | (subsequence, none) =>
      if subsequence.length = 0 then some []
      else if subsequence.length = 1 then some []
      else
        let index := walk character.ID (subsequence.drop 1) 1
        (IntegrateInsertCalls fuel document character
          (subsequence.getD (index - 1) default) (subsequence.getD index default)).map
          (fun calls =>
            (subsequence.getD (index - 1) default, subsequence.getD index default) :: calls)

end crdt

namespace server

open crdt

/-- The statement of `handleWebSocket` that a connection executes next, among the statements
between `clientID := uuid.New()` and the construction of `clientInfo` (`main.go`, lines 67 to
71). -/
inductive Line where
  | lock
  | increment
  | unlock
  | read
  | assigned
deriving DecidableEq, Repr

/-- One run of `handleWebSocket`: the statement it executes next and its local variable
`siteIDString`. -/
structure Handler where
  line : Line
  siteIDString : String
deriving DecidableEq, Repr

/-- The variables `nextSiteID` and `siteIDMutex` of the relay (`locked` says that the mutex is
held), and the runs of `handleWebSocket`, one goroutine for each connection. -/
structure Relay where
  nextSiteID : Int
  locked : Bool
  handlers : List Handler
deriving DecidableEq, Repr

/-- The relay when `connections` connections have been accepted and none has reached
`siteIDMutex.Lock()`. -/
def accepted (connections : Nat) : Relay :=
  { nextSiteID := 0, locked := false,
    handlers := List.replicate connections { line := Line.lock, siteIDString := "" } }

/-- One statement of the handler with the index `handler`: `siteIDMutex.Lock()`,
`nextSiteID++`, `siteIDMutex.Unlock()`, `siteIDString := strconv.Itoa(nextSiteID)`.  `none`
when the handler cannot run: it waits for the mutex, or it has its site id. -/
def step (relay : Relay) (handler : Nat) : Option Relay :=
  match relay.handlers[handler]? with
  | none => none
  | some current =>
    match current.line with
    | Line.lock =>
      if relay.locked then none
      else some { relay with
        locked := true
        handlers := relay.handlers.set handler { current with line := Line.increment } }
    | Line.increment =>
      some { relay with
        nextSiteID := relay.nextSiteID + 1
        handlers := relay.handlers.set handler { current with line := Line.unlock } }
    | Line.unlock =>
      some { relay with
        locked := false
        handlers := relay.handlers.set handler { current with line := Line.read } }
    | Line.read =>
      some { relay with
        handlers := relay.handlers.set handler
          { line := Line.assigned, siteIDString := Sprint relay.nextSiteID } }
    | Line.assigned => none

/-- The statements of the handlers in the order of the schedule, which names the handler of
each statement. -/
def run : List Nat → Relay → Option Relay
  | [], relay => some relay
  | handler :: rest, relay =>
    match step relay handler with
    | none => none
    | some relay => run rest relay

/-- The site ids assigned when every handler has its site id; `none` while a handler has not. -/
def siteIDs (relay : Relay) : Option (List String) :=
  if relay.handlers.all (fun handler => handler.line = Line.assigned) then
    some (relay.handlers.map Handler.siteIDString)
  else none

end server

/-! ## Auxiliary definitions for the statements -/

namespace crdt

def ids (l : List Character) : List String := l.map Character.ID

def visibleValues (l : List Character) : List String :=
  (l.filter Character.Visible).map Character.Value

def visibleCount (l : List Character) : Nat := (l.filter Character.Visible).length

def splice (left right : List Character) (character : Character) : List Character :=
  left.modify (fun neighbour => { neighbour with NextID := character.ID }) (left.length - 1)
    ++ character :: right.modify (fun neighbour => { neighbour with PrevID := character.ID }) 0

/-- Where `IntegrateInsert` places a character among the characters `between` its two bounds:
the number of characters of `between` that end up on its left. -/
def placeIndex (characterID : String) (between : List Character) : Nat :=
  if between.length ≤ 1 then 0 else walk characterID (between.drop 1) 1

/-- A character `after` an operation is the character `before` it: same id, same value, and a
tombstone when `before` was one. -/
def kept (before after : Character) : Prop :=
  after.ID = before.ID ∧ after.Value = before.Value ∧
    (before.Visible = false → after.Visible = false)

instance : IsRefl Character kept := ⟨fun _ => ⟨rfl, rfl, id⟩⟩

instance : IsTrans Character kept :=
  ⟨fun _ _ _ hab hbc => ⟨hbc.1.trans hab.1, hbc.2.1.trans hab.2.1, fun h => hbc.2.2 (hab.2.2 h)⟩⟩

/-- Every character of `before` is kept in `after`, in the same order: the characters of `before`
are related by `kept`, one by one, to a subsequence of the characters of `after`. -/
def StaysTombstone (before after : Document) : Prop :=
  List.SublistForall₂ kept before.Characters after.Characters

/-- The first character is a start sentinel: its id is "start" and it is invisible. -/
def StartsWithStart (document : Document) : Prop :=
  document.Characters.head?.map (fun first => (first.ID, first.Visible)) = some ("start", false)

/-- The last character is an end sentinel: its id is "end" and it is invisible. -/
def EndsWithEnd (document : Document) : Prop :=
  document.Characters.getLast?.map (fun last => (last.ID, last.Visible)) = some ("end", false)

instance (document : Document) : Decidable (StartsWithStart document) := by
  unfold StartsWithStart; infer_instance

instance (document : Document) : Decidable (EndsWithEnd document) := by
  unfold EndsWithEnd; infer_instance

/-- The left bound `GenerateInsert` passes to `IntegrateInsert`: `prevCharacter` after the test
for the marker "-1". -/
def prevBound (document : Document) (position : Int) : Character :=
  if (IthVisible document (position - 1)).ID = "-1" then document.Find "start"
  else IthVisible document (position - 1)

/-- The right bound `GenerateInsert` passes to `IntegrateInsert`: `nextCharacter` after the test
for the marker "-1". -/
def nextBound (document : Document) (position : Int) : Character :=
  if (IthVisible document position).ID = "-1" then document.Find "end"
  else IthVisible document position

/-- The character `GenerateInsert` builds for the value, between `prevCharacter` and
`nextCharacter`, once `LocalClock` has been incremented. -/
def generated (globals : Globals) (value : String) (prevCharacter nextCharacter : Character) :
    Character :=
  { ID := Sprint globals.SiteID ++ Sprint (globals.LocalClock + 1)
    Visible := true
    Value := value
    PrevID := prevCharacter.ID
    NextID := nextCharacter.ID }

/-- Integrates the insert characters one after the other with `IntegrateInsert`, each between
the characters that its `PrevID` and `NextID` name (looked up with `Find`); `none` as soon as one
integration returns an error. -/
def integrateAll : List Character → Document → Option Document
  | [], document => some document
  | character :: rest, document =>
    match document.IntegrateInsert character (document.Find character.PrevID)
        (document.Find character.NextID) with
    | some (document, none) => integrateAll rest document
    | _ => none

/-- The character replica 1 generates for "x" at visible position 1 of a fresh document. -/
def insertX : Character :=
  { ID := "11", Visible := true, Value := "x", PrevID := "start", NextID := "end" }

/-- The character replica 2 generates for "y" at visible position 1 of a fresh document. -/
def insertY : Character :=
  { ID := "21", Visible := true, Value := "y", PrevID := "start", NextID := "end" }

/-- A document whose only visible character holds a value outside ASCII. -/
def accented : Document :=
  { Characters :=
      [ { ID := "start", Visible := false, Value := "", PrevID := "", NextID := "11" },
        { ID := "11", Visible := true, Value := "é", PrevID := "start", NextID := "end" },
        { ID := "end", Visible := false, Value := "", PrevID := "11", NextID := "" } ] }

/-- The document of `TestLoad`, with the content "cat\ndog". -/
def catDog : Document :=
  { Characters :=
      [ { ID := "start", Visible := false, Value := "", PrevID := "", NextID := "1" },
        { ID := "1", Visible := true, Value := "c", PrevID := "start", NextID := "3" },
        { ID := "3", Visible := true, Value := "a", PrevID := "1", NextID := "2" },
        { ID := "2", Visible := true, Value := "t", PrevID := "3", NextID := "4" },
        { ID := "4", Visible := true, Value := "\n", PrevID := "2", NextID := "5" },
        { ID := "5", Visible := true, Value := "d", PrevID := "4", NextID := "6" },
        { ID := "6", Visible := true, Value := "o", PrevID := "5", NextID := "7" },
        { ID := "7", Visible := true, Value := "g", PrevID := "6", NextID := "end" },
        { ID := "end", Visible := false, Value := "", PrevID := "7", NextID := "" } ] }

/-- A document with sentinels and pairwise distinct ids, whose first visible character has the
id "-1". -/
def markerDocument : Document :=
  { Characters :=
      [ { ID := "start", Visible := false, Value := "", PrevID := "", NextID := "-1" },
        { ID := "-1", Visible := true, Value := "a", PrevID := "start", NextID := "2" },
        { ID := "2", Visible := true, Value := "b", PrevID := "-1", NextID := "end" },
        { ID := "end", Visible := false, Value := "", PrevID := "2", NextID := "" } ] }

/-- A document with a tombstone between its two visible characters. -/
def sample : Document :=
  { Characters :=
      [ { ID := "start", Visible := false, Value := "", PrevID := "", NextID := "11" },
        { ID := "11", Visible := true, Value := "c", PrevID := "start", NextID := "12" },
        { ID := "12", Visible := false, Value := "u", PrevID := "11", NextID := "13" },
        { ID := "13", Visible := true, Value := "t", PrevID := "12", NextID := "end" },
        { ID := "end", Visible := false, Value := "", PrevID := "13", NextID := "" } ] }

/-- A document with the three visible characters "a", "b", "c" and no tombstone. -/
def threeLetters : Document :=
  { Characters :=
      [ { ID := "start", Visible := false, Value := "", PrevID := "", NextID := "11" },
        { ID := "11", Visible := true, Value := "a", PrevID := "start", NextID := "12" },
        { ID := "12", Visible := true, Value := "b", PrevID := "11", NextID := "13" },
        { ID := "13", Visible := true, Value := "c", PrevID := "12", NextID := "end" },
        { ID := "end", Visible := false, Value := "", PrevID := "13", NextID := "" } ] }

end crdt

namespace client

open crdt

/-- The message `performOperation` writes for an insert at `position`. -/
def insertMessage (position : Int) (value : String) : Message :=
  { emptyMessage with
    MessageType := "operation"
    Operation := { OperationType := "insert", Position := position, Value := value } }

end client

namespace crdt

/-- The first character of `after` is the first character of `before`, and the last the last:
same id, same value, and invisible if it was invisible (`kept`). -/
def SentinelsKept (before after : Document) : Prop :=
  (∀ first, before.Characters.head? = some first →
    ∃ first', after.Characters.head? = some first' ∧ kept first first')
  ∧ (∀ last, before.Characters.getLast? = some last →
    ∃ last', after.Characters.getLast? = some last' ∧ kept last last')

/-- The first character has the id "start" and the last the id "end". -/
def HasSentinelIds (document : Document) : Prop :=
  document.Characters.head?.map Character.ID = some "start"
  ∧ document.Characters.getLast?.map Character.ID = some "end"

/-- The first character is the start sentinel and the last the end sentinel, both invisible with
an empty value. -/
def HasSentinels (document : Document) : Prop :=
  document.Characters.head?.map (fun first => (first.ID, first.Visible, first.Value))
      = some ("start", false, "")
  ∧ document.Characters.getLast?.map (fun last => (last.ID, last.Visible, last.Value))
      = some ("end", false, "")

instance (document : Document) : Decidable (HasSentinelIds document) := by
  unfold HasSentinelIds; infer_instance

instance (document : Document) : Decidable (HasSentinels document) := by
  unfold HasSentinels; infer_instance

/-- The document of `TestIntegrateInsert_BetweenTwoPositions`. -/
def testDocument : Document :=
  { Characters :=
      [ { ID := "start", Visible := false, Value := "", PrevID := "", NextID := "1" },
        { ID := "1", Visible := false, Value := "c", PrevID := "start", NextID := "2" },
        { ID := "2", Visible := false, Value := "t", PrevID := "1", NextID := "end" },
        { ID := "end", Visible := false, Value := "", PrevID := "2", NextID := "" } ] }

/-- The number that a list of decimal digits writes. -/
def decodeDigits (digits : List Char) : Nat :=
  digits.foldl (fun number digit => 10 * number + (digit.toNat - 48)) 0

/-- A document as a replica with the globals builds it from a fresh one: the sentinels first
and last, pairwise distinct ids, and every other id built by `GenerateInsert` from the site id
and a clock value that `LocalClock` has reached. -/
def BuiltBy (globals : Globals) (document : Document) : Prop :=
  StartsWithStart document ∧ EndsWithEnd document ∧ (ids document.Characters).Nodup
  ∧ ∀ id ∈ ids document.Characters, id = "start" ∨ id = "end"
      ∨ ∃ clock : Int, clock ≤ globals.LocalClock ∧ id = Sprint globals.SiteID ++ Sprint clock

/-- Every position of the sequence of inserts is between 1 and the number of visible characters
plus one, when `visible` characters are visible before the first insert. -/
def inRange : Nat → List (Int × String) → Bool
  | _, [] => true
  | visible, (position, _) :: rest =>
    decide (1 ≤ position) && decide (position ≤ visible + 1) && inRange (visible + 1) rest

/-- The visible values after the inserts of the sequence, each value being inserted at its
position into the list of visible values. -/
def insertValues (values : List String) (inserts : List (Int × String)) : List String :=
  inserts.foldl (fun current insert => current.insertIdx (insert.1 - 1).toNat insert.2) values

/-- The calls `Insert(position, value)` of the sequence, one after the other; an error of a
call does not stop the sequence. -/
def insertAll : List (Int × String) → Globals → Document → Option (Globals × Document)
  | [], globals, document => some (globals, document)
  | (position, value) :: rest, globals, document =>
    match document.Insert globals position value with
    | none => none
    | some (globals, document, _, _) => insertAll rest globals document

end crdt

namespace client

open crdt

/-- The calls of `handleMsg` for the messages, one after the other. -/
def handleAll (atoi : String → Int) : List Message → Replica → Option Replica
  | [], replica => some replica
  | message :: rest, replica =>
    match handleMsg atoi replica message with
    | none => none
    | some replica => handleAll atoi rest replica

end client

namespace crdt

/-- A character `after` an operation is the character `before` it with the same id, the same
value and the same visibility: only its links may differ. -/
def unchanged (before after : Character) : Prop :=
  after.ID = before.ID ∧ after.Value = before.Value ∧ after.Visible = before.Visible

/-- The characters of `after` are those of `before`, unchanged and in the same order, with the
character `c` added between two of them. -/
def AddsOne (before after : Document) (c : Character) : Prop :=
  ∃ A B A' B', before.Characters = A ++ B ∧ after.Characters = A' ++ c :: B'
    ∧ List.Forall₂ unchanged A A' ∧ List.Forall₂ unchanged B B'

/-- Two adjacent characters name each other: `NextID` of the left one is the id of the right
one, and `PrevID` of the right one the id of the left one. -/
def linked (left right : Character) : Prop :=
  left.NextID = right.ID ∧ right.PrevID = left.ID

instance (left right : Character) : Decidable (linked left right) :=
  inferInstanceAs (Decidable (left.NextID = right.ID ∧ right.PrevID = left.ID))

/-- Every two adjacent characters of the document name each other. -/
def Linked (document : Document) : Prop :=
  List.Chain' linked document.Characters

instance (document : Document) : Decidable (Linked document) :=
  inferInstanceAs (Decidable (List.Chain' linked document.Characters))

/-- No character of the document is a tombstone: every invisible character is a sentinel. -/
def NoTombstones (document : Document) : Prop :=
  ∀ x ∈ document.Characters, x.Visible = false → x.ID = "start" ∨ x.ID = "end"

/-- The index `IntegrateInsert` stops its loop at, on a subsequence `S` of two or more
characters: `k` is between 1 and the last index, every `S[j]` with `1 ≤ j < k` has an id below
the id of the character, and `S[k]` has not, unless `k` is the last index. -/
def StopsAt (characterID : String) (S : List Character) (k : Nat) : Prop :=
  1 ≤ k ∧ k + 1 ≤ S.length
  ∧ (∀ j x, 1 ≤ j → j < k → S[j]? = some x → x.ID.data < characterID.data)
  ∧ (k + 1 < S.length → ∀ x, S[k]? = some x → ¬ x.ID.data < characterID.data)

/-- A document with three characters between its sentinels, one of them a tombstone. -/
def fiveLetters : Document :=
  { Characters :=
      [ { ID := "start", Visible := false, Value := "", PrevID := "", NextID := "11" },
        { ID := "11", Visible := true, Value := "a", PrevID := "start", NextID := "13" },
        { ID := "13", Visible := false, Value := "b", PrevID := "11", NextID := "15" },
        { ID := "15", Visible := true, Value := "c", PrevID := "13", NextID := "end" },
        { ID := "end", Visible := false, Value := "", PrevID := "15", NextID := "" } ] }

/-- A character for `fiveLetters`, with an id between "13" and "15". -/
def newLetter : Character :=
  { ID := "14", Visible := true, Value := "x", PrevID := "start", NextID := "end" }

/-- The document `fiveLetters` after the call
`IntegrateInsert(newLetter, StartCharacter, EndCharacter)`. -/
def sixLetters : Document :=
  { Characters :=
      [ { ID := "start", Visible := false, Value := "", PrevID := "", NextID := "11" },
        { ID := "11", Visible := true, Value := "a", PrevID := "start", NextID := "13" },
        { ID := "13", Visible := false, Value := "b", PrevID := "11", NextID := "14" },
        { ID := "14", Visible := true, Value := "x", PrevID := "start", NextID := "end" },
        { ID := "15", Visible := true, Value := "c", PrevID := "14", NextID := "end" },
        { ID := "end", Visible := false, Value := "", PrevID := "15", NextID := "" } ] }

end crdt

/-! ## Lemmas on the embedding -/

namespace crdt

theorem foldl_content (l : List Character) (acc : String) :
    l.foldl (fun builder character =>
      if character.Visible then builder ++ character.Value else builder) acc
    = acc ++ String.join (visibleValues l) := by
  induction l generalizing acc with
  | nil => simp [visibleValues, String.join]
  | cons a l ih =>
    rw [List.foldl_cons, ih]
    by_cases h : a.Visible
    · apply String.ext
      simp [visibleValues, h, String.join_eq, List.append_assoc]
    · simp [visibleValues, h]

theorem Content_eq_join (document : Document) :
    Content document = String.join (visibleValues document.Characters) := by
  unfold Content
  rw [foldl_content]
  apply String.ext
  simp

theorem modify_append_length {α : Type} (f : α → α) (A : List α) (x : α) (B : List α) :
    (A ++ x :: B).modify f A.length = A ++ f x :: B := by
  induction A with
  | nil => simp
  | cons a A ih => simp [ih]

theorem splice_concat_cons (A : List Character) (a b : Character) (B : List Character)
    (c : Character) :
    splice (A ++ [a]) (b :: B) c
      = A ++ { a with NextID := c.ID } :: c :: { b with PrevID := c.ID } :: B := by
  unfold splice
  have h : (A ++ [a]).length - 1 = A.length := by simp
  rw [h, modify_append_length]
  simp

theorem LocalInsert_append (A B : List Character) (c : Character) (hA : A ≠ []) (hB : B ≠ [])
    (hc : c.ID ≠ "") :
    Document.LocalInsert { Characters := A ++ B } c A.length
      = ({ Characters := splice A B c }, none) := by
  obtain ⟨A', a, rfl⟩ : ∃ A' a, A = A' ++ [a] := by
    rcases List.eq_nil_or_concat A with h | ⟨A', a, h⟩
    · exact absurd h hA
    · exact ⟨A', a, by simpa using h⟩
  obtain ⟨b, B', rfl⟩ : ∃ b B', B = b :: B' := List.exists_cons_of_ne_nil hB
  rw [splice_concat_cons]
  unfold Document.LocalInsert Document.Length
  have h1 : ¬ (((A' ++ [a]).length : Int) ≤ 0 ∨
      ((A' ++ [a]).length : Int) ≥ ((A' ++ [a] ++ b :: B').length : Int)) := by
    simp only [List.length_append, List.length_cons, List.length_nil]; push_cast; omega
  simp only [h1, hc, if_false, Int.toNat_ofNat]
  have h2 : (((A' ++ [a]).length : Int) - 1).toNat = A'.length := by
    simp
  have h3 : (((A' ++ [a]).length : Int) + 1).toNat = (A' ++ [{ a with NextID := c.ID }, c]).length := by
    simp only [List.length_append, List.length_cons, List.length_nil]; omega
  rw [h2, h3]
  have h4 : List.take (A' ++ [a]).length (A' ++ [a] ++ b :: B') = A' ++ [a] :=
    List.take_left' rfl
  have h5 : List.drop (A' ++ [a]).length (A' ++ [a] ++ b :: B') = b :: B' :=
    List.drop_left' rfl
  rw [h4, h5]
  have h6 : A' ++ [a] ++ ([c] ++ b :: B') = A' ++ a :: (c :: b :: B') := by simp
  rw [h6, modify_append_length]
  have h7 : A' ++ { a with NextID := c.ID } :: c :: b :: B'
      = (A' ++ [{ a with NextID := c.ID }, c]) ++ b :: B' := by simp
  rw [h7, modify_append_length]
  simp

theorem PositionLoop_not_mem (id : String) (l : List Character) (k : Int)
    (h : id ∉ ids l) : PositionLoop id l k = -1 := by
  induction l generalizing k with
  | nil => rfl
  | cons a l ih =>
    simp only [ids, List.map_cons, List.mem_cons, not_or] at h
    simp only [PositionLoop, h.1, if_false]
    exact ih (k + 1) h.2

theorem PositionLoop_append (id : String) (A : List Character) (x : Character)
    (B : List Character) (k : Int) (hA : id ∉ ids A) (hx : x.ID = id) :
    PositionLoop id (A ++ x :: B) k = k + A.length + 1 := by
  induction A generalizing k with
  | nil => simp [PositionLoop, hx]
  | cons a A ih =>
    simp only [ids, List.map_cons, List.mem_cons, not_or] at hA
    rw [List.cons_append]
    simp only [PositionLoop, hA.1, if_false, List.length_cons]
    rw [ih (k + 1) hA.2]
    push_cast
    ring

theorem PositionLoop_range (id : String) (l : List Character) (k : Int) :
    PositionLoop id l k = -1 ∨ (k < PositionLoop id l k ∧ PositionLoop id l k ≤ k + l.length) := by
  induction l generalizing k with
  | nil => left; rfl
  | cons a l ih =>
    simp only [PositionLoop]
    split
    · right; simp only [List.length_cons]; push_cast; omega
    · rcases ih (k + 1) with h | h
      · left; exact h
      · right; simp only [List.length_cons]; push_cast; omega

theorem Position_eq_of_split (document : Document) (id : String) (A : List Character)
    (x : Character) (B : List Character) (h : document.Characters = A ++ x :: B)
    (hA : id ∉ ids A) (hx : x.ID = id) : document.Position id = A.length + 1 := by
  unfold Document.Position
  rw [h, PositionLoop_append id A x B 0 hA hx]
  simp

theorem PositionLoop_split (id : String) (l : List Character) (k : Int)
    (h : PositionLoop id l k ≠ -1) (hk : 0 ≤ k) :
    ∃ A x B, l = A ++ x :: B ∧ id ∉ ids A ∧ x.ID = id := by
  induction l generalizing k with
  | nil => exact absurd rfl h
  | cons a l ih =>
    by_cases ha : id = a.ID
    · exact ⟨[], a, l, rfl, by simp [ids], ha.symm⟩
    · simp only [PositionLoop, ha, if_false] at h
      obtain ⟨A, x, B, hl, hA, hx⟩ := ih (k + 1) h (by omega)
      refine ⟨a :: A, x, B, by simp [hl], ?_, hx⟩
      simp only [ids, List.map_cons, List.mem_cons, not_or]
      exact ⟨ha, hA⟩

theorem FindLoop_append (id : String) (A : List Character) (x : Character)
    (B : List Character) (hA : id ∉ ids A) (hx : x.ID = id) :
    FindLoop id (A ++ x :: B) = x := by
  induction A with
  | nil => simp [FindLoop, hx]
  | cons a A ih =>
    simp only [ids, List.map_cons, List.mem_cons, not_or] at hA
    have : ¬ a.ID = id := fun h => hA.1 h.symm
    rw [List.cons_append]
    simp only [FindLoop, this, if_false]
    exact ih hA.2

theorem ids_append (A B : List Character) : ids (A ++ B) = ids A ++ ids B := by
  simp [ids]

theorem ids_cons (a : Character) (B : List Character) : ids (a :: B) = a.ID :: ids B := rfl

/-- With pairwise distinct ids, `Subseq` of two characters in sequence order is what lies
strictly between them. -/
theorem Subseq_between (document : Document) (prev next p n : Character)
    (L M R : List Character) (h : document.Characters = L ++ p :: (M ++ n :: R))
    (hnd : (ids document.Characters).Nodup) (hp : p.ID = prev.ID) (hn : n.ID = next.ID) :
    document.Position prev.ID = L.length + 1 ∧
    document.Position next.ID = L.length + M.length + 2 ∧
    document.Subseq prev next = (M, none) := by
  rw [h] at hnd
  simp only [ids_append, ids_cons] at hnd
  have hpL : prev.ID ∉ ids L := by
    intro hmem
    rw [List.nodup_append] at hnd
    exact hnd.2.2 hmem (by simp [hp])
  have hP : document.Position prev.ID = L.length + 1 :=
    Position_eq_of_split document prev.ID L p (M ++ n :: R) h hpL hp
  have hnL : next.ID ∉ ids (L ++ p :: M) := by
    intro hmem
    have h' : document.Characters = (L ++ p :: M) ++ n :: R := by simp [h]
    have hnd' : (ids ((L ++ p :: M) ++ n :: R)).Nodup := by
      simpa [ids_append, ids_cons] using hnd
    rw [ids_append, List.nodup_append] at hnd'
    exact hnd'.2.2 hmem (by simp [ids_cons, hn])
  have hN : document.Position next.ID = L.length + M.length + 2 := by
    have h' : document.Characters = (L ++ p :: M) ++ n :: R := by simp [h]
    rw [Position_eq_of_split document next.ID (L ++ p :: M) n R h' hnL hn]
    simp only [List.length_append, List.length_cons]; push_cast; ring
  refine ⟨hP, hN, ?_⟩
  unfold Document.Subseq
  simp only [hP, hN]
  have c1 : ¬ ((L.length : Int) + 1 = -1 ∨ (L.length : Int) + M.length + 2 = -1) := by omega
  have c2 : ¬ ((L.length : Int) + 1 > (L.length : Int) + M.length + 2) := by omega
  have c3 : ¬ ((L.length : Int) + 1 = (L.length : Int) + M.length + 2) := by omega
  simp only [c1, c2, c3, if_false]
  congr 1
  unfold slice
  have e1 : ((L.length : Int) + M.length + 2 - 1).toNat = (L ++ p :: M).length := by
    simp only [List.length_append, List.length_cons]; omega
  have e2 : ((L.length : Int) + 1).toNat = (L ++ [p]).length := by
    simp only [List.length_append, List.length_cons, List.length_nil]; omega
  rw [e1, e2, h]
  have e3 : L ++ p :: (M ++ n :: R) = (L ++ p :: M) ++ n :: R := by simp
  rw [e3, List.take_left' rfl]
  have e4 : L ++ p :: M = (L ++ [p]) ++ M := by simp
  rw [e4, List.drop_left' rfl]

theorem walk_bounds (id : String) (l : List Character) (k : Nat) (h : l ≠ []) :
    k ≤ walk id l k ∧ walk id l k < k + l.length := by
  induction l generalizing k with
  | nil => exact absurd rfl h
  | cons a l ih =>
    cases l with
    | nil => simp [walk]
    | cons b l =>
      simp only [walk]
      split
      · have := ih (k + 1) (by simp)
        simp only [List.length_cons] at this ⊢
        omega
      · simp only [List.length_cons]; omega

theorem placeIndex_le (id : String) (M : List Character) : placeIndex id M ≤ M.length := by
  unfold placeIndex
  split
  · omega
  · rename_i h
    have hne : M.drop 1 ≠ [] := by
      intro h0
      have := congrArg List.length h0
      simp only [List.length_drop, List.length_nil] at this
      omega
    have := (walk_bounds id (M.drop 1) 1 hne).2
    simp only [List.length_drop] at this
    omega

theorem split_two {α : Type} (M : List α) (i : Nat) (h : i + 1 < M.length) :
    M = M.take i ++ M[i] :: M[i + 1] :: M.drop (i + 2) := by
  conv_lhs => rw [← List.take_append_drop i M]
  congr 1
  rw [List.drop_eq_getElem_cons (by omega : i < M.length)]
  rw [List.drop_eq_getElem_cons h]

theorem IntegrateInsertFuel_adjacent (fuel : Nat) (document : Document)
    (c prev next p n : Character) (L R : List Character)
    (h : document.Characters = L ++ p :: n :: R)
    (hnd : (ids document.Characters).Nodup) (hp : p.ID = prev.ID) (hn : n.ID = next.ID)
    (hc : c.ID ≠ "") :
    IntegrateInsertFuel (fuel + 1) document c prev next
      = some ({ Characters := splice (L ++ [p]) (n :: R) c }, none) := by
  obtain ⟨_, hN, hS⟩ := Subseq_between document prev next p n L [] R (by simpa using h) hnd hp hn
  unfold IntegrateInsertFuel
  rw [hS]
  simp only [List.length_nil, if_true, hN]
  have e : ((L.length : Int) + (0 : Nat) + 2 - 1) = ((L ++ [p]).length : Int) := by
    simp only [List.length_append, List.length_cons, List.length_nil]; push_cast; ring
  rw [e]
  have hd : document = { Characters := (L ++ [p]) ++ n :: R } := by
    cases document; simp at h; simp [h]
  rw [hd, LocalInsert_append (L ++ [p]) (n :: R) c (by simp) (by simp) hc]

/-- The placement rule of `IntegrateInsert` on a document with pairwise distinct ids. -/
theorem IntegrateInsertFuel_place (fuel : Nat) (document : Document)
    (c prev next p n : Character) (L M R : List Character)
    (h : document.Characters = L ++ p :: (M ++ n :: R))
    (hnd : (ids document.Characters).Nodup) (hp : p.ID = prev.ID) (hn : n.ID = next.ID)
    (hc : c.ID ≠ "") :
    IntegrateInsertFuel (fuel + 2) document c prev next
      = some (Document.mk (splice (L ++ p :: M.take (placeIndex c.ID M))
          (M.drop (placeIndex c.ID M) ++ n :: R) c), none) := by
  rcases Nat.lt_or_ge M.length 2 with hlen | hlen
  · -- at most one character between the bounds
    have hk : placeIndex c.ID M = 0 := by unfold placeIndex; simp; omega
    rw [hk]
    obtain ⟨_, hN, hS⟩ := Subseq_between document prev next p n L M R h hnd hp hn
    unfold IntegrateInsertFuel
    rw [hS]
    simp only [hN, List.take_zero, List.drop_zero]
    have hd : document = { Characters := (L ++ [p]) ++ (M ++ n :: R) } := by
      cases document; simp at h; simp [h]
    rcases Nat.lt_or_ge M.length 1 with h0 | h1
    · have hM : M.length = 0 := by omega
      simp only [hM, if_true]
      have e : ((L.length : Int) + (0 : Nat) + 2 - 1) = ((L ++ [p]).length : Int) := by
        simp only [List.length_append, List.length_cons, List.length_nil]; push_cast; ring
      rw [e, hd, LocalInsert_append (L ++ [p]) (M ++ n :: R) c (by simp) (by simp) hc]
    · have hM : M.length = 1 := by omega
      simp only [hM]
      have e : ((L.length : Int) + (1 : Nat) + 2 - 1 - 1) = ((L ++ [p]).length : Int) := by
        simp only [List.length_append, List.length_cons, List.length_nil]; push_cast; ring
      simp only [Nat.one_ne_zero, if_false, if_true]
      rw [e, hd, LocalInsert_append (L ++ [p]) (M ++ n :: R) c (by simp) (by simp) hc]
  · -- two or more: one recursive call, on two adjacent characters
    have hk : placeIndex c.ID M = walk c.ID (M.drop 1) 1 := by
      unfold placeIndex; rw [if_neg (by omega)]
    have hne : M.drop 1 ≠ [] := by
      intro h0
      have := congrArg List.length h0
      simp only [List.length_drop, List.length_nil] at this
      omega
    obtain ⟨hlo, hhi⟩ := walk_bounds c.ID (M.drop 1) 1 hne
    rw [← hk] at hlo hhi
    simp only [List.length_drop] at hhi
    generalize placeIndex c.ID M = k at hk hlo hhi ⊢
    obtain ⟨i, rfl⟩ : ∃ i, k = i + 1 := ⟨k - 1, by omega⟩
    have hi : i + 1 < M.length := by omega
    obtain ⟨_, _, hS⟩ := Subseq_between document prev next p n L M R h hnd hp hn
    unfold IntegrateInsertFuel
    rw [hS]
    have hl0 : ¬ M.length = 0 := by omega
    have hl1 : ¬ M.length = 1 := by omega
    simp only [hl0, hl1, if_false, ← hk, Nat.add_sub_cancel]
    rw [List.getD_eq_getElem M default (by omega : i < M.length),
      List.getD_eq_getElem M default hi]
    have hsplit := split_two M i hi
    have h' : document.Characters
        = (L ++ p :: M.take i) ++ M[i] :: M[i + 1] :: (M.drop (i + 2) ++ n :: R) := by
      rw [h]
      have e : M ++ n :: R
          = (M.take i ++ M[i] :: M[i + 1] :: M.drop (i + 2)) ++ n :: R :=
        congrArg (fun l => l ++ n :: R) hsplit
      rw [e]
      simp only [List.append_assoc, List.cons_append]
    rw [IntegrateInsertFuel_adjacent fuel document c M[i] M[i + 1] M[i] M[i + 1]
      (L ++ p :: M.take i) (M.drop (i + 2) ++ n :: R) h' hnd rfl rfl hc]
    have t1 : M.take (i + 1) = M.take i ++ [M[i]] := by
      rw [List.take_succ, List.getElem?_eq_getElem (by omega : i < M.length)]
      rfl
    have t2 : M.drop (i + 1) = M[i + 1] :: M.drop (i + 2) :=
      List.drop_eq_getElem_cons hi
    have e1 : (L ++ p :: M.take i) ++ [M[i]] = L ++ p :: M.take (i + 1) := by
      rw [t1]; simp only [List.append_assoc, List.cons_append]
    have e2 : M[i + 1] :: (M.drop (i + 2) ++ n :: R) = M.drop (i + 1) ++ n :: R := by
      rw [t2]; rfl
    rw [e1, e2]

theorem IntegrateInsert_place (document : Document)
    (c prev next p n : Character) (L M R : List Character)
    (h : document.Characters = L ++ p :: (M ++ n :: R))
    (hnd : (ids document.Characters).Nodup) (hp : p.ID = prev.ID) (hn : n.ID = next.ID)
    (hc : c.ID ≠ "") :
    document.IntegrateInsert c prev next
      = some (Document.mk (splice (L ++ p :: M.take (placeIndex c.ID M))
          (M.drop (placeIndex c.ID M) ++ n :: R) c), none) := by
  unfold Document.IntegrateInsert
  have hlen : document.Characters.length + 1 = (L.length + M.length + R.length + 1) + 2 := by
    rw [h]; simp only [List.length_append, List.length_cons]; omega
  rw [hlen]
  exact IntegrateInsertFuel_place _ document c prev next p n L M R h hnd hp hn hc

theorem filterMap_modify {α β : Type} (g : α → α) (f : α → Option β) (hg : ∀ x, f (g x) = f x)
    (l : List α) (k : Nat) : (l.modify g k).filterMap f = l.filterMap f := by
  induction l generalizing k with
  | nil => simp
  | cons a l ih =>
    cases k with
    | zero => simp [List.filterMap_cons, hg]
    | succ k => simp [List.filterMap_cons, ih]

theorem map_modify {α β : Type} (g : α → α) (f : α → β) (hg : ∀ x, f (g x) = f x)
    (l : List α) (k : Nat) : (l.modify g k).map f = l.map f := by
  induction l generalizing k with
  | nil => simp
  | cons a l ih =>
    cases k with
    | zero => simp [hg]
    | succ k => simp [ih]

theorem visibleValues_eq_filterMap (l : List Character) :
    visibleValues l = l.filterMap (fun x => if x.Visible then some x.Value else none) := by
  induction l with
  | nil => rfl
  | cons a l ih =>
    unfold visibleValues at ih ⊢
    by_cases h : a.Visible <;> simp [List.filterMap_cons, h, ih]

theorem visibleValues_append (A B : List Character) :
    visibleValues (A ++ B) = visibleValues A ++ visibleValues B := by
  simp [visibleValues]

theorem visibleCount_append (A B : List Character) :
    visibleCount (A ++ B) = visibleCount A + visibleCount B := by
  simp [visibleCount]

theorem length_visibleValues (l : List Character) :
    (visibleValues l).length = visibleCount l := by
  simp [visibleValues, visibleCount]

theorem visibleValues_splice (A B : List Character) (c : Character) :
    visibleValues (splice A B c) = visibleValues A ++ visibleValues (c :: B) := by
  unfold splice
  rw [visibleValues_append]
  have hcons : ∀ (x : Character) (l : List Character),
      visibleValues (x :: l) = visibleValues [x] ++ visibleValues l :=
    fun x l => visibleValues_append [x] l
  rw [hcons c (List.modify _ 0 B), hcons c B]
  simp only [visibleValues_eq_filterMap]
  rw [filterMap_modify (fun neighbour : Character => { neighbour with NextID := c.ID })
      (fun x : Character => if x.Visible then some x.Value else none) (fun _ => rfl),
    filterMap_modify (fun neighbour : Character => { neighbour with PrevID := c.ID })
      (fun x : Character => if x.Visible then some x.Value else none) (fun _ => rfl)]

theorem ids_splice (A B : List Character) (c : Character) :
    ids (splice A B c) = ids A ++ c.ID :: ids B := by
  unfold splice ids
  rw [List.map_append, List.map_cons,
    map_modify (fun neighbour : Character => { neighbour with NextID := c.ID })
      Character.ID (fun _ => rfl),
    map_modify (fun neighbour : Character => { neighbour with PrevID := c.ID })
      Character.ID (fun _ => rfl)]

theorem length_splice (A B : List Character) (c : Character) :
    (splice A B c).length = A.length + B.length + 1 := by
  unfold splice
  simp only [List.length_append, List.length_cons, List.length_modify]
  omega

theorem IthVisibleLoop_found (vp : Int) (A : List Character) (c : Character)
    (B : List Character) (vc : Int) (hc : c.Visible = true)
    (h : vc + visibleCount A = vp - 1) :
    IthVisibleLoop vp (A ++ c :: B) vc = c := by
  induction A generalizing vc with
  | nil =>
    simp only [visibleCount, List.filter_nil, List.length_nil] at h
    have : vc = vp - 1 := by omega
    simp [IthVisibleLoop, hc, this]
  | cons a A ih =>
    rw [List.cons_append]
    by_cases ha : a.Visible = true
    · have hcount : visibleCount (a :: A) = visibleCount A + 1 := by
        simp [visibleCount, ha]
      rw [hcount] at h
      have hne : ¬ vc = vp - 1 := by push_cast at h; omega
      simp only [IthVisibleLoop, ha, hne, if_true, if_false]
      exact ih (vc + 1) (by push_cast at h; omega)
    · have hcount : visibleCount (a :: A) = visibleCount A := by
        simp [visibleCount, ha]
      rw [hcount] at h
      simp only [IthVisibleLoop, ha]
      exact ih vc h

theorem IthVisibleLoop_notFound (vp : Int) (l : List Character) (vc : Int)
    (h : vp - 1 < vc ∨ vc + visibleCount l ≤ vp - 1) :
    IthVisibleLoop vp l vc = notFound := by
  induction l generalizing vc with
  | nil => rfl
  | cons a l ih =>
    by_cases ha : a.Visible = true
    · have hcount : visibleCount (a :: l) = visibleCount l + 1 := by
        simp [visibleCount, ha]
      rw [hcount] at h
      have hne : ¬ vc = vp - 1 := by push_cast at h; omega
      simp only [IthVisibleLoop, ha, hne, if_true, if_false]
      exact ih (vc + 1) (by push_cast at h; omega)
    · have hcount : visibleCount (a :: l) = visibleCount l := by
        simp [visibleCount, ha]
      rw [hcount] at h
      simp only [IthVisibleLoop, ha]
      exact ih vc h

/-- The characters up to the `k+1`-th visible one, that character, and the characters after. -/
theorem exists_split_visible (l : List Character) (k : Nat) (h : k < visibleCount l) :
    ∃ A c B, l = A ++ c :: B ∧ c.Visible = true ∧ visibleCount A = k := by
  induction l generalizing k with
  | nil => simp [visibleCount] at h
  | cons a l ih =>
    by_cases ha : a.Visible = true
    · have hcount : visibleCount (a :: l) = visibleCount l + 1 := by
        simp [visibleCount, ha]
      cases k with
      | zero => exact ⟨[], a, l, rfl, ha, rfl⟩
      | succ k =>
        obtain ⟨A, c, B, hl, hc, hA⟩ := ih k (by omega)
        refine ⟨a :: A, c, B, by simp [hl], hc, ?_⟩
        simp [visibleCount, ha] at hA ⊢
        exact hA
    · have hcount : visibleCount (a :: l) = visibleCount l := by
        simp [visibleCount, ha]
      obtain ⟨A, c, B, hl, hc, hA⟩ := ih k (by omega)
      refine ⟨a :: A, c, B, by simp [hl], hc, ?_⟩
      simp [visibleCount, ha] at hA ⊢
      exact hA

theorem toDigitsCore_ne_nil (b f n : Nat) (ds : List Char) (h : ds ≠ []) :
    Nat.toDigitsCore b f n ds ≠ [] := by
  induction f generalizing n ds with
  | zero => simpa [Nat.toDigitsCore] using h
  | succ f ih =>
    simp only [Nat.toDigitsCore]
    split
    · simp
    · exact ih _ _ (by simp)

theorem repr_data_ne_nil (n : Nat) : (Nat.repr n).data ≠ [] := by
  simp only [Nat.repr, Nat.toDigits, List.asString, Nat.toDigitsCore]
  split
  · simp
  · exact toDigitsCore_ne_nil _ _ _ _ (by simp)

theorem Sprint_data_ne_nil (n : Int) : (Sprint n).data ≠ [] := by
  cases n with
  | ofNat m => exact repr_data_ne_nil m
  | negSucc m => simp [Sprint, String.data_append]

theorem generated_ID_ne_empty (globals : Globals) (value : String) (prev next : Character) :
    (generated globals value prev next).ID ≠ "" := by
  intro h
  have := congrArg String.data h
  simp only [generated, String.data_append, List.append_eq_nil] at this
  exact Sprint_data_ne_nil _ this.1

theorem of_StartsWithStart (document : Document) (h : StartsWithStart document) :
    ∃ s rest, document.Characters = s :: rest ∧ s.ID = "start" ∧ s.Visible = false := by
  unfold StartsWithStart at h
  cases hc : document.Characters with
  | nil => rw [hc] at h; simp at h
  | cons s rest =>
    rw [hc] at h
    simp only [List.head?_cons, Option.map_some', Option.some.injEq, Prod.mk.injEq] at h
    exact ⟨s, rest, rfl, h.1, h.2⟩

theorem of_EndsWithEnd (document : Document) (h : EndsWithEnd document) :
    ∃ init e, document.Characters = init ++ [e] ∧ e.ID = "end" ∧ e.Visible = false := by
  unfold EndsWithEnd at h
  rcases List.eq_nil_or_concat document.Characters with hc | ⟨init, e, hc⟩
  · rw [hc] at h; simp at h
  · rw [hc] at h
    simp only [List.concat_eq_append, List.getLast?_append, List.getLast?_singleton,
      Option.or, Option.map_some', Option.some.injEq, Prod.mk.injEq] at h
    exact ⟨init, e, by simpa using hc, h.1, h.2⟩

theorem GenerateInsert_eq (globals : Globals) (document : Document) (position : Int)
    (value : String) :
    document.GenerateInsert globals position value
      = (document.IntegrateInsert
          (generated globals value (prevBound document position) (nextBound document position))
          (prevBound document position) (nextBound document position)).map
        (fun result => ({ globals with LocalClock := globals.LocalClock + 1 }, result.1, result.2)) :=
  rfl

theorem visibleCount_cons_invisible (a : Character) (l : List Character)
    (h : a.Visible = false) : visibleCount (a :: l) = visibleCount l := by
  simp [visibleCount, h]

theorem visibleCount_cons_visible (a : Character) (l : List Character)
    (h : a.Visible = true) : visibleCount (a :: l) = visibleCount l + 1 := by
  simp [visibleCount, h]

theorem Find_end (document : Document) (init : List Character) (e : Character)
    (h : document.Characters = init ++ [e]) (he : e.ID = "end")
    (hnd : (ids document.Characters).Nodup) : document.Find "end" = e := by
  unfold Document.Find
  rw [h]
  apply FindLoop_append "end" init e [] _ he
  intro hmem
  rw [h, ids_append, List.nodup_append] at hnd
  exact hnd.2.2 hmem (by simp [ids, he])

theorem Find_start (document : Document) (s : Character) (rest : List Character)
    (h : document.Characters = s :: rest) (hs : s.ID = "start") :
    document.Find "start" = s := by
  unfold Document.Find
  rw [h]
  simp [FindLoop, hs]

/-- The bounds of `GenerateInsert` at a position between 1 and the number of visible characters
plus one: the characters between them are tombstones, and `position - 1` visible characters
stand up to the left bound. -/
theorem bounds_split (document : Document) (position : Int)
    (hstart : StartsWithStart document) (hend : EndsWithEnd document)
    (hnd : (ids document.Characters).Nodup)
    (hmark : ∀ x ∈ document.Characters, x.Visible = true → x.ID ≠ "-1")
    (h1 : 1 ≤ position) (h2 : position ≤ visibleCount document.Characters + 1) :
    ∃ L M R, document.Characters
        = L ++ prevBound document position :: (M ++ nextBound document position :: R)
      ∧ visibleCount M = 0
      ∧ (visibleCount (L ++ [prevBound document position]) : Int) = position - 1 := by
  obtain ⟨s, rest, hs, hsid, hsv⟩ := of_StartsWithStart document hstart
  obtain ⟨init, e, he, heid, hev⟩ := of_EndsWithEnd document hend
  have hfindE := Find_end document init e he heid hnd
  have hfindS := Find_start document s rest hs hsid
  -- the left bound, with the characters on its left and on its right
  have hprev : ∃ L B, document.Characters = L ++ prevBound document position :: B
      ∧ (visibleCount (L ++ [prevBound document position]) : Int) = position - 1
      ∧ B ≠ [] := by
    by_cases hp1 : position = 1
    · have hnf : IthVisible document (position - 1) = notFound :=
        IthVisibleLoop_notFound _ _ _ (Or.inl (by omega))
      have hpb : prevBound document position = s := by
        unfold prevBound; rw [hnf]; simp [notFound, hfindS]
      refine ⟨[], rest, by rw [hpb]; simpa using hs, ?_, ?_⟩
      · rw [hpb]; simp [visibleCount, hsv, hp1]
      · intro hrest
        rw [hrest] at hs
        have : [s] = init ++ [e] := by rw [← hs, he]
        have hlast := congrArg List.getLast? this
        simp at hlast
        rw [hlast, heid] at hsid
        exact absurd hsid (by decide)
    · have hk : (position - 2).toNat < visibleCount document.Characters := by omega
      obtain ⟨A, c, B, hl, hc, hA⟩ := exists_split_visible document.Characters _ hk
      have hfound : IthVisible document (position - 1) = c := by
        unfold IthVisible
        rw [hl]
        exact IthVisibleLoop_found _ A c B 0 hc (by rw [hA]; omega)
      have hcid : c.ID ≠ "-1" := hmark c (by rw [hl]; simp) hc
      have hpb : prevBound document position = c := by
        unfold prevBound; rw [hfound]; simp [hcid]
      refine ⟨A, B, by rw [hpb]; exact hl, ?_, ?_⟩
      · rw [hpb, visibleCount_append, visibleCount_cons_visible c [] hc, hA]
        simp [visibleCount]; omega
      · intro hB
        rw [hB] at hl
        have : A ++ [c] = init ++ [e] := by rw [← hl, he]
        have hlast := congrArg List.getLast? this
        simp at hlast
        rw [hlast, hev] at hc
        exact absurd hc (by decide)
  obtain ⟨L, B, hL, hcount, hB⟩ := hprev
  have hcountB : (visibleCount document.Characters : Int)
      = (position - 1) + visibleCount B := by
    have : document.Characters = (L ++ [prevBound document position]) ++ B := by
      rw [hL]; simp
    rw [this, visibleCount_append]
    push_cast
    omega
  by_cases hlast : position = visibleCount document.Characters + 1
  · -- the right bound is the end sentinel
    have hnf : IthVisible document position = notFound :=
      IthVisibleLoop_notFound _ _ _ (Or.inr (by omega))
    have hnb : nextBound document position = e := by
      unfold nextBound; rw [hnf]; simp [notFound, hfindE]
    obtain ⟨M, b, hBM⟩ : ∃ M b, B = M ++ [b] := by
      rcases List.eq_nil_or_concat B with h | ⟨M, b, h⟩
      · exact absurd h hB
      · exact ⟨M, b, by simpa using h⟩
    have hcat : (L ++ prevBound document position :: M) ++ [b] = init ++ [e] := by
      rw [← he, hL, hBM]; simp
    have hbe : b = e := by
      have := (List.append_inj' hcat rfl).2
      simpa using this
    refine ⟨L, M, [], ?_, ?_, hcount⟩
    · rw [hnb, ← hbe, ← hBM]; exact hL
    · have : visibleCount B = 0 := by omega
      rw [hBM, visibleCount_append] at this
      omega
  · -- the right bound is the next visible character
    have hk : 0 < visibleCount B := by omega
    obtain ⟨M, c, R, hl, hc, hM⟩ := exists_split_visible B 0 hk
    have hdoc : document.Characters
        = (L ++ prevBound document position :: M) ++ c :: R := by
      rw [hL, hl]; simp
    have hfound : IthVisible document position = c := by
      unfold IthVisible
      rw [hdoc]
      apply IthVisibleLoop_found _ _ c R 0 hc
      have : L ++ prevBound document position :: M
          = (L ++ [prevBound document position]) ++ M := by simp
      rw [this, visibleCount_append, hM]
      push_cast
      omega
    have hcid : c.ID ≠ "-1" := hmark c (by rw [hdoc]; simp) hc
    have hnb : nextBound document position = c := by
      unfold nextBound; rw [hfound]; simp [hcid]
    refine ⟨L, M, R, ?_, hM, hcount⟩
    rw [hnb, hL, hl]

theorem insertIdx_append_length {α : Type} (A B : List α) (a : α) :
    (A ++ B).insertIdx A.length a = A ++ a :: B := by
  induction A with
  | nil => simp
  | cons x A ih => simp [List.insertIdx_succ_cons, ih]

theorem visibleValues_eq_nil (l : List Character) (h : visibleCount l = 0) :
    visibleValues l = [] := by
  rw [← List.length_eq_zero, length_visibleValues, h]

theorem visibleCount_take_drop (l : List Character) (k : Nat) (h : visibleCount l = 0) :
    visibleCount (l.take k) = 0 ∧ visibleCount (l.drop k) = 0 := by
  have : visibleCount (l.take k ++ l.drop k) = 0 := by rw [List.take_append_drop]; exact h
  rw [visibleCount_append] at this
  omega

/-- What `Insert` does at a position between 1 and the number of visible characters plus one, on
a document with sentinels, pairwise distinct ids and no visible character with the id "-1". -/
theorem Insert_of_bounds (globals : Globals) (document : Document) (position : Int)
    (value : String)
    (hstart : StartsWithStart document) (hend : EndsWithEnd document)
    (hnd : (ids document.Characters).Nodup)
    (hmark : ∀ x ∈ document.Characters, x.Visible = true → x.ID ≠ "-1")
    (h1 : 1 ≤ position) (h2 : position ≤ visibleCount document.Characters + 1) :
    ∃ L M R k, document.Characters
        = L ++ prevBound document position :: (M ++ nextBound document position :: R)
      ∧ visibleCount M = 0
      ∧ (visibleCount (L ++ [prevBound document position]) : Int) = position - 1
      ∧ k ≤ M.length
      ∧ document.Insert globals position value
        = some ({ globals with LocalClock := globals.LocalClock + 1 },
            Document.mk (splice (L ++ prevBound document position :: M.take k)
              (M.drop k ++ nextBound document position :: R)
              (generated globals value (prevBound document position)
                (nextBound document position))),
            Content (Document.mk (splice (L ++ prevBound document position :: M.take k)
              (M.drop k ++ nextBound document position :: R)
              (generated globals value (prevBound document position)
                (nextBound document position)))),
            none) := by
  obtain ⟨L, M, R, hdoc, hM, hcount⟩ :=
    bounds_split document position hstart hend hnd hmark h1 h2
  refine ⟨L, M, R,
    placeIndex (generated globals value (prevBound document position)
      (nextBound document position)).ID M,
    hdoc, hM, hcount, placeIndex_le _ M, ?_⟩
  unfold Document.Insert
  rw [GenerateInsert_eq,
    IntegrateInsert_place document _ _ _ _ _ L M R hdoc hnd rfl rfl
      (generated_ID_ne_empty globals value _ _)]
  rfl

/-- The visible values after the splice of `Insert_of_bounds`. -/
theorem visibleValues_insert (chars L M R : List Character) (pb nb c : Character) (k : Nat)
    (position : Int) (hdoc : chars = L ++ pb :: (M ++ nb :: R)) (hM : visibleCount M = 0)
    (hcount : (visibleCount (L ++ [pb]) : Int) = position - 1) (hc : c.Visible = true) :
    visibleValues (splice (L ++ pb :: M.take k) (M.drop k ++ nb :: R) c)
      = (visibleValues chars).insertIdx (position - 1).toNat c.Value := by
  obtain ⟨hT, hD⟩ := visibleCount_take_drop M k hM
  have e1 : visibleValues (L ++ pb :: M.take k) = visibleValues (L ++ [pb]) := by
    have : L ++ pb :: M.take k = (L ++ [pb]) ++ M.take k := by simp
    rw [this, visibleValues_append, visibleValues_eq_nil _ hT, List.append_nil]
  have e2 : visibleValues (c :: (M.drop k ++ nb :: R)) = c.Value :: visibleValues (nb :: R) := by
    have : c :: (M.drop k ++ nb :: R) = [c] ++ (M.drop k ++ nb :: R) := rfl
    rw [this, visibleValues_append, visibleValues_append, visibleValues_eq_nil _ hD]
    simp [visibleValues, hc]
  have e3 : visibleValues chars = visibleValues (L ++ [pb]) ++ visibleValues (nb :: R) := by
    have : chars = (L ++ [pb]) ++ (M ++ nb :: R) := by rw [hdoc]; simp
    rw [this]
    simp only [visibleValues_append, visibleValues_eq_nil _ hM, List.nil_append]
  have e4 : (position - 1).toNat = (visibleValues (L ++ [pb])).length := by
    rw [length_visibleValues]; omega
  rw [visibleValues_splice, e1, e2, e3, e4, insertIdx_append_length]

theorem mem_splice (A B : List Character) (c : Character) : c ∈ splice A B c := by
  unfold splice
  simp

theorem forall₂_modify (g : Character → Character) (hg : ∀ x, kept x (g x))
    (l : List Character) (k : Nat) : List.Forall₂ kept l (l.modify g k) := by
  induction l generalizing k with
  | nil => simp
  | cons a l ih =>
    cases k with
    | zero =>
      rw [List.modify_zero_cons]
      exact List.Forall₂.cons (hg a) (List.forall₂_refl l)
    | succ k =>
      rw [List.modify_succ_cons]
      exact List.Forall₂.cons (refl a) (ih k)

theorem sublistForall₂_of_forall₂ {l₁ l₂ : List Character} (h : List.Forall₂ kept l₁ l₂) :
    List.SublistForall₂ kept l₁ l₂ :=
  List.sublistForall₂_iff.mpr ⟨l₂, h, List.Sublist.refl l₂⟩

theorem StaysTombstone_refl (document : Document) : StaysTombstone document document :=
  sublistForall₂_of_forall₂ (List.forall₂_refl _)

theorem StaysTombstone_trans {a b c : Document} (hab : StaysTombstone a b)
    (hbc : StaysTombstone b c) : StaysTombstone a c :=
  @IsTrans.trans (List Character) (List.SublistForall₂ kept) _ _ _ _ hab hbc

theorem kept_linkNext (id : String) (x : Character) : kept x { x with NextID := id } :=
  ⟨rfl, rfl, fun h => h⟩

theorem kept_linkPrev (id : String) (x : Character) : kept x { x with PrevID := id } :=
  ⟨rfl, rfl, fun h => h⟩

theorem kept_hide (x : Character) : kept x { x with Visible := false } :=
  ⟨rfl, rfl, fun _ => rfl⟩

theorem LocalInsert_stays (document : Document) (c : Character) (position : Int) :
    StaysTombstone document (document.LocalInsert c position).1 := by
  unfold Document.LocalInsert
  split
  · exact StaysTombstone_refl document
  · split
    · exact StaysTombstone_refl document
    · unfold StaysTombstone
      simp only
      have hins : List.SublistForall₂ kept document.Characters
          (document.Characters.take position.toNat
            ++ ([c] ++ document.Characters.drop position.toNat)) := by
        apply List.Sublist.sublistForall₂
        conv_lhs => rw [← List.take_append_drop position.toNat document.Characters]
        exact List.Sublist.append (List.Sublist.refl _) (List.sublist_append_right _ _)
      have h1 := sublistForall₂_of_forall₂
        (forall₂_modify (fun neighbour => { neighbour with NextID := c.ID })
          (kept_linkNext c.ID)
          (document.Characters.take position.toNat
            ++ ([c] ++ document.Characters.drop position.toNat)) (position - 1).toNat)
      have h2 := sublistForall₂_of_forall₂
        (forall₂_modify (fun neighbour => { neighbour with PrevID := c.ID })
          (kept_linkPrev c.ID)
          (List.modify (fun neighbour => { neighbour with NextID := c.ID }) (position - 1).toNat
            (document.Characters.take position.toNat
              ++ ([c] ++ document.Characters.drop position.toNat))) (position + 1).toNat)
      exact @IsTrans.trans (List Character) (List.SublistForall₂ kept) _ _ _ _
        (@IsTrans.trans (List Character) (List.SublistForall₂ kept) _ _ _ _ hins h1) h2

theorem LocalInsert_length (document : Document) (c : Character) (position : Int) :
    (document.LocalInsert c position).2 = none →
    (document.LocalInsert c position).1.Characters.length
      = document.Characters.length + 1 := by
  unfold Document.LocalInsert Document.Length
  split
  · simp
  · split
    · simp
    · rename_i h _
      intro _
      simp only [List.length_modify, List.length_append, List.length_cons, List.length_nil,
        List.length_take, List.length_drop]
      omega

theorem LocalInsert_error (document : Document) (c : Character) (position : Int)
    (e : Error) (h : (document.LocalInsert c position).2 = some e) :
    (document.LocalInsert c position).1 = document := by
  unfold Document.LocalInsert at h ⊢
  split
  · rfl
  · split
    · rfl
    · rename_i h1 h2
      simp [h1, h2] at h

theorem IntegrateDelete_stays (document : Document) (c : Character) :
    StaysTombstone document (document.IntegrateDelete c) := by
  unfold Document.IntegrateDelete
  simp only
  split
  · exact StaysTombstone_refl document
  · exact sublistForall₂_of_forall₂ (forall₂_modify _ kept_hide _ _)

/-- Every result of `IntegrateInsert` is the unchanged document with an error, or the result of
one `LocalInsert` into the document. -/
theorem IntegrateInsertFuel_shape (fuel : Nat) (document : Document)
    (c prev next : Character) (r : Document × Option Error)
    (h : IntegrateInsertFuel fuel document c prev next = some r) :
    (∃ e, r = (document, some e)) ∨ ∃ position, r = document.LocalInsert c position := by
  induction fuel generalizing prev next with
  | zero => simp [IntegrateInsertFuel] at h
  | succ fuel ih =>
    unfold IntegrateInsertFuel at h
    split at h
    · rename_i err _
      left
      exact ⟨err, by simpa using h.symm⟩
    · simp only at h
      split at h
      · right; exact ⟨_, by simpa using h.symm⟩
      · split at h
        · right; exact ⟨_, by simpa using h.symm⟩
        · exact ih _ _ h

theorem PositionLoop_getElem_le (l : List Character) (j : Nat) (hj : j < l.length) (k : Int) :
    k < PositionLoop l[j].ID l k ∧ PositionLoop l[j].ID l k ≤ k + j + 1 := by
  induction l generalizing j k with
  | nil => simp at hj
  | cons a l ih =>
    simp only [PositionLoop]
    split
    · omega
    · rename_i hne
      cases j with
      | zero => simp at hne
      | succ j =>
        simp only [List.length_cons, Nat.add_lt_add_iff_right] at hj
        have := ih j hj (k + 1)
        simp only [List.getElem_cons_succ]
        push_cast
        omega

/-- A `Subseq` without error is empty, or it is the slice between two positions in range. -/
theorem Subseq_ok (document : Document) (prev next : Character) (sub : List Character)
    (h : document.Subseq prev next = (sub, none)) :
    sub = [] ∨ ∃ s e : Nat, document.Position prev.ID = s ∧ document.Position next.ID = e
      ∧ 0 < s ∧ s < e ∧ e ≤ document.Characters.length
      ∧ sub = (document.Characters.take (e - 1)).drop s := by
  unfold Document.Subseq at h
  simp only at h
  split at h
  · simp at h
  · split at h
    · simp at h
    · split at h
      · left; simpa using h.symm
      · right
        rename_i h1 h2 h3
        have rs := PositionLoop_range prev.ID document.Characters 0
        have re := PositionLoop_range next.ID document.Characters 0
        unfold Document.Position at h h1 h2 h3 ⊢
        refine ⟨(PositionLoop prev.ID document.Characters 0).toNat,
          (PositionLoop next.ID document.Characters 0).toNat, ?_, ?_, ?_, ?_, ?_, ?_⟩
        · omega
        · omega
        · omega
        · omega
        · omega
        · have e1 : (PositionLoop next.ID document.Characters 0 - 1).toNat
              = (PositionLoop next.ID document.Characters 0).toNat - 1 := by omega
          simp only [slice, Prod.mk.injEq, and_true] at h
          rw [← h, e1]

theorem IntegrateInsertFuel_total (fuel : Nat) (document : Document)
    (c prev next : Character) (h : document.Position next.ID ≤ fuel) :
    ∃ r, IntegrateInsertFuel (fuel + 1) document c prev next = some r := by
  induction fuel generalizing prev next with
  | zero =>
    unfold IntegrateInsertFuel
    split
    · exact ⟨_, rfl⟩
    · rename_i sub hS
      rcases Subseq_ok document prev next sub hS with hnil | ⟨s, e, _, he, _, _, _, _⟩
      · simp [hnil]
      · omega
  | succ fuel ih =>
    unfold IntegrateInsertFuel
    split
    · exact ⟨_, rfl⟩
    · rename_i sub hS
      simp only
      split
      · exact ⟨_, rfl⟩
      · split
        · exact ⟨_, rfl⟩
        · rename_i h0 h1
          apply ih
          rcases Subseq_ok document prev next sub hS with hnil | ⟨s, e, _, he, hs, hse, hel, hsub⟩
          · simp [hnil] at h0
          · have hlen : sub.length = e - 1 - s := by
              rw [hsub, List.length_drop, List.length_take]; omega
            have hne : sub.drop 1 ≠ [] := by
              intro hd
              have := congrArg List.length hd
              simp only [List.length_drop, List.length_nil] at this
              omega
            obtain ⟨hlo, hhi⟩ := walk_bounds c.ID (sub.drop 1) 1 hne
            simp only [List.length_drop] at hhi
            generalize walk c.ID (sub.drop 1) 1 = idx at hlo hhi ⊢
            have hidx : idx < sub.length := by omega
            rw [List.getD_eq_getElem sub default hidx]
            have hget : sub[idx] = document.Characters[s + idx] := by
              simp only [hsub, List.getElem_drop, List.getElem_take]
            rw [hget]
            have := (PositionLoop_getElem_le document.Characters (s + idx) (by omega) 0).2
            unfold Document.Position at he h ⊢
            push_cast at this
            omega

theorem IntegrateInsert_total (document : Document) (c prev next : Character) :
    ∃ r, document.IntegrateInsert c prev next = some r := by
  unfold Document.IntegrateInsert
  apply IntegrateInsertFuel_total
  have := PositionLoop_range next.ID document.Characters 0
  unfold Document.Position
  omega

theorem IntegrateInsert_stays (document : Document) (c prev next : Character) :
    ∃ r, document.IntegrateInsert c prev next = some r ∧ StaysTombstone document r.1 := by
  obtain ⟨r, hr⟩ := IntegrateInsert_total document c prev next
  refine ⟨r, hr, ?_⟩
  rcases IntegrateInsertFuel_shape _ document c prev next r hr with ⟨e, rfl⟩ | ⟨position, rfl⟩
  · exact StaysTombstone_refl document
  · exact LocalInsert_stays document c position

theorem PositionLoop_ids (id : String) (l l' : List Character) (k : Int)
    (h : ids l = ids l') : PositionLoop id l k = PositionLoop id l' k := by
  induction l generalizing l' k with
  | nil =>
    cases l' with
    | nil => rfl
    | cons b l' => simp [ids] at h
  | cons a l ih =>
    cases l' with
    | nil => simp [ids] at h
    | cons b l' =>
      simp only [ids, List.map_cons, List.cons.injEq] at h
      simp only [PositionLoop, h.1]
      rw [ih l' (k + 1) h.2]

theorem ids_modify_hide (l : List Character) (k : Nat) :
    ids (l.modify (fun target => { target with Visible := false }) k) = ids l :=
  map_modify (fun target : Character => { target with Visible := false }) Character.ID
    (fun _ => rfl) l k

theorem IntegrateDelete_absent (document : Document) (c : Character)
    (h : c.ID ∉ ids document.Characters) : document.IntegrateDelete c = document := by
  unfold Document.IntegrateDelete Document.Position
  rw [PositionLoop_not_mem c.ID document.Characters 0 h]
  rfl

theorem IntegrateDelete_present (document : Document) (c : Character)
    (h : document.Position c.ID ≠ -1) :
    document.IntegrateDelete c
      = Document.mk (document.Characters.modify
          (fun target => { target with Visible := false })
          (document.Position c.ID - 1).toNat) := by
  unfold Document.IntegrateDelete
  simp [h]

theorem IntegrateDelete_twice (document : Document) (c : Character) :
    (document.IntegrateDelete c).IntegrateDelete c = document.IntegrateDelete c := by
  have hpos : (document.IntegrateDelete c).Position c.ID = document.Position c.ID := by
    unfold Document.IntegrateDelete
    simp only
    split
    · rfl
    · exact PositionLoop_ids _ _ _ _ (ids_modify_hide _ _)
  by_cases h : document.Position c.ID = -1
  · have : document.IntegrateDelete c = document := by
      unfold Document.IntegrateDelete; simp [h]
    rw [this, this]
  · rw [IntegrateDelete_present (document.IntegrateDelete c) c (by rw [hpos]; exact h), hpos,
      IntegrateDelete_present document c h]
    simp only [List.modify_modify_eq]
    rfl

theorem eraseIdx_append_length {α : Type} (A B : List α) (a : α) :
    (A ++ a :: B).eraseIdx A.length = A ++ B := by
  induction A with
  | nil => simp
  | cons x A ih => simp [ih]

/-- What `GenerateDelete` does at the position of a visible character, on a document with
pairwise distinct ids. -/
theorem GenerateDelete_split (document : Document) (position : Int)
    (hnd : (ids document.Characters).Nodup)
    (h1 : 1 ≤ position) (h2 : position ≤ visibleCount document.Characters) :
    ∃ A c B, document.Characters = A ++ c :: B ∧ c.Visible = true
      ∧ (visibleCount A : Int) = position - 1
      ∧ IthVisible document position = c
      ∧ document.GenerateDelete position
        = { Characters := A ++ { c with Visible := false } :: B } := by
  have hk : (position - 1).toNat < visibleCount document.Characters := by omega
  obtain ⟨A, c, B, hl, hc, hA⟩ := exists_split_visible document.Characters _ hk
  have hfound : IthVisible document position = c := by
    unfold IthVisible
    rw [hl]
    exact IthVisibleLoop_found _ A c B 0 hc (by rw [hA]; omega)
  have hcA : c.ID ∉ ids A := by
    intro hmem
    rw [hl, ids_append, List.nodup_append] at hnd
    exact hnd.2.2 hmem (by simp [ids])
  have hpos := Position_eq_of_split document c.ID A c B hl hcA rfl
  refine ⟨A, c, B, hl, hc, by omega, hfound, ?_⟩
  unfold Document.GenerateDelete Document.IntegrateDelete
  simp only [hfound, hpos]
  have hne : ¬ ((A.length : Int) + 1 = -1) := by omega
  have hidx : ((A.length : Int) + 1 - 1).toNat = A.length := by omega
  simp only [hne, if_false, hidx]
  rw [hl, modify_append_length]

theorem visibleValues_hide (A B : List Character) (c : Character) (position : Int)
    (hc : c.Visible = true) (hA : (visibleCount A : Int) = position - 1) :
    visibleValues (A ++ { c with Visible := false } :: B)
      = (visibleValues (A ++ c :: B)).eraseIdx (position - 1).toNat := by
  have e : (position - 1).toNat = (visibleValues A).length := by
    rw [length_visibleValues]; omega
  have e1 : visibleValues (A ++ { c with Visible := false } :: B)
      = visibleValues A ++ visibleValues B := by
    rw [visibleValues_append]
    simp [visibleValues]
  have e2 : visibleValues (A ++ c :: B) = visibleValues A ++ c.Value :: visibleValues B := by
    rw [visibleValues_append]
    simp [visibleValues, hc]
  rw [e1, e2, e, eraseIdx_append_length]

theorem digitChar_mod_isDigit (m : Nat) : (Nat.digitChar (m % 10)).isDigit = true := by
  have h := Nat.mod_lt m (by decide : 10 > 0)
  generalize m % 10 = d at h
  interval_cases d <;> decide

theorem toDigitsCore_digits (f n : Nat) (ds : List Char)
    (h : ∀ ch ∈ ds, ch.isDigit = true) :
    ∀ ch ∈ Nat.toDigitsCore 10 f n ds, ch.isDigit = true := by
  induction f generalizing n ds with
  | zero => simpa [Nat.toDigitsCore] using h
  | succ f ih =>
    have hcons : ∀ ch ∈ Nat.digitChar (n % 10) :: ds, ch.isDigit = true := by
      intro ch hch
      rcases List.mem_cons.mp hch with rfl | hmem
      · exact digitChar_mod_isDigit n
      · exact h ch hmem
    simp only [Nat.toDigitsCore]
    split
    · exact hcons
    · exact ih _ _ hcons

theorem Sprint_chars (n : Int) : ∀ ch ∈ (Sprint n).data, ch = '-' ∨ ch.isDigit = true := by
  have hrepr : ∀ m : Nat, ∀ ch ∈ (Nat.repr m).data, ch.isDigit = true := by
    intro m
    simp only [Nat.repr, Nat.toDigits, List.asString]
    exact toDigitsCore_digits _ _ [] (by simp)
  cases n with
  | ofNat m => intro ch hch; exact Or.inr (hrepr m ch hch)
  | negSucc m =>
    intro ch hch
    simp only [Sprint, String.data_append, List.mem_append] at hch
    rcases hch with h | h
    · left; simpa using h
    · exact Or.inr (hrepr _ ch h)

theorem generated_ID_chars (globals : Globals) (value : String) (prev next : Character) :
    ∀ ch ∈ (generated globals value prev next).ID.data, ch = '-' ∨ ch.isDigit = true := by
  intro ch hch
  simp only [generated, String.data_append, List.mem_append] at hch
  rcases hch with h | h
  · exact Sprint_chars _ ch h
  · exact Sprint_chars _ ch h

theorem generated_ID_ne_sentinel (globals : Globals) (value : String) (prev next : Character) :
    (generated globals value prev next).ID ≠ "start"
    ∧ (generated globals value prev next).ID ≠ "end" := by
  constructor
  · intro h
    have := generated_ID_chars globals value prev next 's' (by rw [h]; decide)
    revert this; decide
  · intro h
    have := generated_ID_chars globals value prev next 'e' (by rw [h]; decide)
    revert this; decide

theorem IntegrateInsert_success_length (document : Document) (c prev next : Character)
    (after : Document) (h : document.IntegrateInsert c prev next = some (after, none)) :
    after.Characters.length = document.Characters.length + 1 := by
  rcases IntegrateInsertFuel_shape _ document c prev next _ h with ⟨e, he⟩ | ⟨position, hp⟩
  · simp at he
  · have h2 : (document.LocalInsert c position).2 = none := by rw [← hp]
    have h1 : (document.LocalInsert c position).1 = after := by rw [← hp]
    rw [← h1]
    exact LocalInsert_length document c position h2

theorem Insert_success_length (globals : Globals) (document : Document) (position : Int)
    (value : String) (globals' : Globals) (after : Document) (content : String)
    (h : document.Insert globals position value = some (globals', after, content, none)) :
    after.Characters.length = document.Characters.length + 1 := by
  unfold Document.Insert at h
  rw [GenerateInsert_eq] at h
  cases hI : document.IntegrateInsert
      (generated globals value (prevBound document position) (nextBound document position))
      (prevBound document position) (nextBound document position) with
  | none => rw [hI] at h; simp at h
  | some r =>
    obtain ⟨d, e⟩ := r
    rw [hI] at h
    cases e with
    | some err => simp at h
    | none =>
      simp only [Option.map_some', Option.some.injEq, Prod.mk.injEq] at h
      rw [← h.2.1]
      exact IntegrateInsert_success_length document _ _ _ d hI

theorem split_of_ids (l : List Character) (I₁ I₂ I₃ : List String) (a b : String)
    (h : ids l = I₁ ++ a :: (I₂ ++ b :: I₃)) :
    ∃ L p M n R, l = L ++ p :: (M ++ n :: R) ∧ p.ID = a ∧ n.ID = b := by
  unfold ids at h
  obtain ⟨L, T, rfl, -, hT⟩ := List.map_eq_append_iff.mp h
  obtain ⟨p, T', rfl, hp, hT'⟩ := List.map_eq_cons_iff.mp hT
  obtain ⟨M, U, rfl, -, hU⟩ := List.map_eq_append_iff.mp hT'
  obtain ⟨n, R, rfl, hn, -⟩ := List.map_eq_cons_iff.mp hU
  exact ⟨L, p, M, n, R, rfl, hp, hn⟩

theorem split_of_positions (document : Document) (prev next : Character)
    (h0 : 0 < document.Position prev.ID)
    (h : document.Position prev.ID < document.Position next.ID) :
    ∃ L p M n R, document.Characters = L ++ p :: (M ++ n :: R)
      ∧ p.ID = prev.ID ∧ n.ID = next.ID := by
  unfold Document.Position at h0 h
  obtain ⟨A, p, B, hA, hpA, hp⟩ :=
    PositionLoop_split prev.ID document.Characters 0 (by omega) (le_refl 0)
  obtain ⟨A', n, B', hA', hnA', hn⟩ :=
    PositionLoop_split next.ID document.Characters 0 (by omega) (le_refl 0)
  have e1 := PositionLoop_append prev.ID A p B 0 hpA hp
  have e2 := PositionLoop_append next.ID A' n B' 0 hnA' hn
  rw [← hA] at e1
  rw [← hA'] at e2
  have hlt : A.length < A'.length := by omega
  have heq : A ++ p :: B = A' ++ n :: B' := by rw [← hA, ← hA']
  rcases List.append_eq_append_iff.mp heq with ⟨a', ha', hb'⟩ | ⟨c', hc', -⟩
  · cases a' with
    | nil => simp at ha'; rw [ha'] at hlt; omega
    | cons x M =>
      simp only [List.cons_append, List.cons.injEq] at hb'
      exact ⟨A, p, M, n, B', by rw [hA, hb'.2], hp, hn⟩
  · have := congrArg List.length hc'
    simp only [List.length_append] at this
    omega

/-- A second `IntegrateInsert` of the same character succeeds like the first one and leaves two
characters with its id. -/
theorem IntegrateInsert_twice (document : Document) (c prev next : Character)
    (hnd : (ids document.Characters).Nodup)
    (h0 : 0 < document.Position prev.ID)
    (h : document.Position prev.ID < document.Position next.ID)
    (hc : c.ID ≠ "") (hfresh : c.ID ∉ ids document.Characters) :
    ∃ once twice, document.IntegrateInsert c prev next = some (once, none)
      ∧ once.IntegrateInsert c prev next = some (twice, none)
      ∧ (ids once.Characters).count c.ID = 1
      ∧ (ids twice.Characters).count c.ID = 2
      ∧ twice.Characters.length = document.Characters.length + 2 := by
  obtain ⟨L, p, M, n, R, hdoc, hp, hn⟩ := split_of_positions document prev next h0 h
  have h1 := IntegrateInsert_place document c prev next p n L M R hdoc hnd hp hn hc
  generalize placeIndex c.ID M = k at h1
  -- the ids after the first integration
  have hids : ids (splice (L ++ p :: M.take k) (M.drop k ++ n :: R) c)
      = ids L ++ p.ID :: ((ids (M.take k) ++ c.ID :: ids (M.drop k)) ++ n.ID :: ids R) := by
    rw [ids_splice]
    simp [ids]
  have hAB : (L ++ p :: M.take k) ++ (M.drop k ++ n :: R) = document.Characters := by
    rw [hdoc]
    simp only [List.append_assoc, List.cons_append]
    rw [← List.append_assoc (M.take k), List.take_append_drop]
  have hperm : (ids (splice (L ++ p :: M.take k) (M.drop k ++ n :: R) c)).Perm
      (c.ID :: ids document.Characters) := by
    rw [ids_splice]
    have hm := @List.perm_middle _ c.ID (ids (L ++ p :: M.take k))
      (ids (M.drop k ++ n :: R))
    rw [← ids_append, hAB] at hm
    exact hm
  have hnd1 : (ids (splice (L ++ p :: M.take k) (M.drop k ++ n :: R) c)).Nodup :=
    hperm.nodup_iff.mpr (List.nodup_cons.mpr ⟨hfresh, hnd⟩)
  obtain ⟨L', p', M', n', R', hdoc', hp', hn'⟩ :=
    split_of_ids (splice (L ++ p :: M.take k) (M.drop k ++ n :: R) c) _ _ _ _ _ hids
  have h2 := IntegrateInsert_place
    (Document.mk (splice (L ++ p :: M.take k) (M.drop k ++ n :: R) c))
    c prev next p' n' L' M' R' hdoc' hnd1 (hp'.trans hp) (hn'.trans hn) hc
  refine ⟨_, _, h1, h2, ?_, ?_, ?_⟩
  · exact List.count_eq_one_of_mem hnd1 (by rw [hids]; simp)
  · rw [ids_splice]
    have hcount : (ids (L' ++ p' :: List.take (placeIndex c.ID M') M')
        ++ ids (List.drop (placeIndex c.ID M') M' ++ n' :: R')).count c.ID = 1 := by
      rw [← ids_append]
      have : L' ++ p' :: List.take (placeIndex c.ID M') M'
          ++ (List.drop (placeIndex c.ID M') M' ++ n' :: R')
          = splice (L ++ p :: M.take k) (M.drop k ++ n :: R) c := by
        rw [hdoc']
        simp only [List.append_assoc, List.cons_append]
        rw [← List.append_assoc (List.take _ M'), List.take_append_drop]
      rw [this]
      exact List.count_eq_one_of_mem hnd1 (by rw [hids]; simp)
    rw [List.count_append] at hcount ⊢
    rw [List.count_cons_self]
    omega
  · have e1 := IntegrateInsert_success_length _ _ _ _ _ h1
    have e2 := IntegrateInsert_success_length _ _ _ _ _ h2
    rw [e2, e1]

/-- On a fresh document, `Insert(1, "a")` then `Delete(1)` leaves three invisible characters. -/
theorem fresh_Insert_Delete (globals : Globals) :
    ∃ inserted,
      New.Insert globals 1 "a"
        = some ({ globals with LocalClock := globals.LocalClock + 1 }, inserted, "a", none)
      ∧ (inserted.Delete 1).1.Length = 3
      ∧ (inserted.Delete 1).1.Characters.map Character.Visible = [false, false, false]
      ∧ (inserted.Delete 1).2 = "" := by
  obtain ⟨L, M, R, k, hdoc, hM, hcount, -, hins⟩ :=
    Insert_of_bounds globals New 1 "a" (by decide) (by decide) (by decide) (by decide)
      (by decide) (by decide)
  have hpb : prevBound New 1 = StartCharacter := by decide
  have hnb : nextBound New 1 = EndCharacter := by decide
  rw [hpb, hnb] at hdoc hins
  have hL : L = [] ∧ M = [] ∧ R = [] := by
    have hlen := congrArg List.length hdoc
    simp only [New, List.length_cons, List.length_nil, List.length_append] at hlen
    refine ⟨List.length_eq_zero.mp (by omega), List.length_eq_zero.mp (by omega),
      List.length_eq_zero.mp (by omega)⟩
  obtain ⟨rfl, rfl, rfl⟩ := hL
  simp only [List.take_nil, List.drop_nil, List.nil_append] at hins
  have hsp := splice_concat_cons [] StartCharacter EndCharacter []
    (generated globals "a" StartCharacter EndCharacter)
  simp only [List.nil_append] at hsp
  rw [hsp] at hins
  obtain ⟨hs, -⟩ := generated_ID_ne_sentinel globals "a" StartCharacter EndCharacter
  generalize hg : generated globals "a" StartCharacter EndCharacter = g at hins hs
  have hgv : g.Visible = true := by rw [← hg]; rfl
  have hgval : g.Value = "a" := by rw [← hg]; rfl
  have hcontent : Content (Document.mk [{ StartCharacter with NextID := g.ID }, g,
      { EndCharacter with PrevID := g.ID }]) = "a" := by
    simp [Content, StartCharacter, EndCharacter, hgv, hgval]
  rw [hcontent] at hins
  have hith : IthVisible (Document.mk [{ StartCharacter with NextID := g.ID }, g,
      { EndCharacter with PrevID := g.ID }]) 1 = g := by
    simp [IthVisible, IthVisibleLoop, StartCharacter, hgv]
  have hposition : (Document.mk [{ StartCharacter with NextID := g.ID }, g,
      { EndCharacter with PrevID := g.ID }]).Position g.ID = 2 := by
    simp [Document.Position, PositionLoop, StartCharacter, hs]
  have hdel : (Document.mk [{ StartCharacter with NextID := g.ID }, g,
      { EndCharacter with PrevID := g.ID }]).Delete 1
      = (Document.mk [{ StartCharacter with NextID := g.ID }, { g with Visible := false },
          { EndCharacter with PrevID := g.ID }], "") := by
    unfold Document.Delete Document.GenerateDelete Document.IntegrateDelete
    simp only [hith, hposition]
    simp [Content, StartCharacter, EndCharacter]
  refine ⟨_, hins, ?_, ?_, ?_⟩
  · rw [hdel]; rfl
  · rw [hdel]; rfl
  · rw [hdel]

end crdt

namespace client

open crdt

theorem performOperation_insert (replica : Replica) (cursor : Int) (ch : Char)
    (globals : Globals) (after : Document) (content : String) (err : Option Error)
    (h : replica.document.Insert replica.globals (cursor + 1) (String.singleton ch)
      = some (globals, after, content, err)) :
    performOperation replica cursor OperationInsert ch
      = some ({ document := after, globals := globals },
          insertMessage (cursor + 1) (String.singleton ch)) := by
  unfold performOperation
  simp only [if_true, h]
  rfl

theorem handleMsg_insert (atoi : String → Int) (replica : Replica) (message : Message)
    (hT : message.MessageType = "operation")
    (hO : message.Operation.OperationType = "insert")
    (globals : Globals) (after : Document) (content : String) (err : Option Error)
    (h : replica.document.Insert replica.globals message.Operation.Position
      message.Operation.Value = some (globals, after, content, err)) :
    handleMsg atoi replica message = some { document := after, globals := globals } := by
  unfold handleMsg
  have h1 : ¬ message.MessageType = DocSyncMessage := by rw [hT]; decide
  have h2 : ¬ message.MessageType = DocReqMessage := by rw [hT]; decide
  have h3 : ¬ message.MessageType = SiteIDMessage := by rw [hT]; decide
  have h4 : ¬ message.MessageType = JoinMessage := by rw [hT]; decide
  simp only [h1, h2, h3, h4, hO, if_true, if_false, h]

end client

namespace crdt

theorem LocalInsert_outOfBounds (document : Document) (c : Character) (position : Int)
    (h : position ≤ 0 ∨ position ≥ document.Length) :
    document.LocalInsert c position = (document, some Error.ErrOutOfBounds) := by
  unfold Document.LocalInsert
  rw [if_pos h]

theorem LocalInsert_emptyID (document : Document) (c : Character) (position : Int)
    (h0 : 0 < position) (h1 : position < document.Length) (hc : c.ID = "") :
    document.LocalInsert c position = (document, some Error.ErrEmptyCharacter) := by
  unfold Document.LocalInsert
  rw [if_neg (by omega), if_pos hc]

theorem LocalInsert_inRange (document : Document) (c : Character) (position : Int)
    (h0 : 0 < position) (h1 : position < document.Length) (hc : c.ID ≠ "") :
    document.LocalInsert c position
      = (Document.mk (splice (document.Characters.take position.toNat)
          (document.Characters.drop position.toNat) c), none) := by
  unfold Document.Length at h1
  have hA : document.Characters.take position.toNat ≠ [] := by
    intro h
    have := congrArg List.length h
    simp only [List.length_take, List.length_nil] at this
    omega
  have hB : document.Characters.drop position.toNat ≠ [] := by
    intro h
    have := congrArg List.length h
    simp only [List.length_drop, List.length_nil] at this
    omega
  have hlen : ((document.Characters.take position.toNat).length : Int) = position := by
    simp only [List.length_take]
    omega
  have h := LocalInsert_append _ _ c hA hB hc
  rw [List.take_append_drop, hlen] at h
  exact h

theorem IntegrateInsert_error (document : Document) (c prev next : Character)
    (r : Document × Option Error) (h : document.IntegrateInsert c prev next = some r)
    (e : Error) (he : r.2 = some e) : r.1 = document := by
  rcases IntegrateInsertFuel_shape _ document c prev next r h with ⟨e', rfl⟩ | ⟨position, rfl⟩
  · rfl
  · exact LocalInsert_error document c position e he

theorem Insert_total (globals : Globals) (document : Document) (position : Int)
    (value : String) :
    ∃ after err, document.Insert globals position value
        = some ({ globals with LocalClock := globals.LocalClock + 1 }, after, Content after, err)
      ∧ document.IntegrateInsert
          (generated globals value (prevBound document position) (nextBound document position))
          (prevBound document position) (nextBound document position) = some (after, err) := by
  obtain ⟨⟨after, err⟩, hr⟩ := IntegrateInsert_total document
    (generated globals value (prevBound document position) (nextBound document position))
    (prevBound document position) (nextBound document position)
  refine ⟨after, err, ?_, hr⟩
  unfold Document.Insert
  rw [GenerateInsert_eq, hr]
  cases err <;> rfl

theorem Position_eq_neg_one_iff (document : Document) (id : String) :
    document.Position id = -1 ↔ id ∉ ids document.Characters := by
  constructor
  · intro h hmem
    unfold ids at hmem
    obtain ⟨x, hx, hid⟩ := List.mem_map.mp hmem
    obtain ⟨A, B, hAB⟩ := List.append_of_mem hx
    -- the first character with the id
    have : ∀ (l : List Character) (k : Int), 0 ≤ k → id ∈ ids l → PositionLoop id l k ≠ -1 := by
      intro l
      induction l with
      | nil => intro k _ hm; simp [ids] at hm
      | cons a l ih =>
        intro k hk hm
        simp only [PositionLoop]
        split
        · omega
        · rename_i hne
          simp only [ids, List.map_cons, List.mem_cons] at hm
          rcases hm with hm | hm
          · exact absurd hm hne
          · exact ih (k + 1) (by omega) hm
    exact this document.Characters 0 (le_refl 0) hmem h
  · exact PositionLoop_not_mem id document.Characters 0

/-- The characters up to the first one with the id of `a`, and up to the first one with the id
of `b`, when `a` comes first. -/
theorem split_of_positions_first (document : Document) (a b : Character)
    (h0 : 0 < document.Position a.ID)
    (h : document.Position a.ID < document.Position b.ID) :
    ∃ L x M y R, document.Characters = L ++ x :: (M ++ y :: R)
      ∧ x.ID = a.ID ∧ a.ID ∉ ids L ∧ y.ID = b.ID ∧ b.ID ∉ ids (L ++ x :: M) := by
  unfold Document.Position at h0 h
  obtain ⟨A, p, B, hA, hpA, hp⟩ :=
    PositionLoop_split a.ID document.Characters 0 (by omega) (le_refl 0)
  obtain ⟨A', n, B', hA', hnA', hn⟩ :=
    PositionLoop_split b.ID document.Characters 0 (by omega) (le_refl 0)
  have e1 := PositionLoop_append a.ID A p B 0 hpA hp
  have e2 := PositionLoop_append b.ID A' n B' 0 hnA' hn
  rw [← hA] at e1
  rw [← hA'] at e2
  have hlt : A.length < A'.length := by omega
  have heq : A ++ p :: B = A' ++ n :: B' := by rw [← hA, ← hA']
  rcases List.append_eq_append_iff.mp heq with ⟨a', ha', hb'⟩ | ⟨c', hc', -⟩
  · cases a' with
    | nil => simp at ha'; rw [ha'] at hlt; omega
    | cons x M =>
      simp only [List.cons_append, List.cons.injEq] at hb'
      refine ⟨A, p, M, n, B', by rw [hA, hb'.2], hp, hpA, hn, ?_⟩
      rw [ha', ← hb'.1] at hnA'
      exact hnA'
  · have := congrArg List.length hc'
    simp only [List.length_append] at this
    omega

/-- The result of `Subseq a b` when the first character with the id of `a` comes before the
first character with the id of `b`: the characters between the two. -/
theorem Subseq_between_first (document : Document) (a b x y : Character)
    (L M R : List Character) (h : document.Characters = L ++ x :: (M ++ y :: R))
    (hx : x.ID = a.ID) (hxL : a.ID ∉ ids L) (hy : y.ID = b.ID)
    (hyL : b.ID ∉ ids (L ++ x :: M)) :
    document.Position a.ID = L.length + 1 ∧
    document.Position b.ID = L.length + M.length + 2 ∧
    document.Subseq a b = (M, none) := by
  have hP : document.Position a.ID = L.length + 1 :=
    Position_eq_of_split document a.ID L x (M ++ y :: R) h hxL hx
  have hN : document.Position b.ID = L.length + M.length + 2 := by
    have h' : document.Characters = (L ++ x :: M) ++ y :: R := by simp [h]
    rw [Position_eq_of_split document b.ID (L ++ x :: M) y R h' hyL hy]
    simp only [List.length_append, List.length_cons]; push_cast; ring
  refine ⟨hP, hN, ?_⟩
  unfold Document.Subseq
  simp only [hP, hN]
  have c1 : ¬ ((L.length : Int) + 1 = -1 ∨ (L.length : Int) + M.length + 2 = -1) := by omega
  have c2 : ¬ ((L.length : Int) + 1 > (L.length : Int) + M.length + 2) := by omega
  have c3 : ¬ ((L.length : Int) + 1 = (L.length : Int) + M.length + 2) := by omega
  simp only [c1, c2, c3, if_false]
  congr 1
  unfold slice
  have e1 : ((L.length : Int) + M.length + 2 - 1).toNat = (L ++ x :: M).length := by
    simp only [List.length_append, List.length_cons]; omega
  have e2 : ((L.length : Int) + 1).toNat = (L ++ [x]).length := by
    simp only [List.length_append, List.length_cons, List.length_nil]; omega
  rw [e1, e2, h]
  have e3 : L ++ x :: (M ++ y :: R) = (L ++ x :: M) ++ y :: R := by simp
  rw [e3, List.take_left' rfl]
  have e4 : L ++ x :: M = (L ++ [x]) ++ M := by simp
  rw [e4, List.drop_left' rfl]

theorem Subseq_error_iff (document : Document) (a b : Character) :
    (document.Subseq a b).2 = some Error.ErrBoundsMissing
      ↔ (a.ID ∉ ids document.Characters ∨ b.ID ∉ ids document.Characters
          ∨ document.Position a.ID > document.Position b.ID) := by
  rw [← Position_eq_neg_one_iff, ← Position_eq_neg_one_iff]
  unfold Document.Subseq
  simp only
  constructor
  · intro h
    split at h
    · rename_i h1; rcases h1 with h1 | h1
      · exact Or.inl h1
      · exact Or.inr (Or.inl h1)
    · split at h
      · rename_i h2; exact Or.inr (Or.inr h2)
      · split at h <;> simp at h
  · intro h
    split
    · rfl
    · rename_i h1
      split
      · rfl
      · rename_i h2
        rcases h with h | h | h
        · exact absurd (Or.inl h) h1
        · exact absurd (Or.inr h) h1
        · exact absurd h h2

theorem Subseq_error_or_none (document : Document) (a b : Character) :
    (document.Subseq a b = (document.Characters, some Error.ErrBoundsMissing))
      ∨ (document.Subseq a b).2 = none := by
  unfold Document.Subseq
  simp only
  split
  · left; rfl
  · split
    · left; rfl
    · split
      · right; rfl
      · right; rfl

theorem Subseq_same_position (document : Document) (a b : Character)
    (h : document.Position a.ID = document.Position b.ID)
    (ha : document.Position a.ID ≠ -1) : document.Subseq a b = ([], none) := by
  unfold Document.Subseq
  simp only
  rw [if_neg (by rw [← h]; simp [ha]), if_neg (by omega), if_pos h]

theorem forall₂_head? {l l' : List Character} (h : List.Forall₂ kept l l') :
    ∀ first, l.head? = some first → ∃ first', l'.head? = some first' ∧ kept first first' := by
  intro first hf
  cases h with
  | nil => simp at hf
  | cons hk _ =>
    simp only [List.head?_cons, Option.some.injEq] at hf
    subst hf
    exact ⟨_, rfl, hk⟩

theorem forall₂_getLast? {l l' : List Character} (h : List.Forall₂ kept l l') :
    ∀ last, l.getLast? = some last → ∃ last', l'.getLast? = some last' ∧ kept last last' := by
  induction h with
  | nil => intro last hl; simp at hl
  | cons hk hrest ih =>
    rename_i a b l₁ l₂
    intro last hl
    cases hrest with
    | nil =>
      simp only [List.getLast?_singleton, Option.some.injEq] at hl
      subst hl
      exact ⟨_, rfl, hk⟩
    | cons hk' hrest' =>
      rw [List.getLast?_cons_cons] at hl ⊢
      exact ih last hl

theorem SentinelsKept_refl (document : Document) : SentinelsKept document document :=
  ⟨fun first h => ⟨first, h, refl first⟩, fun last h => ⟨last, h, refl last⟩⟩

theorem SentinelsKept_of_forall₂ {before after : Document}
    (h : List.Forall₂ kept before.Characters after.Characters) : SentinelsKept before after :=
  ⟨forall₂_head? h, forall₂_getLast? h⟩

theorem forall₂_kept_splice (A B : List Character) (c : Character) :
    ∃ A' B', splice A B c = A' ++ c :: B' ∧ List.Forall₂ kept A A' ∧ List.Forall₂ kept B B' :=
  ⟨_, _, rfl, forall₂_modify _ (kept_linkNext c.ID) A _, forall₂_modify _ (kept_linkPrev c.ID) B _⟩

theorem SentinelsKept_splice (A B : List Character) (c : Character) (hA : A ≠ []) (hB : B ≠ []) :
    SentinelsKept (Document.mk (A ++ B)) (Document.mk (splice A B c)) := by
  obtain ⟨A', B', hs, hAA, hBB⟩ := forall₂_kept_splice A B c
  have hA' : A' ≠ [] := by
    intro h; rw [h] at hAA; cases hAA; exact hA rfl
  have hB' : B' ≠ [] := by
    intro h; rw [h] at hBB; cases hBB; exact hB rfl
  show SentinelsKept (Document.mk (A ++ B)) (Document.mk (splice A B c))
  rw [hs]
  constructor
  · intro first hf
    obtain ⟨a, A₁, rfl⟩ := List.exists_cons_of_ne_nil hA
    obtain ⟨a', A₁', rfl⟩ := List.exists_cons_of_ne_nil hA'
    simp only [List.cons_append, List.head?_cons, Option.some.injEq] at hf ⊢
    subst hf
    cases hAA with
    | cons hk _ => exact ⟨_, rfl, hk⟩
  · intro last hl
    obtain ⟨b, B₁, rfl⟩ := List.exists_cons_of_ne_nil hB
    obtain ⟨b', B₁', rfl⟩ := List.exists_cons_of_ne_nil hB'
    have e1 : (A ++ b :: B₁).getLast? = (b :: B₁).getLast? := by
      rw [List.getLast?_append]
      cases hq : (b :: B₁).getLast? with
      | none => simp at hq
      | some q => rfl
    have e2 : (A' ++ c :: b' :: B₁').getLast? = (b' :: B₁').getLast? := by
      rw [List.getLast?_append, List.getLast?_cons_cons]
      cases hq : (b' :: B₁').getLast? with
      | none => simp at hq
      | some q => rfl
    simp only at hl ⊢
    rw [e1] at hl
    rw [e2]
    exact forall₂_getLast? hBB last hl

theorem LocalInsert_sentinels (document : Document) (c : Character) (position : Int) :
    SentinelsKept document (document.LocalInsert c position).1 := by
  by_cases h : position ≤ 0 ∨ position ≥ document.Length
  · rw [LocalInsert_outOfBounds document c position h]
    exact SentinelsKept_refl document
  · by_cases hc : c.ID = ""
    · rw [LocalInsert_emptyID document c position (by omega) (by omega) hc]
      exact SentinelsKept_refl document
    · rw [LocalInsert_inRange document c position (by omega) (by omega) hc]
      unfold Document.Length at h
      have hA : document.Characters.take position.toNat ≠ [] := by
        intro h'
        have := congrArg List.length h'
        simp only [List.length_take, List.length_nil] at this
        omega
      have hB : document.Characters.drop position.toNat ≠ [] := by
        intro h'
        have := congrArg List.length h'
        simp only [List.length_drop, List.length_nil] at this
        omega
      have := SentinelsKept_splice _ _ c hA hB
      rw [List.take_append_drop] at this
      exact this

theorem IntegrateDelete_sentinels (document : Document) (c : Character) :
    SentinelsKept document (document.IntegrateDelete c) := by
  unfold Document.IntegrateDelete
  simp only
  split
  · exact SentinelsKept_refl document
  · exact SentinelsKept_of_forall₂ (forall₂_modify _ kept_hide _ _)

theorem IntegrateInsert_sentinels (document : Document) (c prev next : Character) :
    ∃ r, document.IntegrateInsert c prev next = some r ∧ SentinelsKept document r.1 := by
  obtain ⟨r, hr⟩ := IntegrateInsert_total document c prev next
  refine ⟨r, hr, ?_⟩
  rcases IntegrateInsertFuel_shape _ document c prev next r hr with ⟨e, rfl⟩ | ⟨position, rfl⟩
  · exact SentinelsKept_refl document
  · exact LocalInsert_sentinels document c position

theorem Insert_sentinels (globals : Globals) (document : Document) (position : Int)
    (value : String) :
    ∃ r, document.Insert globals position value = some r ∧ SentinelsKept document r.2.1 := by
  obtain ⟨after, err, hI, hr⟩ := Insert_total globals document position value
  obtain ⟨r, hr', hk⟩ := IntegrateInsert_sentinels document
    (generated globals value (prevBound document position) (nextBound document position))
    (prevBound document position) (nextBound document position)
  rw [hr] at hr'
  cases hr'
  exact ⟨_, hI, hk⟩

theorem SentinelsKept_ids {before after : Document} (h : SentinelsKept before after)
    (hb : HasSentinelIds before) : HasSentinelIds after := by
  unfold HasSentinelIds at hb ⊢
  obtain ⟨h1, h2⟩ := h
  constructor
  · cases hf : before.Characters.head? with
    | none => rw [hf] at hb; simp at hb
    | some first =>
      obtain ⟨first', hf', hk⟩ := h1 first hf
      rw [hf] at hb
      rw [hf']
      simp only [Option.map_some', Option.some.injEq] at hb ⊢
      rw [hk.1]; exact hb.1
  · cases hl : before.Characters.getLast? with
    | none => rw [hl] at hb; simp at hb
    | some last =>
      obtain ⟨last', hl', hk⟩ := h2 last hl
      rw [hl] at hb
      rw [hl']
      simp only [Option.map_some', Option.some.injEq] at hb ⊢
      rw [hk.1]; exact hb.2

theorem SentinelsKept_sentinels {before after : Document} (h : SentinelsKept before after)
    (hb : HasSentinels before) : HasSentinels after := by
  unfold HasSentinels at hb ⊢
  obtain ⟨h1, h2⟩ := h
  constructor
  · cases hf : before.Characters.head? with
    | none => rw [hf] at hb; simp at hb
    | some first =>
      obtain ⟨first', hf', hk⟩ := h1 first hf
      rw [hf] at hb
      rw [hf']
      simp only [Option.map_some', Option.some.injEq, Prod.mk.injEq] at hb ⊢
      exact ⟨hk.1.trans hb.1.1, hk.2.2 hb.1.2.1, hk.2.1.trans hb.1.2.2⟩
  · cases hl : before.Characters.getLast? with
    | none => rw [hl] at hb; simp at hb
    | some last =>
      obtain ⟨last', hl', hk⟩ := h2 last hl
      rw [hl] at hb
      rw [hl']
      simp only [Option.map_some', Option.some.injEq, Prod.mk.injEq] at hb ⊢
      exact ⟨hk.1.trans hb.2.1, hk.2.2 hb.2.2.1, hk.2.1.trans hb.2.2.2⟩

theorem modify_eq_self_of_fixed {α : Type} (f : α → α) (A : List α) (x : α) (B : List α)
    (h : f x = x) : (A ++ x :: B).modify f A.length = A ++ x :: B := by
  rw [modify_append_length, h]

theorem IntegrateDelete_notFound (document : Document)
    (hmark : ∀ x ∈ document.Characters, x.Visible = true → x.ID ≠ "-1") :
    document.IntegrateDelete notFound = document := by
  by_cases h : document.Position notFound.ID = -1
  · unfold Document.IntegrateDelete
    simp [h]
  · rw [IntegrateDelete_present document notFound h]
    obtain ⟨A, x, B, hl, hA, hx⟩ :=
      PositionLoop_split notFound.ID document.Characters 0 h (le_refl 0)
    have hpos := Position_eq_of_split document notFound.ID A x B hl hA hx
    have hxv : x.Visible = false := by
      cases hv : x.Visible with
      | false => rfl
      | true => exact absurd hx (hmark x (by rw [hl]; simp) hv)
    have hidx : ((A.length : Int) + 1 - 1).toNat = A.length := by omega
    rw [hpos, hidx]
    cases document with
    | mk chars =>
      simp only at hl
      subst hl
      congr 1
      apply modify_eq_self_of_fixed
      cases x
      simp only at hxv
      subst hxv
      rfl

theorem GenerateDelete_out_of_range (document : Document) (position : Int)
    (hmark : ∀ x ∈ document.Characters, x.Visible = true → x.ID ≠ "-1")
    (h : position ≤ 0 ∨ position > visibleCount document.Characters) :
    document.GenerateDelete position = document := by
  have hnf : IthVisible document position = notFound :=
    IthVisibleLoop_notFound _ _ _ (by omega)
  unfold Document.GenerateDelete
  simp only [hnf]
  exact IntegrateDelete_notFound document hmark

theorem indexAt_append_length (A : List Character) (x : Character) (B : List Character) :
    indexAt (A ++ x :: B) A.length = some x := by
  unfold indexAt
  have h : (0 : Int) ≤ A.length ∧ (A.length : Int) < ((A ++ x :: B).length : Nat) := by
    simp only [List.length_append, List.length_cons]; omega
  rw [if_pos h]
  simp only [Int.toNat_ofNat]
  rw [List.getElem?_append_right (le_refl _)]
  simp

theorem indexAt_neg (s : List Character) (i : Int) (h : i < 0) : indexAt s i = none := by
  unfold indexAt
  rw [if_neg (by omega)]

/-- `Left` of an id that is in the document returns that id. -/
theorem Left_present (document : Document) (id : String) (h : id ∈ ids document.Characters) :
    document.Left id = some id := by
  have hne : document.Position id ≠ -1 := fun h' =>
    (Position_eq_neg_one_iff document id).mp h' h
  obtain ⟨A, x, B, hl, hA, hx⟩ := PositionLoop_split id document.Characters 0 hne (le_refl 0)
  have hpos := Position_eq_of_split document id A x B hl hA hx
  unfold Document.Left
  simp only [hpos]
  rw [if_neg (by omega)]
  have : (A.length : Int) + 1 - 1 = A.length := by omega
  rw [this, hl, indexAt_append_length]
  simp [hx]

/-- `Left` of an id that is not in the document panics. -/
theorem Left_absent (document : Document) (id : String) (h : id ∉ ids document.Characters) :
    document.Left id = none := by
  have hpos := (Position_eq_neg_one_iff document id).mpr h
  unfold Document.Left
  simp only [hpos]
  rw [if_pos (by omega), indexAt_neg _ _ (by omega)]
  rfl

/-- `Right` of an id that is in the document, first at the index `A.length`: the id itself when
at most one character follows, the id of the second character after it otherwise. -/
theorem Right_present (document : Document) (A : List Character) (x : Character)
    (B : List Character) (hl : document.Characters = A ++ x :: B) (hA : x.ID ∉ ids A) :
    (B.length ≤ 1 → document.Right x.ID = some x.ID)
    ∧ (∀ b₁ b₂ B', B = b₁ :: b₂ :: B' → document.Right x.ID = some b₂.ID) := by
  have hpos := Position_eq_of_split document x.ID A x B hl hA rfl
  constructor
  · intro hB
    unfold Document.Right
    simp only [hpos]
    rw [if_pos (by rw [hl]; simp only [List.length_append, List.length_cons]; push_cast; omega)]
    have : (A.length : Int) + 1 - 1 = A.length := by omega
    rw [this, hl, indexAt_append_length]
    rfl
  · intro b₁ b₂ B' hB
    unfold Document.Right
    simp only [hpos]
    rw [if_neg (by
      rw [hl, hB]; simp only [List.length_append, List.length_cons]; push_cast; omega)]
    have e : A ++ x :: B = (A ++ [x, b₁]) ++ b₂ :: B' := by rw [hB]; simp
    have e2 : (A.length : Int) + 1 + 1 = ((A ++ [x, b₁]).length : Nat) := by
      simp only [List.length_append, List.length_cons, List.length_nil]; push_cast; omega
    rw [hl, e, e2, indexAt_append_length]
    rfl

/-- `Right` of an id that is not in the document: a panic on the empty document, the id of the
first character otherwise. -/
theorem Right_absent (document : Document) (id : String) (h : id ∉ ids document.Characters) :
    document.Right id = document.Characters.head?.map Character.ID := by
  have hpos := (Position_eq_neg_one_iff document id).mpr h
  unfold Document.Right
  simp only [hpos]
  cases hc : document.Characters with
  | nil =>
    simp only [List.length_nil]
    rw [if_pos (by decide), indexAt_neg _ _ (by decide)]
    rfl
  | cons a l =>
    rw [if_neg (by simp only [List.length_cons]; push_cast; omega)]
    have : indexAt (a :: l) (-1 + 1) = some a := indexAt_append_length [] a l
    rw [this]
    rfl

/-- `Insert(1, v)` on a fresh document. -/
theorem fresh_Insert (globals : Globals) (value : String) :
    New.Insert globals 1 value
      = some ({ globals with LocalClock := globals.LocalClock + 1 },
          Document.mk [{ StartCharacter with
              NextID := (generated globals value StartCharacter EndCharacter).ID },
            generated globals value StartCharacter EndCharacter,
            { EndCharacter with
              PrevID := (generated globals value StartCharacter EndCharacter).ID }],
          value, none) := by
  obtain ⟨L, M, R, k, hdoc, hM, hcount, -, hins⟩ :=
    Insert_of_bounds globals New 1 value (by decide) (by decide) (by decide) (by decide)
      (by decide) (by decide)
  have hpb : prevBound New 1 = StartCharacter := by decide
  have hnb : nextBound New 1 = EndCharacter := by decide
  rw [hpb, hnb] at hdoc hins
  have hL : L = [] ∧ M = [] ∧ R = [] := by
    have hlen := congrArg List.length hdoc
    simp only [New, List.length_cons, List.length_nil, List.length_append] at hlen
    refine ⟨List.length_eq_zero.mp (by omega), List.length_eq_zero.mp (by omega),
      List.length_eq_zero.mp (by omega)⟩
  obtain ⟨rfl, rfl, rfl⟩ := hL
  simp only [List.take_nil, List.drop_nil, List.nil_append] at hins
  have hsp := splice_concat_cons [] StartCharacter EndCharacter []
    (generated globals value StartCharacter EndCharacter)
  simp only [List.nil_append] at hsp
  rw [hsp] at hins
  rw [hins]
  have hcontent : Content (Document.mk [{ StartCharacter with
        NextID := (generated globals value StartCharacter EndCharacter).ID },
      generated globals value StartCharacter EndCharacter,
      { EndCharacter with
        PrevID := (generated globals value StartCharacter EndCharacter).ID }]) = value := by
    rw [Content_eq_join]
    simp [visibleValues, generated, StartCharacter, EndCharacter, String.join]
  rw [hcontent]

theorem sliceChecked_eq (s : List Character) (lo hi : Int)
    (h : 0 ≤ lo ∧ lo ≤ hi ∧ hi ≤ s.length) : sliceChecked s lo hi = some (slice s lo hi) := by
  unfold sliceChecked
  rw [if_pos h]

theorem setAt_eq (s : List Character) (i : Int) (f : Character → Character)
    (h : 0 ≤ i ∧ i < s.length) : setAt s i f = some (s.modify f i.toNat) := by
  unfold setAt
  rw [if_pos h]

theorem indexAt_eq_getD (s : List Character) (i : Nat) (h : i < s.length) :
    indexAt s i = some (s.getD i default) := by
  unfold indexAt
  rw [if_pos (by omega)]
  simp only [Int.toNat_ofNat]
  rw [List.getElem?_eq_getElem h, List.getD_eq_getElem s default h]

theorem SubseqChecked_eq (document : Document) (a b : Character) :
    document.SubseqChecked a b = some (document.Subseq a b) := by
  unfold Document.SubseqChecked Document.Subseq
  simp only
  split
  · rfl
  · split
    · rfl
    · split
      · rfl
      · rename_i h1 h2 h3
        have ra := PositionLoop_range a.ID document.Characters 0
        have rb := PositionLoop_range b.ID document.Characters 0
        unfold Document.Position at h1 h2 h3 ⊢
        rw [sliceChecked_eq _ _ _ (by omega)]
        rfl

theorem LocalInsertChecked_eq (document : Document) (c : Character) (position : Int) :
    document.LocalInsertChecked c position = some (document.LocalInsert c position) := by
  unfold Document.LocalInsertChecked Document.LocalInsert
  split
  · rfl
  · split
    · rfl
    · rename_i h1 h2
      unfold Document.Length at h1
      rw [sliceChecked_eq _ _ _ (by omega), sliceChecked_eq _ _ _ (by omega)]
      simp only [Option.some_bind]
      have e1 : slice document.Characters 0 position
          = document.Characters.take position.toNat := by
        unfold slice; simp
      have e2 : slice document.Characters position document.Characters.length
          = document.Characters.drop position.toNat := by
        unfold slice; simp
      rw [e1, e2]
      have hlen : (document.Characters.take position.toNat
          ++ ([c] ++ document.Characters.drop position.toNat)).length
          = document.Characters.length + 1 := by
        simp only [List.length_append, List.length_take, List.length_drop, List.length_cons,
          List.length_nil]
        omega
      rw [setAt_eq _ _ _ (by rw [hlen]; push_cast; omega)]
      simp only [Option.some_bind]
      rw [setAt_eq _ _ _ (by rw [List.length_modify, hlen]; push_cast; omega)]
      rfl

theorem IntegrateInsertFuelChecked_eq (fuel : Nat) (document : Document)
    (c prev next : Character) :
    IntegrateInsertFuelChecked fuel document c prev next
      = Run.ofFuel (IntegrateInsertFuel fuel document c prev next) := by
  induction fuel generalizing prev next with
  | zero => rfl
  | succ fuel ih =>
    unfold IntegrateInsertFuelChecked IntegrateInsertFuel
    rw [SubseqChecked_eq]
    cases hS : document.Subseq prev next with
    | mk sub err =>
      cases err with
      | some e => rfl
      | none =>
        simp only
        split
        · rw [LocalInsertChecked_eq]; rfl
        · split
          · rw [LocalInsertChecked_eq]; rfl
          · rename_i h0 h1
            have hne : sub.drop 1 ≠ [] := by
              intro hd
              have := congrArg List.length hd
              simp only [List.length_drop, List.length_nil] at this
              omega
            obtain ⟨hlo, hhi⟩ := walk_bounds c.ID (sub.drop 1) 1 hne
            simp only [List.length_drop] at hhi
            generalize walk c.ID (sub.drop 1) 1 = idx at hlo hhi ⊢
            obtain ⟨j, rfl⟩ : ∃ j, idx = j + 1 := ⟨idx - 1, by omega⟩
            have e : ((j + 1 : Nat) : Int) - 1 = (j : Nat) := by push_cast; omega
            rw [e, indexAt_eq_getD sub j (by omega), indexAt_eq_getD sub (j + 1) (by omega)]
            simp only [Nat.add_sub_cancel]
            exact ih _ _

theorem IntegrateInsertChecked_done (document : Document) (c prev next : Character) :
    ∃ r, document.IntegrateInsertChecked c prev next = Run.done r
      ∧ document.IntegrateInsert c prev next = some r := by
  obtain ⟨r, hr⟩ := IntegrateInsert_total document c prev next
  refine ⟨r, ?_, hr⟩
  unfold Document.IntegrateInsertChecked
  unfold Document.IntegrateInsert at hr
  rw [IntegrateInsertFuelChecked_eq, hr]
  rfl

theorem IntegrateDeleteChecked_eq (document : Document) (c : Character) :
    document.IntegrateDeleteChecked c = some (document.IntegrateDelete c) := by
  unfold Document.IntegrateDeleteChecked Document.IntegrateDelete
  simp only
  split
  · rfl
  · rename_i h
    have r := PositionLoop_range c.ID document.Characters 0
    unfold Document.Position at h ⊢
    rw [setAt_eq _ _ _ (by omega)]
    rfl

theorem GenerateInsertChecked_done (globals : Globals) (document : Document) (position : Int)
    (value : String) :
    ∃ r, document.GenerateInsertChecked globals position value = Run.done r
      ∧ document.GenerateInsert globals position value = some r := by
  obtain ⟨r, hc, hr⟩ := IntegrateInsertChecked_done document
    (generated globals value (prevBound document position) (nextBound document position))
    (prevBound document position) (nextBound document position)
  refine ⟨({ globals with LocalClock := globals.LocalClock + 1 }, r.1, r.2), ?_, ?_⟩
  · show (match document.IntegrateInsertChecked
        (generated globals value (prevBound document position) (nextBound document position))
        (prevBound document position) (nextBound document position) with
      | Run.done result =>
        Run.done ({ globals with LocalClock := globals.LocalClock + 1 }, result.1, result.2)
      | Run.panic => Run.panic
      | Run.outOfFuel => Run.outOfFuel) = _
    rw [hc]
  · rw [GenerateInsert_eq, hr]
    rfl

theorem ElementAt_some (document : Document) (position : Int) :
    (∃ r, document.ElementAt position = some r)
    ∧ ((position < 0 ∨ position ≥ document.Length) →
        document.ElementAt position = some (zeroCharacter, some Error.ErrOutOfBounds))
    ∧ (0 ≤ position → position < document.Length →
        document.ElementAt position
          = (document.Characters[position.toNat]?).map (fun character => (character, none))
        ∧ (document.Characters[position.toNat]?).isSome = true) := by
  unfold Document.ElementAt Document.Length
  refine ⟨?_, ?_, ?_⟩
  · split
    · exact ⟨_, rfl⟩
    · rename_i h
      unfold indexAt
      rw [if_pos (by omega)]
      have hlt : position.toNat < document.Characters.length := by omega
      rw [List.getElem?_eq_getElem hlt]
      exact ⟨_, rfl⟩
  · intro h
    rw [if_pos h]
  · intro h0 h1
    rw [if_neg (by omega)]
    unfold indexAt
    rw [if_pos (by omega)]
    have hlt : position.toNat < document.Characters.length := by omega
    rw [List.getElem?_eq_getElem hlt]
    exact ⟨rfl, rfl⟩

theorem foldl_decode (digits : List Char) (start : Nat) :
    digits.foldl (fun number digit => 10 * number + (digit.toNat - 48)) start
      = start * 10 ^ digits.length + decodeDigits digits := by
  unfold decodeDigits
  induction digits generalizing start with
  | nil => simp
  | cons d ds ih =>
    rw [List.foldl_cons, List.foldl_cons, ih, ih (10 * 0 + (d.toNat - 48))]
    simp only [List.length_cons, pow_succ]
    ring

theorem digitChar_value (d : Nat) (h : d < 10) : (Nat.digitChar d).toNat - 48 = d := by
  interval_cases d <;> rfl

theorem toDigitsCore_decode (fuel n : Nat) (ds : List Char) (h : n < fuel) :
    decodeDigits (Nat.toDigitsCore 10 fuel n ds) = n * 10 ^ ds.length + decodeDigits ds := by
  induction fuel generalizing n ds with
  | zero => omega
  | succ fuel ih =>
    have hcons : decodeDigits (Nat.digitChar (n % 10) :: ds)
        = (n % 10) * 10 ^ ds.length + decodeDigits ds := by
      conv_lhs => unfold decodeDigits
      rw [List.foldl_cons, foldl_decode, digitChar_value _ (Nat.mod_lt n (by decide))]
      ring
    simp only [Nat.toDigitsCore]
    split
    · rename_i h0
      rw [hcons]
      have : n % 10 = n := Nat.mod_eq_of_lt (by omega)
      rw [this]
    · rename_i h0
      rw [ih (n / 10) _ (by omega), hcons]
      simp only [List.length_cons, pow_succ]
      have e := Nat.div_add_mod n 10
      generalize n / 10 = q at e ⊢
      generalize n % 10 = r at e ⊢
      rw [← e]
      ring

theorem decode_repr (n : Nat) : decodeDigits (Nat.repr n).data = n := by
  simp only [Nat.repr, Nat.toDigits, List.asString]
  rw [toDigitsCore_decode _ _ _ (Nat.lt_succ_self n)]
  simp [decodeDigits]

theorem repr_injective (m n : Nat) (h : Nat.repr m = Nat.repr n) : m = n := by
  rw [← decode_repr m, ← decode_repr n, h]

theorem repr_digits (m : Nat) : ∀ ch ∈ (Nat.repr m).data, ch.isDigit = true := by
  simp only [Nat.repr, Nat.toDigits, List.asString]
  exact toDigitsCore_digits _ _ [] (by simp)

theorem repr_ne_minus (m : Nat) (rest : List Char) : (Nat.repr m).data ≠ '-' :: rest := by
  intro h
  have := repr_digits m '-' (by rw [h]; simp)
  revert this; decide

theorem Sprint_injective (a b : Int) (h : Sprint a = Sprint b) : a = b := by
  have hd := congrArg String.data h
  cases a with
  | ofNat m =>
    cases b with
    | ofNat n =>
      have : m = n := repr_injective m n h
      rw [this]
    | negSucc n =>
      simp only [Sprint, String.data_append] at hd
      exact absurd hd (repr_ne_minus m _)
  | negSucc m =>
    cases b with
    | ofNat n =>
      simp only [Sprint, String.data_append] at hd
      exact absurd hd.symm (repr_ne_minus n _)
    | negSucc n =>
      simp only [Sprint, String.data_append] at hd
      have hd' : (Nat.repr (m + 1)).data = (Nat.repr (n + 1)).data := by
        simpa using hd
      have : m + 1 = n + 1 := repr_injective _ _ (String.ext hd')
      have : m = n := by omega
      rw [this]

theorem generated_ID_injective (site : Int) (j k : Int)
    (h : Sprint site ++ Sprint j = Sprint site ++ Sprint k) : j = k := by
  have hd := congrArg String.data h
  simp only [String.data_append] at hd
  exact Sprint_injective j k (String.ext (List.append_cancel_left hd))

theorem Sprint_append_ne_marker (a b : Int) : Sprint a ++ Sprint b ≠ "-1" := by
  intro h
  have hd := congrArg String.data h
  simp only [String.data_append] at hd
  have hb := Sprint_data_ne_nil b
  cases a with
  | ofNat m =>
    have hm := repr_data_ne_nil m
    have e : Sprint (Int.ofNat m) = Nat.repr m := rfl
    rw [e] at hd
    cases hr : (Nat.repr m).data with
    | nil => exact hm hr
    | cons x xs =>
      rw [hr] at hd
      have hx : x = '-' := by
        have := congrArg List.head? hd
        simpa using this
      rw [hx] at hr
      exact repr_ne_minus m xs hr
  | negSucc m =>
    have e : Sprint (Int.negSucc m) = "-" ++ Nat.repr (m + 1) := rfl
    rw [e] at hd
    simp only [String.data_append] at hd
    have hlen := congrArg List.length hd
    have h1 : 0 < (Nat.repr (m + 1)).data.length :=
      List.length_pos.mpr (repr_data_ne_nil _)
    have h2 : 0 < (Sprint b).data.length := List.length_pos.mpr hb
    have h3 : ("-1" : String).data.length = 2 := by decide
    have h4 : ("-" : String).data.length = 1 := by decide
    simp only [List.length_append, List.length_cons, List.length_nil] at hlen
    omega

theorem SentinelsKept_start {before after : Document} (h : SentinelsKept before after)
    (hb : StartsWithStart before) : StartsWithStart after := by
  unfold StartsWithStart at hb ⊢
  cases hf : before.Characters.head? with
  | none => rw [hf] at hb; simp at hb
  | some first =>
    obtain ⟨first', hf', hk⟩ := h.1 first hf
    rw [hf] at hb
    rw [hf']
    simp only [Option.map_some', Option.some.injEq, Prod.mk.injEq] at hb ⊢
    exact ⟨hk.1.trans hb.1, hk.2.2 hb.2⟩

theorem SentinelsKept_end {before after : Document} (h : SentinelsKept before after)
    (hb : EndsWithEnd before) : EndsWithEnd after := by
  unfold EndsWithEnd at hb ⊢
  cases hl : before.Characters.getLast? with
  | none => rw [hl] at hb; simp at hb
  | some last =>
    obtain ⟨last', hl', hk⟩ := h.2 last hl
    rw [hl] at hb
    rw [hl']
    simp only [Option.map_some', Option.some.injEq, Prod.mk.injEq] at hb ⊢
    exact ⟨hk.1.trans hb.1, hk.2.2 hb.2⟩

theorem BuiltBy_New (globals : Globals) : BuiltBy globals New := by
  refine ⟨by decide, by decide, by decide, ?_⟩
  intro id hid
  simp only [New, ids, StartCharacter, EndCharacter, List.map_cons, List.map_nil,
    List.mem_cons, List.mem_singleton, List.not_mem_nil, or_false] at hid
  rcases hid with h | h
  · exact Or.inl h
  · exact Or.inr (Or.inl h)

theorem BuiltBy_marker (globals : Globals) (document : Document)
    (h : BuiltBy globals document) :
    ∀ x ∈ document.Characters, x.Visible = true → x.ID ≠ "-1" := by
  intro x hx _
  have hid : x.ID ∈ ids document.Characters := List.mem_map_of_mem Character.ID hx
  rcases h.2.2.2 x.ID hid with h1 | h1 | ⟨j, -, h1⟩
  · rw [h1]; decide
  · rw [h1]; decide
  · rw [h1]; exact Sprint_append_ne_marker _ _

/-- One `Insert` at a position in range, on a document built by the replica. -/
theorem BuiltBy_Insert (globals : Globals) (document : Document) (position : Int)
    (value : String) (hinv : BuiltBy globals document)
    (h1 : 1 ≤ position) (h2 : position ≤ visibleCount document.Characters + 1) :
    ∃ after, document.Insert globals position value
        = some ({ globals with LocalClock := globals.LocalClock + 1 }, after, Content after, none)
      ∧ BuiltBy { globals with LocalClock := globals.LocalClock + 1 } after
      ∧ visibleValues after.Characters
        = (visibleValues document.Characters).insertIdx (position - 1).toNat value
      ∧ visibleCount after.Characters = visibleCount document.Characters + 1 := by
  obtain ⟨hstart, hend, hnd, hform⟩ := hinv
  have hmark := BuiltBy_marker globals document ⟨hstart, hend, hnd, hform⟩
  obtain ⟨L, M, R, k, hdoc, hM, hcount, -, hins⟩ :=
    Insert_of_bounds globals document position value hstart hend hnd hmark h1 h2
  have hvv := visibleValues_insert document.Characters L M R _ _
    (generated globals value (prevBound document position) (nextBound document position))
    k position hdoc hM hcount rfl
  generalize hc : generated globals value (prevBound document position)
    (nextBound document position) = c at hins hvv
  have hcid : c.ID = Sprint globals.SiteID ++ Sprint (globals.LocalClock + 1) := by
    rw [← hc]; rfl
  have hcv : c.Value = value := by rw [← hc]; rfl
  rw [hcv] at hvv
  generalize hA : L ++ prevBound document position :: M.take k = A at hins hvv
  generalize hB : M.drop k ++ nextBound document position :: R = B at hins hvv
  have hAB : A ++ B = document.Characters := by
    rw [← hA, ← hB, hdoc]
    simp only [List.append_assoc, List.cons_append]
    rw [← List.append_assoc (M.take k), List.take_append_drop]
  have hAne : A ≠ [] := by rw [← hA]; simp
  have hBne : B ≠ [] := by rw [← hB]; simp
  have hfresh : c.ID ∉ ids document.Characters := by
    intro hmem
    rcases hform c.ID hmem with h | h | ⟨j, hj, h⟩
    · have := (generated_ID_ne_sentinel globals value (prevBound document position)
        (nextBound document position)).1
      rw [hc] at this
      exact this h
    · have := (generated_ID_ne_sentinel globals value (prevBound document position)
        (nextBound document position)).2
      rw [hc] at this
      exact this h
    · rw [hcid] at h
      have := generated_ID_injective _ _ _ h
      omega
  have hkept : SentinelsKept document (Document.mk (splice A B c)) := by
    have := SentinelsKept_splice A B c hAne hBne
    rw [hAB] at this
    exact this
  have hperm : (ids (splice A B c)).Perm (c.ID :: ids document.Characters) := by
    rw [ids_splice]
    have hm := @List.perm_middle _ c.ID (ids A) (ids B)
    rw [← ids_append, hAB] at hm
    exact hm
  refine ⟨_, hins, ⟨SentinelsKept_start hkept hstart, SentinelsKept_end hkept hend,
    hperm.nodup_iff.mpr (List.nodup_cons.mpr ⟨hfresh, hnd⟩), ?_⟩, hvv, ?_⟩
  · intro id hid
    have hid' : id ∈ c.ID :: ids document.Characters := hperm.mem_iff.mp hid
    rcases List.mem_cons.mp hid' with h | h
    · exact Or.inr (Or.inr ⟨globals.LocalClock + 1, le_refl _, by rw [h, hcid]⟩)
    · rcases hform id h with h' | h' | ⟨j, hj, h'⟩
      · exact Or.inl h'
      · exact Or.inr (Or.inl h')
      · exact Or.inr (Or.inr ⟨j, by simp only; omega, h'⟩)
  · show visibleCount (splice A B c) = _
    rw [← length_visibleValues, hvv, ← length_visibleValues]
    have hle : (position - 1).toNat ≤ (visibleValues document.Characters).length := by
      rw [length_visibleValues]; omega
    exact List.length_insertIdx _ _ hle

/-- A sequence of inserts at positions in range, on a document built by the replica. -/
theorem insertAll_BuiltBy (inserts : List (Int × String)) (globals : Globals)
    (document : Document) (hinv : BuiltBy globals document)
    (hr : inRange (visibleCount document.Characters) inserts = true) :
    ∃ globals' after, insertAll inserts globals document = some (globals', after)
      ∧ BuiltBy globals' after
      ∧ visibleValues after.Characters
        = insertValues (visibleValues document.Characters) inserts := by
  induction inserts generalizing globals document with
  | nil => exact ⟨globals, document, rfl, hinv, rfl⟩
  | cons insert rest ih =>
    obtain ⟨position, value⟩ := insert
    simp only [inRange, Bool.and_eq_true, decide_eq_true_eq] at hr
    obtain ⟨after, hins, hinv', hvv, hcount⟩ :=
      BuiltBy_Insert globals document position value hinv hr.1.1 (by omega)
    obtain ⟨globals', final, hrun, hfinal, hvals⟩ :=
      ih _ after hinv' (by rw [hcount]; exact hr.2)
    refine ⟨globals', final, ?_, hfinal, ?_⟩
    · simp only [insertAll, hins]
      exact hrun
    · rw [hvals, hvv]
      rfl

end crdt

namespace client

open crdt

theorem handleAll_insertMessages (atoi : String → Int) (inserts : List (Int × String))
    (replica : Replica) :
    handleAll atoi (inserts.map (fun insert => insertMessage insert.1 insert.2)) replica
      = (insertAll inserts replica.globals replica.document).map
          (fun result => { document := result.2, globals := result.1 }) := by
  induction inserts generalizing replica with
  | nil => rfl
  | cons insert rest ih =>
    obtain ⟨position, value⟩ := insert
    obtain ⟨after, err, hI, -⟩ :=
      Insert_total replica.globals replica.document position value
    have hm := handleMsg_insert atoi replica (insertMessage position value) rfl rfl _ _ _ _ hI
    simp only [List.map_cons, handleAll, hm, insertAll, hI]
    exact ih _

end client

namespace crdt

/-- The `k`-th visible character, for `k` between 1 and the number of visible characters. -/
theorem IthVisible_filter (document : Document) (k : Nat) (h1 : 1 ≤ k)
    (h2 : k ≤ visibleCount document.Characters) :
    (document.Characters.filter Character.Visible)[k - 1]? = some (IthVisible document k) := by
  obtain ⟨A, c, B, hl, hc, hA⟩ := exists_split_visible document.Characters (k - 1) (by omega)
  have hfound : IthVisible document k = c := by
    unfold IthVisible
    rw [hl]
    exact IthVisibleLoop_found _ A c B 0 hc (by rw [hA]; omega)
  have hlen : (A.filter Character.Visible).length = k - 1 := hA
  rw [hfound, hl, List.filter_append, List.filter_cons_of_pos hc, ← hlen,
    List.getElem?_append_right (le_refl _)]
  simp

theorem IthVisible_out_of_range (document : Document) (k : Int)
    (h : k ≤ 0 ∨ k > visibleCount document.Characters) : IthVisible document k = notFound := by
  unfold IthVisible
  apply IthVisibleLoop_notFound
  omega

theorem visibleValues_eq_range (document : Document) :
    visibleValues document.Characters
      = (List.range (visibleCount document.Characters)).map
          (fun (i : Nat) => (IthVisible document ((i : Int) + 1)).Value) := by
  apply List.ext_getElem?
  intro i
  by_cases hi : i < visibleCount document.Characters
  · have h := IthVisible_filter document (i + 1) (by omega) (by omega)
    simp only [Nat.add_sub_cancel, Nat.cast_add, Nat.cast_one] at h
    simp only [visibleValues, List.getElem?_map, h, Option.map_some',
      List.getElem?_range hi]
  · have e1 : (visibleValues document.Characters)[i]? = none := by
      apply List.getElem?_eq_none
      rw [length_visibleValues]; omega
    rw [e1]
    symm
    apply List.getElem?_eq_none
    simp only [List.length_map, List.length_range]
    omega

/-- The first character with the id, and the characters before it. -/
theorem split_of_mem (l : List Character) (id : String) (h : id ∈ ids l) :
    ∃ A x B, l = A ++ x :: B ∧ id ∉ ids A ∧ x.ID = id := by
  have hne : PositionLoop id l 0 ≠ -1 := by
    intro h'
    exact (Position_eq_neg_one_iff (Document.mk l) id).mp h' h
  exact PositionLoop_split id l 0 hne (le_refl _)

theorem ElementAt_of_split (document : Document) (A : List Character) (x : Character)
    (B : List Character) (h : document.Characters = A ++ x :: B) :
    document.ElementAt A.length = some (x, none) := by
  unfold Document.ElementAt Document.Length
  rw [h, if_neg (by simp), indexAt_append_length]
  rfl

/-- `IntegrateInsertCalls` returns with the fuel with which `IntegrateInsertFuel` returns. -/
theorem IntegrateInsertCalls_isSome (fuel : Nat) (document : Document)
    (c prev next : Character) :
    (IntegrateInsertCalls fuel document c prev next).isSome
      = (IntegrateInsertFuel fuel document c prev next).isSome := by
  induction fuel generalizing prev next with
  | zero => rfl
  | succ fuel ih =>
    unfold IntegrateInsertCalls IntegrateInsertFuel
    split
    · rfl
    · simp only
      split
      · rfl
      · split
        · rfl
        · rw [Option.isSome_map']
          exact ih _ _

/-- The index at which the loop of `IntegrateInsert` stops is between 1 and the last index of
the subsequence. -/
theorem walk_index (id : String) (sub : List Character) (h : 2 ≤ sub.length) :
    1 ≤ walk id (sub.drop 1) 1 ∧ walk id (sub.drop 1) 1 < sub.length := by
  have hne : sub.drop 1 ≠ [] := by
    intro hd
    have := congrArg List.length hd
    simp only [List.length_drop, List.length_nil] at this
    omega
  obtain ⟨hlo, hhi⟩ := walk_bounds id (sub.drop 1) 1 hne
  simp only [List.length_drop] at hhi
  omega

/-- The right bound of a recursive call is in the document, before the right bound of the
call that makes it. -/
theorem recursive_bound_lt (document : Document) (prev next : Character)
    (sub : List Character) (h : document.Subseq prev next = (sub, none)) (idx : Nat)
    (hidx : idx < sub.length) :
    0 < document.Position (sub.getD idx default).ID
    ∧ document.Position (sub.getD idx default).ID < document.Position next.ID := by
  rcases Subseq_ok document prev next sub h with hnil | ⟨s, e, _, he, hs, hse, hel, hsub⟩
  · rw [hnil] at hidx; simp at hidx
  · have hlen : sub.length = e - 1 - s := by
      rw [hsub, List.length_drop, List.length_take]; omega
    rw [List.getD_eq_getElem sub default hidx]
    have hget : sub[idx] = document.Characters[s + idx] := by
      simp only [hsub, List.getElem_drop, List.getElem_take]
    rw [hget]
    have := PositionLoop_getElem_le document.Characters (s + idx) (by omega) 0
    unfold Document.Position at he ⊢
    push_cast at this
    omega

/-- With pairwise distinct ids, a subsequence that is not empty stands between its bounds. -/
theorem Subseq_split (document : Document) (prev next : Character) (sub : List Character)
    (hnd : (ids document.Characters).Nodup)
    (h : document.Subseq prev next = (sub, none)) (hne : sub ≠ []) :
    ∃ L p n R, document.Characters = L ++ p :: (sub ++ n :: R)
      ∧ p.ID = prev.ID ∧ n.ID = next.ID := by
  rcases Subseq_ok document prev next sub h with hnil | ⟨s, e, hs', he', hs, hse, -, -⟩
  · exact absurd hnil hne
  · obtain ⟨L, p, M, n, R, hdoc, hp, hn⟩ :=
      split_of_positions document prev next (by rw [hs']; exact_mod_cast hs)
        (by rw [hs', he']; exact_mod_cast hse)
    obtain ⟨-, -, hS⟩ := Subseq_between document prev next p n L M R hdoc hnd hp hn
    rw [h] at hS
    have hM : sub = M := congrArg Prod.fst hS
    exact ⟨L, p, n, R, by rw [hM]; exact hdoc, hp, hn⟩

/-- With pairwise distinct ids, the bounds of a recursive call are adjacent: nothing is between
them. -/
theorem recursive_Subseq (document : Document) (prev next : Character)
    (sub : List Character) (hnd : (ids document.Characters).Nodup)
    (h : document.Subseq prev next = (sub, none)) (idx : Nat)
    (h1 : 1 ≤ idx) (hidx : idx < sub.length) :
    document.Subseq (sub.getD (idx - 1) default) (sub.getD idx default) = ([], none) := by
  obtain ⟨L, p, n, R, hdoc, -, -⟩ := Subseq_split document prev next sub hnd h
    (by intro h0; rw [h0] at hidx; simp at hidx)
  obtain ⟨i, rfl⟩ : ∃ i, idx = i + 1 := ⟨idx - 1, by omega⟩
  simp only [Nat.add_sub_cancel]
  rw [List.getD_eq_getElem sub default (by omega : i < sub.length),
    List.getD_eq_getElem sub default hidx]
  have hsplit := split_two sub i hidx
  have h' : document.Characters
      = (L ++ p :: sub.take i) ++ sub[i] :: ([] ++ sub[i + 1] :: (sub.drop (i + 2) ++ n :: R)) := by
    rw [hdoc]
    have e : sub ++ n :: R
        = (sub.take i ++ sub[i] :: sub[i + 1] :: sub.drop (i + 2)) ++ n :: R :=
      congrArg (fun l => l ++ n :: R) hsplit
    rw [e]
    simp only [List.append_assoc, List.cons_append, List.nil_append]
  exact (Subseq_between document sub[i] sub[i + 1] sub[i] sub[i + 1] _ [] _ h' hnd rfl rfl).2.2

/-- The recursive calls of `IntegrateInsert`: each has a right bound of smaller `Position`. -/
theorem IntegrateInsertCalls_chain (fuel : Nat) (document : Document)
    (c prev next : Character) (h : document.Position next.ID ≤ fuel) :
    ∃ calls, IntegrateInsertCalls (fuel + 1) document c prev next = some calls
      ∧ List.Chain (fun outer inner : Character =>
          document.Position inner.ID < document.Position outer.ID) next
          (calls.map Prod.snd) := by
  induction fuel generalizing prev next with
  | zero =>
    unfold IntegrateInsertCalls
    split
    · exact ⟨[], rfl, List.Chain.nil⟩
    · rename_i sub hS
      rcases Subseq_ok document prev next sub hS with hnil | ⟨s, e, _, he, _, _, _, _⟩
      · exact ⟨[], by simp [hnil], List.Chain.nil⟩
      · omega
  | succ fuel ih =>
    unfold IntegrateInsertCalls
    split
    · exact ⟨[], rfl, List.Chain.nil⟩
    · rename_i sub hS
      simp only
      split
      · exact ⟨[], rfl, List.Chain.nil⟩
      · split
        · exact ⟨[], rfl, List.Chain.nil⟩
        · rename_i h0 h1
          obtain ⟨hlo, hhi⟩ := walk_index c.ID sub (by omega)
          obtain ⟨-, hlt⟩ := recursive_bound_lt document prev next sub hS _ hhi
          obtain ⟨calls, hcalls, hchain⟩ := ih (sub.getD (walk c.ID (sub.drop 1) 1 - 1) default)
            (sub.getD (walk c.ID (sub.drop 1) 1) default) (by omega)
          refine ⟨_, by rw [hcalls]; rfl, ?_⟩
          simp only [List.map_cons]
          exact List.Chain.cons hlt hchain

/-- With pairwise distinct ids `IntegrateInsert` makes at most one recursive call. -/
theorem IntegrateInsertCalls_nodup (fuel : Nat) (document : Document)
    (c prev next : Character) (hnd : (ids document.Characters).Nodup)
    (calls : List (Character × Character))
    (h : IntegrateInsertCalls fuel document c prev next = some calls) : calls.length ≤ 1 := by
  cases fuel with
  | zero => simp [IntegrateInsertCalls] at h
  | succ fuel =>
    unfold IntegrateInsertCalls at h
    split at h
    · simp only [Option.some.injEq] at h; rw [← h]; simp
    · rename_i sub hS
      simp only at h
      split at h
      · simp only [Option.some.injEq] at h; rw [← h]; simp
      · split at h
        · simp only [Option.some.injEq] at h; rw [← h]; simp
        · rename_i h0 h1
          obtain ⟨hlo, hhi⟩ := walk_index c.ID sub (by omega)
          have hadj := recursive_Subseq document prev next sub hnd hS _ hlo hhi
          cases fuel with
          | zero => simp [IntegrateInsertCalls] at h
          | succ fuel =>
            unfold IntegrateInsertCalls at h
            rw [hadj] at h
            simp only [List.length_nil, if_true, Option.map_some', Option.some.injEq] at h
            rw [← h]
            simp

theorem forall₂_unchanged_refl (l : List Character) : List.Forall₂ unchanged l l := by
  induction l with
  | nil => exact List.Forall₂.nil
  | cons a l ih => exact List.Forall₂.cons ⟨rfl, rfl, rfl⟩ ih

theorem forall₂_unchanged_modify (g : Character → Character) (hg : ∀ x, unchanged x (g x))
    (l : List Character) (k : Nat) : List.Forall₂ unchanged l (l.modify g k) := by
  induction l generalizing k with
  | nil => simp
  | cons a l ih =>
    cases k with
    | zero =>
      rw [List.modify_zero_cons]
      exact List.Forall₂.cons (hg a) (forall₂_unchanged_refl l)
    | succ k =>
      rw [List.modify_succ_cons]
      exact List.Forall₂.cons ⟨rfl, rfl, rfl⟩ (ih k)

theorem AddsOne_splice (A B : List Character) (c : Character) :
    AddsOne (Document.mk (A ++ B)) (Document.mk (splice A B c)) c :=
  ⟨A, B, _, _, rfl, rfl,
    forall₂_unchanged_modify (fun neighbour => { neighbour with NextID := c.ID })
      (fun _ => ⟨rfl, rfl, rfl⟩) A _,
    forall₂_unchanged_modify (fun neighbour => { neighbour with PrevID := c.ID })
      (fun _ => ⟨rfl, rfl, rfl⟩) B _⟩

theorem visibleCount_splice (A B : List Character) (c : Character) (hc : c.Visible = true) :
    visibleCount (splice A B c) = visibleCount A + visibleCount B + 1 := by
  rw [← length_visibleValues, visibleValues_splice, List.length_append, length_visibleValues,
    length_visibleValues, visibleCount_cons_visible c B hc]
  omega

/-- Where the loop of `IntegrateInsert` stops, when it starts at the index `k` on the
characters `l` from that index on. -/
theorem walk_spec (id : String) (l : List Character) (k : Nat) (h : l ≠ []) :
    (∀ j x, k ≤ j → j < walk id l k → l[j - k]? = some x → x.ID.data < id.data)
    ∧ (walk id l k + 1 < k + l.length →
        ∀ x, l[walk id l k - k]? = some x → ¬ x.ID.data < id.data) := by
  induction l generalizing k with
  | nil => exact absurd rfl h
  | cons a l ih =>
    cases l with
    | nil =>
      simp only [walk, List.length_cons, List.length_nil]
      exact ⟨fun j x h1 h2 => by omega, fun h1 => by omega⟩
    | cons b l =>
      simp only [walk]
      split
      · rename_i hlt
        obtain ⟨ih1, ih2⟩ := ih (k + 1) (by simp)
        obtain ⟨hlo, -⟩ := walk_bounds id (b :: l) (k + 1) (by simp)
        constructor
        · intro j x h1 h2 hx
          rcases Nat.eq_or_lt_of_le h1 with h0 | h0
          · subst h0
            simp only [Nat.sub_self, List.getElem?_cons_zero, Option.some.injEq] at hx
            rw [← hx]; exact hlt
          · obtain ⟨i, rfl⟩ : ∃ i, j = k + 1 + i := ⟨j - (k + 1), by omega⟩
            have e : k + 1 + i - k = i + 1 := by omega
            rw [e, List.getElem?_cons_succ] at hx
            exact ih1 (k + 1 + i) x (by omega) h2 (by simpa using hx)
        · intro h1 x hx
          obtain ⟨i, hi⟩ : ∃ i, walk id (b :: l) (k + 1) = k + 1 + i :=
            ⟨walk id (b :: l) (k + 1) - (k + 1), by omega⟩
          have e : walk id (b :: l) (k + 1) - k = i + 1 := by omega
          rw [e, List.getElem?_cons_succ] at hx
          apply ih2 (by simp only [List.length_cons] at h1 ⊢; omega) x
          have e' : walk id (b :: l) (k + 1) - (k + 1) = i := by omega
          rw [e']; exact hx
      · rename_i hlt
        constructor
        · intro j x h1 h2; omega
        · intro _ x hx
          simp only [Nat.sub_self, List.getElem?_cons_zero, Option.some.injEq] at hx
          rw [← hx]; exact hlt

theorem placeIndex_StopsAt (id : String) (S : List Character) (h : 2 ≤ S.length) :
    StopsAt id S (placeIndex id S) := by
  have hk : placeIndex id S = walk id (S.drop 1) 1 := by
    unfold placeIndex; rw [if_neg (by omega)]
  have hne : S.drop 1 ≠ [] := by
    intro hd
    have := congrArg List.length hd
    simp only [List.length_drop, List.length_nil] at this
    omega
  obtain ⟨hlo, hhi⟩ := walk_index id S h
  obtain ⟨h1, h2⟩ := walk_spec id (S.drop 1) 1 hne
  rw [hk]
  refine ⟨hlo, by omega, ?_, ?_⟩
  · intro j x hj1 hj2 hx
    apply h1 j x hj1 hj2
    rw [List.getElem?_drop]
    have e : 1 + (j - 1) = j := by omega
    rw [e]; exact hx
  · intro hlast x hx
    apply h2 (by simp only [List.length_drop]; omega) x
    rw [List.getElem?_drop]
    have e : 1 + (walk id (S.drop 1) 1 - 1) = walk id (S.drop 1) 1 := by omega
    rw [e]; exact hx

theorem placeIndex_short (id : String) (S : List Character) (h : S.length ≤ 1) :
    placeIndex id S = 0 := by
  unfold placeIndex; rw [if_pos h]

theorem LocalInsert_success (document : Document) (c : Character) (position : Int)
    (h : (document.LocalInsert c position).2 = none) :
    0 < position ∧ position < document.Length ∧ c.ID ≠ "" := by
  unfold Document.LocalInsert at h
  split at h
  · simp at h
  · split at h
    · simp at h
    · rename_i h1 h2
      exact ⟨by omega, by omega, h2⟩

theorem IntegrateInsert_success_ID (document : Document) (c prev next : Character)
    (after : Document) (h : document.IntegrateInsert c prev next = some (after, none)) :
    c.ID ≠ "" := by
  rcases IntegrateInsertFuel_shape _ document c prev next _ h with ⟨e, he⟩ | ⟨position, hp⟩
  · simp at he
  · have : (document.LocalInsert c position).2 = none := by rw [← hp]
    exact (LocalInsert_success document c position this).2.2

theorem IntegrateInsert_of_empty (document : Document) (c prev next : Character)
    (h : document.Subseq prev next = ([], none)) :
    document.IntegrateInsert c prev next
      = some (document.LocalInsert c (document.Position next.ID - 1)) := by
  unfold Document.IntegrateInsert IntegrateInsertFuel
  rw [h]
  simp

/-- The placement rule of `IntegrateInsert`, for a call that returns no error. -/
theorem IntegrateInsert_rule (document : Document) (c prev next : Character)
    (S : List Character) (after : Document)
    (hnd : (ids document.Characters).Nodup)
    (hS : document.Subseq prev next = (S, none))
    (h : document.IntegrateInsert c prev next = some (after, none)) :
    ∃ L R, document.Characters = L ++ (S ++ R)
      ∧ R.head?.map Character.ID = some next.ID
      ∧ after.Characters
        = splice (L ++ S.take (placeIndex c.ID S)) (S.drop (placeIndex c.ID S) ++ R) c := by
  have hc := IntegrateInsert_success_ID document c prev next after h
  by_cases hnil : S = []
  · subst hnil
    rw [IntegrateInsert_of_empty document c prev next hS] at h
    have h' : document.LocalInsert c (document.Position next.ID - 1) = (after, none) := by
      simpa using h
    obtain ⟨h0, h1, -⟩ := LocalInsert_success document c _ (by rw [h'])
    have hmem : next.ID ∈ ids document.Characters := by
      by_contra hno
      have := (Position_eq_neg_one_iff document next.ID).mpr hno
      omega
    obtain ⟨A, x, B, hl, hA, hx⟩ := split_of_mem document.Characters next.ID hmem
    have hpos := Position_eq_of_split document next.ID A x B hl hA hx
    have hins := LocalInsert_inRange document c _ h0 h1 hc
    rw [h', hpos] at hins
    have e : ((A.length : Int) + 1 - 1).toNat = A.length := by omega
    rw [e, hl] at hins
    simp only [List.take_left', List.drop_left', Prod.mk.injEq, and_true] at hins
    refine ⟨A, x :: B, by simpa using hl, by simp [hx], ?_⟩
    rw [hins]
    simp [placeIndex]
  · obtain ⟨L, p, n, R, hdoc, hp, hn⟩ := Subseq_split document prev next S hnd hS hnil
    have hI := IntegrateInsert_place document c prev next p n L S R hdoc hnd hp hn hc
    rw [h] at hI
    simp only [Option.some.injEq, Prod.mk.injEq, and_true] at hI
    refine ⟨L ++ [p], n :: R, by rw [hdoc]; simp, by simp [hn], ?_⟩
    rw [hI]
    simp only [List.append_assoc, List.singleton_append]

/-- The frame of `IntegrateInsert`: one character more, between the bounds. -/
theorem IntegrateInsert_frame (document : Document) (c prev next : Character)
    (hnd : (ids document.Characters).Nodup)
    (h0 : 0 < document.Position prev.ID)
    (hlt : document.Position prev.ID < document.Position next.ID)
    (hc : c.ID ≠ "") (hfresh : c.ID ∉ ids document.Characters) :
    ∃ after, document.IntegrateInsert c prev next = some (after, none)
      ∧ after.Length = document.Length + 1
      ∧ after.Position prev.ID = document.Position prev.ID
      ∧ after.Position next.ID = document.Position next.ID + 1
      ∧ document.Position prev.ID < after.Position c.ID
      ∧ after.Position c.ID < after.Position next.ID
      ∧ AddsOne document after c
      ∧ (ids after.Characters).Nodup := by
  obtain ⟨L, p, M, n, R, hdoc, hp, hn⟩ := split_of_positions document prev next h0 hlt
  have h1 := IntegrateInsert_place document c prev next p n L M R hdoc hnd hp hn hc
  obtain ⟨hP, hN, -⟩ := Subseq_between document prev next p n L M R hdoc hnd hp hn
  generalize placeIndex c.ID M = k at h1
  have hAB : (L ++ p :: M.take k) ++ (M.drop k ++ n :: R) = document.Characters := by
    rw [hdoc]
    simp only [List.append_assoc, List.cons_append]
    rw [← List.append_assoc (M.take k), List.take_append_drop]
  have hperm : (ids (splice (L ++ p :: M.take k) (M.drop k ++ n :: R) c)).Perm
      (c.ID :: ids document.Characters) := by
    rw [ids_splice]
    have hm := @List.perm_middle _ c.ID (ids (L ++ p :: M.take k))
      (ids (M.drop k ++ n :: R))
    rw [← ids_append, hAB] at hm
    exact hm
  have hnd1 : (ids (splice (L ++ p :: M.take k) (M.drop k ++ n :: R) c)).Nodup :=
    hperm.nodup_iff.mpr (List.nodup_cons.mpr ⟨hfresh, hnd⟩)
  -- the positions depend on the ids only
  have hids : ids (splice (L ++ p :: M.take k) (M.drop k ++ n :: R) c)
      = ids (L ++ p :: (M.take k ++ c :: (M.drop k ++ n :: R))) := by
    rw [ids_splice]
    simp [ids]
  have hnd2 : (ids (Document.mk (L ++ p :: (M.take k ++ c :: (M.drop k ++ n :: R)))).Characters).Nodup := by
    rw [← hids]; exact hnd1
  obtain ⟨hP', hC', -⟩ := Subseq_between
    (Document.mk (L ++ p :: (M.take k ++ c :: (M.drop k ++ n :: R)))) prev c p c L (M.take k)
    (M.drop k ++ n :: R) rfl hnd2 hp rfl
  obtain ⟨-, hN', -⟩ := Subseq_between
    (Document.mk (L ++ p :: (M.take k ++ c :: (M.drop k ++ n :: R)))) prev next p n L
    (M.take k ++ c :: M.drop k) R (by simp) hnd2 hp hn
  have hpos : ∀ id, (Document.mk (splice (L ++ p :: M.take k) (M.drop k ++ n :: R) c)).Position id
      = (Document.mk (L ++ p :: (M.take k ++ c :: (M.drop k ++ n :: R)))).Position id :=
    fun id => PositionLoop_ids id _ _ 0 hids
  have hlenM : (M.take k ++ c :: M.drop k).length = M.length + 1 := by
    have := congrArg List.length (List.take_append_drop k M)
    simp only [List.length_append, List.length_cons] at this ⊢
    omega
  have hlenT : (M.take k).length ≤ M.length := by
    simp only [List.length_take]; omega
  refine ⟨_, h1, ?_, ?_, ?_, ?_, ?_, ?_, hnd1⟩
  · unfold Document.Length
    simp only [length_splice]
    rw [← hAB]
    simp only [List.length_append]
    push_cast
    ring
  · rw [hpos, hP', hP]
  · rw [hpos, hN', hN, hlenM]; push_cast; ring
  · rw [hpos, hC', hP]; omega
  · rw [hpos, hpos, hC', hN', hlenM]; push_cast; omega
  · have := AddsOne_splice (L ++ p :: M.take k) (M.drop k ++ n :: R) c
    rw [hAB] at this
    exact this

theorem IthVisible_cases (document : Document) (k : Int) :
    IthVisible document k = notFound
    ∨ ∃ A c B, document.Characters = A ++ c :: B ∧ c.Visible = true
        ∧ (visibleCount A : Int) = k - 1 ∧ IthVisible document k = c := by
  by_cases h : 1 ≤ k ∧ k ≤ visibleCount document.Characters
  · right
    obtain ⟨A, c, B, hl, hc, hA⟩ :=
      exists_split_visible document.Characters (k - 1).toNat (by omega)
    refine ⟨A, c, B, hl, hc, by omega, ?_⟩
    unfold IthVisible
    rw [hl]
    exact IthVisibleLoop_found _ A c B 0 hc (by omega)
  · left
    exact IthVisible_out_of_range document k (by omega)

/-- The left bound of `GenerateInsert` is the start sentinel or a visible character. -/
theorem prevBound_cases (document : Document) (position : Int) :
    prevBound document position = document.Find "start"
    ∨ ∃ A c B, document.Characters = A ++ c :: B ∧ c.Visible = true
        ∧ (visibleCount A : Int) = position - 2
        ∧ IthVisible document (position - 1) = c ∧ prevBound document position = c := by
  unfold prevBound
  split
  · exact Or.inl rfl
  · rename_i hid
    rcases IthVisible_cases document (position - 1) with h | ⟨A, c, B, hl, hc, hA, hf⟩
    · rw [h] at hid; exact absurd rfl hid
    · exact Or.inr ⟨A, c, B, hl, hc, by omega, hf, hf⟩

/-- The right bound of `GenerateInsert` is the end sentinel or a visible character. -/
theorem nextBound_cases (document : Document) (position : Int) :
    nextBound document position = document.Find "end"
    ∨ ∃ A c B, document.Characters = A ++ c :: B ∧ c.Visible = true
        ∧ (visibleCount A : Int) = position - 1 ∧ nextBound document position = c := by
  unfold nextBound
  split
  · exact Or.inl rfl
  · rename_i hid
    rcases IthVisible_cases document position with h | ⟨A, c, B, hl, hc, hA, hf⟩
    · rw [h] at hid; exact absurd rfl hid
    · exact Or.inr ⟨A, c, B, hl, hc, hA, hf⟩

/-- On a document with sentinels and pairwise distinct ids, the left bound of `GenerateInsert`
stands before the right bound, whatever the position. -/
theorem bounds_split_any (document : Document) (position : Int)
    (hstart : StartsWithStart document) (hend : EndsWithEnd document)
    (hnd : (ids document.Characters).Nodup) :
    ∃ L M R, document.Characters
        = L ++ prevBound document position :: (M ++ nextBound document position :: R) := by
  obtain ⟨s, rest, hs, hsid, hsv⟩ := of_StartsWithStart document hstart
  obtain ⟨init, e, he, heid, hev⟩ := of_EndsWithEnd document hend
  have hfindE := Find_end document init e he heid hnd
  have hfindS := Find_start document s rest hs hsid
  rcases prevBound_cases document position with hP | ⟨A', c', B', hl', hc', hA', hf', hP⟩
  · rw [hP, hfindS]
    rcases nextBound_cases document position with hN | ⟨A, c, B, hl, hc, hA, hN⟩
    · rw [hN, hfindE]
      have hrest : rest ≠ [] := by
        intro hrest
        rw [hrest] at hs
        have : [s] = init ++ [e] := by rw [← hs, he]
        have hlast := congrArg List.getLast? this
        simp at hlast
        rw [hlast, heid] at hsid
        exact absurd hsid (by decide)
      obtain ⟨M, b, hM⟩ : ∃ M b, rest = M ++ [b] := by
        rcases List.eq_nil_or_concat rest with h | ⟨M, b, h⟩
        · exact absurd h hrest
        · exact ⟨M, b, by simpa using h⟩
      have hcat : (s :: M) ++ [b] = init ++ [e] := by
        rw [← he, hs, hM]; simp
      have hbe : b = e := by
        have := (List.append_inj' hcat rfl).2
        simpa using this
      exact ⟨[], M, [], by rw [hs, hM, hbe]; simp⟩
    · rw [hN]
      cases A with
      | nil =>
        rw [hl] at hs
        simp only [List.nil_append, List.cons.injEq] at hs
        rw [hs.1, hsv] at hc
        exact absurd hc (by decide)
      | cons a A =>
        rw [hl] at hs
        simp only [List.cons_append, List.cons.injEq] at hs
        exact ⟨[], A, B, by rw [hl, hs.1]; simp⟩
  · rw [hP]
    rcases nextBound_cases document position with hN | ⟨A, c, B, hl, hc, hA, hN⟩
    · rw [hN, hfindE]
      have hB : B' ≠ [] := by
        intro hB
        rw [hB] at hl'
        have : A' ++ [c'] = init ++ [e] := by rw [← hl', he]
        have hlast := congrArg List.getLast? this
        simp at hlast
        rw [hlast, hev] at hc'
        exact absurd hc' (by decide)
      obtain ⟨M, b, hM⟩ : ∃ M b, B' = M ++ [b] := by
        rcases List.eq_nil_or_concat B' with h | ⟨M, b, h⟩
        · exact absurd h hB
        · exact ⟨M, b, by simpa using h⟩
      have hcat : (A' ++ c' :: M) ++ [b] = init ++ [e] := by
        rw [← he, hl', hM]; simp
      have hbe : b = e := by
        have := (List.append_inj' hcat rfl).2
        simpa using this
      exact ⟨A', M, [], by rw [hl', hM, hbe]⟩
    · rw [hN]
      obtain ⟨A₁, c₁, B₁, hA₁, hc₁, hcount⟩ :=
        exists_split_visible A (position - 2).toNat (by omega)
      have hdoc : document.Characters = A₁ ++ c₁ :: (B₁ ++ c :: B) := by
        rw [hl, hA₁]; simp
      have hfound : IthVisible document (position - 1) = c₁ := by
        unfold IthVisible
        rw [hdoc]
        exact IthVisibleLoop_found _ A₁ c₁ _ 0 hc₁ (by omega)
      rw [hf'] at hfound
      exact ⟨A₁, B₁, B, by rw [hfound]; exact hdoc⟩

/-- The result of `Insert` when the left bound stands before the right bound. -/
theorem Insert_of_split (globals : Globals) (document : Document) (position : Int)
    (value : String) (L M R : List Character)
    (hdoc : document.Characters
      = L ++ prevBound document position :: (M ++ nextBound document position :: R))
    (hnd : (ids document.Characters).Nodup) :
    ∃ after, document.Insert globals position value
        = some ({ globals with LocalClock := globals.LocalClock + 1 }, after, Content after, none)
      ∧ after.Characters.length = document.Characters.length + 1
      ∧ visibleCount after.Characters = visibleCount document.Characters + 1
      ∧ AddsOne document after
          (generated globals value (prevBound document position) (nextBound document position))
      ∧ SentinelsKept document after := by
  have hI := IntegrateInsert_place document
    (generated globals value (prevBound document position) (nextBound document position))
    _ _ _ _ L M R hdoc hnd rfl rfl (generated_ID_ne_empty globals value _ _)
  generalize placeIndex (generated globals value (prevBound document position)
    (nextBound document position)).ID M = k at hI
  generalize hA : L ++ prevBound document position :: M.take k = A at hI
  generalize hB : M.drop k ++ nextBound document position :: R = B at hI
  have hAB : A ++ B = document.Characters := by
    rw [← hA, ← hB, hdoc]
    simp only [List.append_assoc, List.cons_append]
    rw [← List.append_assoc (M.take k), List.take_append_drop]
  have hAne : A ≠ [] := by rw [← hA]; simp
  have hBne : B ≠ [] := by rw [← hB]; simp
  refine ⟨Document.mk (splice A B
    (generated globals value (prevBound document position) (nextBound document position))),
    ?_, ?_, ?_, ?_, ?_⟩
  · unfold Document.Insert
    rw [GenerateInsert_eq, hI]
    rfl
  · simp only [length_splice]
    rw [← hAB, List.length_append]
  · show visibleCount (splice A B _) = _
    rw [visibleCount_splice A B
      (generated globals value (prevBound document position) (nextBound document position)) rfl,
      ← hAB, visibleCount_append]
  · have := AddsOne_splice A B
      (generated globals value (prevBound document position) (nextBound document position))
    rw [hAB] at this
    exact this
  · have := SentinelsKept_splice A B
      (generated globals value (prevBound document position) (nextBound document position))
      hAne hBne
    rw [hAB] at this
    exact this

/-- The bounds of `GenerateInsert` at a position out of range are the two sentinels. -/
theorem bounds_out_of_range (document : Document) (position : Int)
    (h : position ≤ 0 ∨ position > visibleCount document.Characters + 1) :
    prevBound document position = document.Find "start"
    ∧ nextBound document position = document.Find "end" := by
  have h1 := IthVisible_out_of_range document (position - 1) (by omega)
  have h2 := IthVisible_out_of_range document position (by omega)
  unfold prevBound nextBound
  rw [h1, h2]
  exact ⟨if_pos rfl, if_pos rfl⟩

theorem invisible_of_visibleCount (l : List Character) (h : visibleCount l = 0) :
    ∀ x ∈ l, x.Visible = false := by
  intro x hx
  unfold visibleCount at h
  have hnil := List.length_eq_zero.mp h
  have := List.filter_eq_nil_iff.mp hnil x hx
  simpa using this

/-- Without tombstones nothing stands between the bounds of an insert in range. -/
theorem NoTombstones_between (document : Document) (L M R : List Character) (p n : Character)
    (hstart : StartsWithStart document) (hend : EndsWithEnd document)
    (hnd : (ids document.Characters).Nodup) (hno : NoTombstones document)
    (hdoc : document.Characters = L ++ p :: (M ++ n :: R)) (hM : visibleCount M = 0) :
    M = [] := by
  cases M with
  | nil => rfl
  | cons x M =>
    exfalso
    have hxv := invisible_of_visibleCount _ hM x (by simp)
    have hxmem : x ∈ document.Characters := by rw [hdoc]; simp
    obtain ⟨s, rest, hs, hsid, -⟩ := of_StartsWithStart document hstart
    obtain ⟨init, e, he, heid, -⟩ := of_EndsWithEnd document hend
    rcases hno x hxmem hxv with hx | hx
    · -- the first character has the id "start" too
      have e1 : document.Characters = (L ++ [p]) ++ (x :: M ++ n :: R) := by
        rw [hdoc]; simp
      have hhead : (L ++ [p]).head? = some s := by
        have := congrArg List.head? e1
        rw [List.head?_append_of_ne_nil _ (by simp), hs] at this
        simpa using this.symm
      have hsmem : s ∈ L ++ [p] := List.mem_of_mem_head? hhead
      rw [e1, ids_append, List.nodup_append] at hnd
      apply hnd.2.2 (List.mem_map_of_mem Character.ID hsmem)
      rw [hsid, ← hx]
      simp [ids]
    · -- the last character has the id "end" too
      have e1 : document.Characters = (L ++ p :: x :: M) ++ (n :: R) := by
        rw [hdoc]; simp
      have hlast : (n :: R).getLast? = some e := by
        have := congrArg List.getLast? e1
        rw [List.getLast?_append_of_ne_nil _ (by simp), he] at this
        simpa using this.symm
      have hemem : e ∈ n :: R := List.mem_of_getLast?_eq_some hlast
      rw [e1, ids_append, List.nodup_append] at hnd
      have hxmem' : x.ID ∈ ids (L ++ p :: x :: M) := by simp [ids]
      apply hnd.2.2 hxmem'
      rw [hx, ← heid]
      exact List.mem_map_of_mem Character.ID hemem

theorem chain'_getElem? {α : Type} {R : α → α → Prop} (l : List α) (h : List.Chain' R l)
    (i : Nat) (a b : α) (ha : l[i]? = some a) (hb : l[i + 1]? = some b) : R a b := by
  induction l generalizing i with
  | nil => simp at ha
  | cons x l ih =>
    cases i with
    | zero =>
      simp only [List.getElem?_cons_zero, Option.some.injEq] at ha
      simp only [zero_add, List.getElem?_cons_succ] at hb
      rw [← ha]
      exact (List.chain'_cons'.mp h).1 b (by
        cases l with
        | nil => simp at hb
        | cons y l => simpa using hb)
    | succ i =>
      simp only [List.getElem?_cons_succ] at ha hb
      exact ih (List.chain'_cons'.mp h).2 i ha hb

/-- The links after a splice between two adjacent characters. -/
theorem Linked_splice (L R : List Character) (p n c : Character)
    (h : List.Chain' linked (L ++ p :: n :: R))
    (hp : c.PrevID = p.ID) (hn : c.NextID = n.ID) :
    List.Chain' linked
      (L ++ { p with NextID := c.ID } :: c :: { n with PrevID := c.ID } :: R) := by
  rw [List.chain'_split] at h ⊢
  obtain ⟨hL, hR⟩ := h
  constructor
  · rw [List.chain'_append] at hL ⊢
    refine ⟨hL.1, List.chain'_singleton _, ?_⟩
    intro x hx y hy
    simp only [List.head?_cons, Option.mem_def, Option.some.injEq] at hy
    have := hL.2.2 x hx p (by simp)
    rw [← hy]
    exact this
  · rw [List.chain'_cons] at hR
    rw [List.chain'_cons, List.chain'_cons]
    refine ⟨⟨rfl, hp⟩, ⟨hn, rfl⟩, ?_⟩
    rw [List.chain'_cons'] at hR ⊢
    exact ⟨fun y hy => hR.2.1 y hy, hR.2.2⟩

/-- One `Insert` at a position in range, on a document built by the replica without
tombstones. -/
theorem Linked_Insert (globals : Globals) (document : Document) (position : Int)
    (value : String) (hinv : BuiltBy globals document)
    (hlinked : Linked document) (hno : NoTombstones document)
    (h1 : 1 ≤ position) (h2 : position ≤ visibleCount document.Characters + 1) :
    ∃ after, document.Insert globals position value
        = some ({ globals with LocalClock := globals.LocalClock + 1 }, after, Content after, none)
      ∧ Linked after ∧ NoTombstones after := by
  obtain ⟨hstart, hend, hnd, hform⟩ := hinv
  have hmark := BuiltBy_marker globals document ⟨hstart, hend, hnd, hform⟩
  obtain ⟨L, M, R, k, hdoc, hM, -, -, hins⟩ :=
    Insert_of_bounds globals document position value hstart hend hnd hmark h1 h2
  have hMnil := NoTombstones_between document L M R _ _ hstart hend hnd hno hdoc hM
  subst hMnil
  simp only [List.take_nil, List.drop_nil, List.nil_append] at hins hdoc
  rw [splice_concat_cons] at hins
  refine ⟨_, hins, ?_, ?_⟩
  · unfold Linked at hlinked ⊢
    rw [hdoc] at hlinked
    exact Linked_splice L R _ _ _ hlinked rfl rfl
  · intro x hx hxv
    simp only [List.mem_append, List.mem_cons] at hx
    have hmemP : prevBound document position ∈ document.Characters := by
      rw [hdoc]; simp
    have hmemN : nextBound document position ∈ document.Characters := by
      rw [hdoc]; simp
    rcases hx with hx | hx | hx | hx | hx
    · exact hno x (by rw [hdoc]; simp [hx]) hxv
    · rw [hx] at hxv ⊢
      exact hno (prevBound document position) hmemP hxv
    · rw [hx] at hxv
      exact absurd hxv (by simp [generated])
    · rw [hx] at hxv ⊢
      exact hno (nextBound document position) hmemN hxv
    · exact hno x (by rw [hdoc]; simp [hx]) hxv

/-- A sequence of inserts at positions in range, on a document built by the replica without
tombstones. -/
theorem insertAll_Linked (inserts : List (Int × String)) (globals : Globals)
    (document : Document) (hinv : BuiltBy globals document)
    (hlinked : Linked document) (hno : NoTombstones document)
    (hr : inRange (visibleCount document.Characters) inserts = true) :
    ∃ globals' after, insertAll inserts globals document = some (globals', after)
      ∧ BuiltBy globals' after ∧ Linked after ∧ NoTombstones after
      ∧ globals'.SiteID = globals.SiteID := by
  induction inserts generalizing globals document with
  | nil => exact ⟨globals, document, rfl, hinv, hlinked, hno, rfl⟩
  | cons insert rest ih =>
    obtain ⟨position, value⟩ := insert
    simp only [inRange, Bool.and_eq_true, decide_eq_true_eq] at hr
    obtain ⟨after, hins, hinv', -, hcount⟩ :=
      BuiltBy_Insert globals document position value hinv hr.1.1 (by omega)
    obtain ⟨after', hins', hlinked', hno'⟩ :=
      Linked_Insert globals document position value hinv hlinked hno hr.1.1 (by omega)
    have hsame : after' = after := by
      rw [hins] at hins'
      simp only [Option.some.injEq, Prod.mk.injEq, true_and] at hins'
      exact hins'.1.symm
    rw [hsame] at hlinked' hno'
    obtain ⟨globals', final, hrun, hfinal, hl, hn, hsite⟩ :=
      ih _ after hinv' hlinked' hno' (by rw [hcount]; exact hr.2)
    refine ⟨globals', final, ?_, hfinal, hl, hn, hsite⟩
    simp only [insertAll, hins]
    exact hrun

theorem Linked_New : Linked New := by
  unfold Linked New
  exact List.chain'_pair.mpr ⟨rfl, rfl⟩

theorem NoTombstones_New : NoTombstones New := by
  intro x hx _
  simp only [New, List.mem_cons, List.mem_singleton, List.not_mem_nil, or_false] at hx
  rcases hx with h | h
  · left; rw [h]; rfl
  · right; rw [h]; rfl

/-- A `Subseq` without error has both bounds in the document, the left one not after the right
one. -/
theorem Subseq_none_positions (document : Document) (prev next : Character)
    (S : List Character) (hS : document.Subseq prev next = (S, none)) :
    0 < document.Position prev.ID
    ∧ document.Position prev.ID ≤ document.Position next.ID
    ∧ document.Position next.ID ≤ document.Characters.length := by
  have hno : ¬ (document.Subseq prev next).2 = some Error.ErrBoundsMissing := by
    rw [hS]; simp
  rw [Subseq_error_iff] at hno
  simp only [not_or, not_not, gt_iff_lt, not_lt] at hno
  obtain ⟨hp, -, hle⟩ := hno
  have hne : document.Position prev.ID ≠ -1 :=
    fun h' => (Position_eq_neg_one_iff document prev.ID).mp h' hp
  have r1 := PositionLoop_range prev.ID document.Characters 0
  have r2 := PositionLoop_range next.ID document.Characters 0
  unfold Document.Position at hne hle ⊢
  omega

/-- When `IntegrateInsert` returns no error, on a document with pairwise distinct ids whose
`Subseq(prev, next)` returns no error: exactly when the id of the character is not empty and
`next` is not the first character. -/
theorem IntegrateInsert_success_iff (document : Document) (c prev next : Character)
    (S : List Character) (hnd : (ids document.Characters).Nodup)
    (hS : document.Subseq prev next = (S, none)) :
    (∃ after, document.IntegrateInsert c prev next = some (after, none))
      ↔ (c.ID ≠ "" ∧ 1 < document.Position next.ID) := by
  obtain ⟨h0, hle, hlen⟩ := Subseq_none_positions document prev next S hS
  constructor
  · rintro ⟨after, h⟩
    refine ⟨IntegrateInsert_success_ID document c prev next after h, ?_⟩
    by_cases hnil : S = []
    · subst hnil
      rw [IntegrateInsert_of_empty document c prev next hS] at h
      have h' : (document.LocalInsert c (document.Position next.ID - 1)).2 = none := by
        have := congrArg (fun r => r.map Prod.snd) h
        simpa using this
      have := (LocalInsert_success document c _ h').1
      omega
    · rcases Subseq_ok document prev next S hS with h1 | ⟨s, e, hs', he', hs, hse, -, -⟩
      · exact absurd h1 hnil
      · rw [he']
        exact_mod_cast (by omega : 1 < e)
  · rintro ⟨hc, h1⟩
    rcases lt_or_eq_of_le hle with hlt | heq
    · obtain ⟨L, p, M, n, R, hdoc, hp, hn⟩ := split_of_positions document prev next h0 hlt
      exact ⟨_, IntegrateInsert_place document c prev next p n L M R hdoc hnd hp hn hc⟩
    · have hE := Subseq_same_position document prev next heq (by omega)
      rw [IntegrateInsert_of_empty document c prev next hE,
        LocalInsert_inRange document c _ (by omega) (by unfold Document.Length; omega) hc]
      exact ⟨_, rfl⟩

/-- Two splices of the same characters that give the same list add characters with the same
id. -/
theorem splice_eq_ID (A B A' B' : List Character) (c c' : Character)
    (hAB : A ++ B = A' ++ B') (h : splice A B c = splice A' B' c') : c.ID = c'.ID := by
  have h1 : (ids (splice A B c)).Perm (c.ID :: ids (A ++ B)) := by
    rw [ids_splice, ids_append]
    exact List.perm_middle
  have h2 : (ids (splice A' B' c')).Perm (c'.ID :: ids (A' ++ B')) := by
    rw [ids_splice, ids_append]
    exact List.perm_middle
  rw [h] at h1
  rw [← hAB] at h2
  have hperm := h1.symm.trans h2
  have hcount := hperm.count_eq c.ID
  rw [List.count_cons_self, List.count_cons] at hcount
  by_contra hne
  have : (c'.ID == c.ID) = false := by
    simp only [beq_eq_false_iff_ne, ne_eq]
    exact fun h' => hne h'.symm
  rw [this] at hcount
  simp at hcount

end crdt

/-! ## The claims -/

namespace crdt

/-- C1: integration is not independent of the order. The insert characters "11" and "21", both
generated between the sentinels of a fresh document, are integrated into `New` in the two
possible orders: the first order leaves "21" before "11", the second "11" before "21", so the
two `Characters` sequences differ. -/
theorem integrateAll_order_dependent :
    (integrateAll [insertX, insertY] New).map (fun document => ids document.Characters)
        = some ["start", "21", "11", "end"]
    ∧ (integrateAll [insertY, insertX] New).map (fun document => ids document.Characters)
        = some ["start", "11", "21", "end"]
    ∧ integrateAll [insertX, insertY] New ≠ integrateAll [insertY, insertX] New := by
  decide

/-- C5: saving and loading does not preserve a content outside ASCII. `Save` writes the two
bytes of "é"; `Load` inserts `string(b)` for each byte `b`, the two characters "Ã" and "©", so
the loaded content is "Ã©". The ASCII content "cat\ndog" of `TestLoad` is preserved, in a
loaded document of nine characters. -/
theorem load_save_accented :
    Content accented = "é"
    ∧ Save accented = [0xC3, 0xA9]
    ∧ (Load { SiteID := 1, LocalClock := 0 } (some (Save accented))).map
        (fun result => (Content result.2.1, result.2.2)) = some ("Ã©", none)
    ∧ Content catDog = "cat\ndog"
    ∧ (Load { SiteID := 0, LocalClock := 0 } (some (Save catDog))).map
        (fun result => (Content result.2.1, result.2.1.Length, result.2.2))
        = some ("cat\ndog", 9, none) := by
  decide

/-- C8: two different pairs of site id and clock give the same id. Site 1 at clock 10 and
site 11 at clock 0 both generate the id "111" with their next insert. -/
theorem generated_id_collision :
    (New.GenerateInsert { SiteID := 1, LocalClock := 10 } 1 "a").map
        (fun result => (result.1, ids result.2.1.Characters))
        = some ({ SiteID := 1, LocalClock := 11 }, ["start", "111", "end"])
    ∧ (New.GenerateInsert { SiteID := 11, LocalClock := 0 } 1 "b").map
        (fun result => (result.1, ids result.2.1.Characters))
        = some ({ SiteID := 11, LocalClock := 1 }, ["start", "111", "end"]) := by
  decide

/-- C3 (as stated, refuted): `markerDocument` starts with the start sentinel, ends with the end
sentinel, has pairwise distinct ids and two visible characters "a", "b"; its first visible
character has the id "-1", the marker `IthVisible` returns for "not found". `Insert(2, "v")`
takes that character for a missing left bound, uses the start sentinel instead and places "v"
first: the content is "vab", not "avb". -/
theorem Insert_after_marker_id :
    StartsWithStart markerDocument ∧ EndsWithEnd markerDocument
    ∧ (ids markerDocument.Characters).Nodup
    ∧ visibleValues markerDocument.Characters = ["a", "b"]
    ∧ (markerDocument.Insert { SiteID := 1, LocalClock := 0 } 2 "v").map
        (fun result => (visibleValues result.2.1.Characters, result.2.2))
        = some (["v", "a", "b"], "vab", none)
    ∧ (visibleValues markerDocument.Characters).insertIdx 1 "v" = ["a", "v", "b"] := by
  decide

/-- C3 (amended): on a document that starts with the start sentinel, ends with the end
sentinel, has pairwise distinct ids and no visible character with the id "-1", with `n` visible
characters, for every position `1 ≤ p ≤ n + 1` and every value `v`, `Insert(p, v)` returns no
error, the returned string is `Content` of the updated document, and the visible values of the
updated document are the previous visible values with `v` inserted as the `p`-th; `Content` is
the concatenation of the visible values. -/
theorem Insert_at_visible_position (globals : Globals) (document : Document) (position : Int)
    (value : String)
    (hstart : StartsWithStart document) (hend : EndsWithEnd document)
    (hnd : (ids document.Characters).Nodup)
    (hmark : ∀ x ∈ document.Characters, x.Visible = true → x.ID ≠ "-1")
    (h1 : 1 ≤ position) (h2 : position ≤ visibleCount document.Characters + 1) :
    ∃ newDocument,
      document.Insert globals position value
        = some ({ globals with LocalClock := globals.LocalClock + 1 }, newDocument,
            Content newDocument, none)
      ∧ visibleValues newDocument.Characters
        = (visibleValues document.Characters).insertIdx (position - 1).toNat value
      ∧ Content document = String.join (visibleValues document.Characters)
      ∧ Content newDocument
        = String.join ((visibleValues document.Characters).insertIdx (position - 1).toNat value) := by
  obtain ⟨L, M, R, k, hdoc, hM, hcount, -, hins⟩ :=
    Insert_of_bounds globals document position value hstart hend hnd hmark h1 h2
  have hvv := visibleValues_insert document.Characters L M R _ _
    (generated globals value (prevBound document position) (nextBound document position))
    k position hdoc hM hcount rfl
  refine ⟨_, hins, hvv, Content_eq_join document, ?_⟩
  rw [Content_eq_join, hvv]
  rfl

/-- C3, witness: `sample` holds "c", a tombstone and "t"; `Insert(2, "a")` is in range. -/
theorem Insert_at_visible_position_witness :
    ∃ newDocument,
      sample.Insert { SiteID := 1, LocalClock := 3 } 2 "a"
        = some ({ SiteID := 1, LocalClock := 4 }, newDocument, Content newDocument, none)
      ∧ visibleValues newDocument.Characters
        = (visibleValues sample.Characters).insertIdx ((2 : Int) - 1).toNat "a"
      ∧ Content sample = String.join (visibleValues sample.Characters)
      ∧ Content newDocument
        = String.join ((visibleValues sample.Characters).insertIdx ((2 : Int) - 1).toNat "a") :=
  Insert_at_visible_position { SiteID := 1, LocalClock := 3 } sample 2 "a"
    (by decide) (by decide) (by decide) (by decide) (by decide) (by decide)

/-- C4: on a document with pairwise distinct ids and `n` visible characters, for every position
`1 ≤ p ≤ n`, `Delete(p)` replaces the `p`-th visible character `c` by `c` with `Visible = false`
and changes nothing else: the characters before and after it are the same, `Length` is
unchanged, the returned string is `Content` of the updated document, and the visible values are
the previous ones without the `p`-th. On a fresh document, `Insert(1, "a")` then `Delete(1)`
leaves three invisible characters and the content "". -/
theorem Delete_at_visible_position (document : Document) (position : Int)
    (hnd : (ids document.Characters).Nodup)
    (h1 : 1 ≤ position) (h2 : position ≤ visibleCount document.Characters) :
    (∃ A c B, document.Characters = A ++ c :: B ∧ c.Visible = true
      ∧ (visibleCount A : Int) = position - 1
      ∧ (document.Delete position).1.Characters = A ++ { c with Visible := false } :: B)
    ∧ (document.Delete position).1.Length = document.Length
    ∧ (document.Delete position).2 = Content (document.Delete position).1
    ∧ visibleValues (document.Delete position).1.Characters
      = (visibleValues document.Characters).eraseIdx (position - 1).toNat
    ∧ (document.Delete position).2
      = String.join ((visibleValues document.Characters).eraseIdx (position - 1).toNat)
    ∧ ∀ globals : Globals, ∃ inserted,
        New.Insert globals 1 "a"
          = some ({ globals with LocalClock := globals.LocalClock + 1 }, inserted, "a", none)
        ∧ (inserted.Delete 1).1.Length = 3
        ∧ (inserted.Delete 1).1.Characters.map Character.Visible = [false, false, false]
        ∧ (inserted.Delete 1).2 = "" := by
  obtain ⟨A, c, B, hl, hc, hA, -, hdel⟩ := GenerateDelete_split document position hnd h1 h2
  have hD : (document.Delete position).1
      = { Characters := A ++ { c with Visible := false } :: B } := hdel
  have hvv : visibleValues (document.Delete position).1.Characters
      = (visibleValues document.Characters).eraseIdx (position - 1).toNat := by
    rw [hD, hl]
    exact visibleValues_hide A B c position hc hA
  refine ⟨⟨A, c, B, hl, hc, hA, by rw [hD]⟩, ?_, rfl, hvv, ?_, ?_⟩
  · rw [hD]
    unfold Document.Length
    rw [hl]
    simp
  · show Content (document.Delete position).1 = _
    rw [Content_eq_join, hvv]
  · exact fresh_Insert_Delete

/-- C4, witness: `sample` holds "c", a tombstone and "t"; `Delete(2)` hides "t". -/
theorem Delete_at_visible_position_witness :
    (∃ A c B, sample.Characters = A ++ c :: B ∧ c.Visible = true
      ∧ (visibleCount A : Int) = 2 - 1
      ∧ (sample.Delete 2).1.Characters = A ++ { c with Visible := false } :: B)
    ∧ (sample.Delete 2).1.Length = sample.Length
    ∧ (sample.Delete 2).2 = Content (sample.Delete 2).1
    ∧ visibleValues (sample.Delete 2).1.Characters
      = (visibleValues sample.Characters).eraseIdx ((2 : Int) - 1).toNat
    ∧ (sample.Delete 2).2
      = String.join ((visibleValues sample.Characters).eraseIdx ((2 : Int) - 1).toNat)
    ∧ ∀ globals : Globals, ∃ inserted,
        New.Insert globals 1 "a"
          = some ({ globals with LocalClock := globals.LocalClock + 1 }, inserted, "a", none)
        ∧ (inserted.Delete 1).1.Length = 3
        ∧ (inserted.Delete 1).1.Characters.map Character.Visible = [false, false, false]
        ∧ (inserted.Delete 1).2 = "" :=
  Delete_at_visible_position sample 2 (by decide) (by decide) (by decide)

/-- C9: visibility is monotonic. For every document and each of `LocalInsert`,
`IntegrateInsert`, `GenerateInsert`, `Insert`, `IntegrateDelete`, `GenerateDelete` and `Delete`,
with any arguments and whether the call fails or not, the call returns and the characters before
it are kept, in order, among the characters after it: each with the same id and value, and
invisible afterwards if it was invisible before (`StaysTombstone`). In particular every
character that is present with `Visible = false` before is present with `Visible = false`
after. -/
theorem tombstones_stay (globals : Globals) (document : Document)
    (c prev next : Character) (position : Int) (value : String) :
    StaysTombstone document (document.LocalInsert c position).1
    ∧ (∃ result, document.IntegrateInsert c prev next = some result
        ∧ StaysTombstone document result.1)
    ∧ (∃ result, document.GenerateInsert globals position value = some result
        ∧ StaysTombstone document result.2.1)
    ∧ (∃ result, document.Insert globals position value = some result
        ∧ StaysTombstone document result.2.1)
    ∧ StaysTombstone document (document.IntegrateDelete c)
    ∧ StaysTombstone document (document.GenerateDelete position)
    ∧ StaysTombstone document (document.Delete position).1
    ∧ ∀ after, StaysTombstone document after →
        ∀ x ∈ document.Characters, x.Visible = false →
          ∃ y ∈ after.Characters, y.ID = x.ID ∧ y.Value = x.Value ∧ y.Visible = false := by
  have hgen : ∃ result, document.GenerateInsert globals position value = some result
      ∧ StaysTombstone document result.2.1 := by
    obtain ⟨r, hr, hs⟩ := IntegrateInsert_stays document
      (generated globals value (prevBound document position) (nextBound document position))
      (prevBound document position) (nextBound document position)
    exact ⟨_, by rw [GenerateInsert_eq, hr]; rfl, hs⟩
  refine ⟨LocalInsert_stays document c position, IntegrateInsert_stays document c prev next,
    hgen, ?_, IntegrateDelete_stays document c, IntegrateDelete_stays document _,
    IntegrateDelete_stays document _, ?_⟩
  · obtain ⟨⟨g, d, e⟩, hr, hs⟩ := hgen
    unfold Document.Insert
    rw [hr]
    cases e with
    | none => exact ⟨_, rfl, hs⟩
    | some err => exact ⟨_, rfl, hs⟩
  · intro after hafter
    unfold StaysTombstone at hafter
    generalize document.Characters = before at hafter
    generalize after.Characters = later at hafter
    induction hafter with
    | nil => intro x hx; simp at hx
    | cons hk _ ih =>
      intro x hx hv
      rcases List.mem_cons.mp hx with rfl | hmem
      · exact ⟨_, List.mem_cons_self _ _, hk.1, hk.2.1, hk.2.2 hv⟩
      · obtain ⟨y, hy, h⟩ := ih x hmem hv
        exact ⟨y, List.mem_cons_of_mem _ hy, h⟩
    | cons_right _ ih =>
      intro x hx hv
      obtain ⟨y, hy, h⟩ := ih x hx hv
      exact ⟨y, List.mem_cons_of_mem _ hy, h⟩

/-- C10: integrating a remote delete is idempotent. For every document and character `c`,
`IntegrateDelete(c)` applied twice leaves the document that `IntegrateDelete(c)` applied once
leaves, and when no character has the id of `c` the document is unchanged. -/
theorem IntegrateDelete_idempotent (document : Document) (c : Character) :
    (document.IntegrateDelete c).IntegrateDelete c = document.IntegrateDelete c
    ∧ (c.ID ∉ ids document.Characters → document.IntegrateDelete c = document) :=
  ⟨IntegrateDelete_twice document c, IntegrateDelete_absent document c⟩

/-- C10, witness: the id "11" is in `sample` and is deleted twice; the id "21" is absent. -/
theorem IntegrateDelete_idempotent_witness :
    (sample.IntegrateDelete insertX).IntegrateDelete insertX = sample.IntegrateDelete insertX
    ∧ (sample.IntegrateDelete insertY).IntegrateDelete insertY = sample.IntegrateDelete insertY
    ∧ sample.IntegrateDelete insertY = sample :=
  ⟨(IntegrateDelete_idempotent sample insertX).1, (IntegrateDelete_idempotent sample insertY).1,
    (IntegrateDelete_idempotent sample insertY).2 (by decide)⟩

end crdt

namespace client

open crdt

/-- C2: replica A (site 1) inserts "x" and replica B (site 2) inserts "y" at visible position 1
of a fresh document; the characters they generate are `insertX` (id "11") and `insertY`
(id "21"). When each integrates the character of the other between the sentinels, A holds "21"
before "11" and B holds "11" before "21": the replicas do not converge, and on A the character
with the smaller id does not come first. The same happens when the two replicas exchange the
messages that `performOperation` writes: A ends with the content "yx", B with "xy". -/
theorem concurrent_inserts_diverge :
    (New.Insert { SiteID := 1, LocalClock := 0 } 1 "x").map
        (fun result => result.2.1.Characters.filter Character.Visible) = some [insertX]
    ∧ (New.Insert { SiteID := 2, LocalClock := 0 } 1 "y").map
        (fun result => result.2.1.Characters.filter Character.Visible) = some [insertY]
    ∧ ((New.Insert { SiteID := 1, LocalClock := 0 } 1 "x").bind
        (fun result => result.2.1.IntegrateInsert insertY StartCharacter EndCharacter)).map
        (fun result => (ids result.1.Characters, result.2))
        = some (["start", "21", "11", "end"], none)
    ∧ ((New.Insert { SiteID := 2, LocalClock := 0 } 1 "y").bind
        (fun result => result.2.1.IntegrateInsert insertX StartCharacter EndCharacter)).map
        (fun result => (ids result.1.Characters, result.2))
        = some (["start", "11", "21", "end"], none)
    ∧ ((performOperation { document := New, globals := { SiteID := 1, LocalClock := 0 } } 0
          OperationInsert 'x').bind fun a =>
        (performOperation { document := New, globals := { SiteID := 2, LocalClock := 0 } } 0
          OperationInsert 'y').bind fun b =>
        (handleMsg (fun _ => 0) a.1 b.2).bind fun a' =>
        (handleMsg (fun _ => 0) b.1 a.2).map fun b' =>
          (Content a'.document, Content b'.document)) = some ("yx", "xy") := by
  decide

/-- C6 (as stated, refuted): integrating `insertX` into a fresh document a second time adds a
second character with the id "11", and handling the insert message of "x" at position 1 a
second time adds a second "x": neither leaves the document as it was after the first time. -/
theorem second_integration_adds_a_character :
    (New.IntegrateInsert insertX StartCharacter EndCharacter).map
        (fun once => (ids once.1.Characters, once.2)) = some (["start", "11", "end"], none)
    ∧ ((New.IntegrateInsert insertX StartCharacter EndCharacter).bind
        (fun once => once.1.IntegrateInsert insertX StartCharacter EndCharacter)).map
        (fun twice => (ids twice.1.Characters, twice.2))
        = some (["start", "11", "11", "end"], none)
    ∧ (handleMsg (fun _ => 0) { document := New, globals := { SiteID := 2, LocalClock := 0 } }
        (insertMessage 1 "x")).map (fun once => visibleValues once.document.Characters)
        = some ["x"]
    ∧ ((handleMsg (fun _ => 0) { document := New, globals := { SiteID := 2, LocalClock := 0 } }
        (insertMessage 1 "x")).bind
        (fun once => handleMsg (fun _ => 0) once (insertMessage 1 "x"))).map
        (fun twice => visibleValues twice.document.Characters) = some ["x", "x"] := by
  decide

/-- C6 (amended): integration of an insert is not idempotent, since neither `IntegrateInsert`
nor `handleMsg` checks whether the id is contained. On a document with pairwise distinct ids,
with `prev` before `next`, for a character `c` with a non-empty id that is not in the document,
`IntegrateInsert(c, prev, next)` succeeds, the same call again succeeds too, and the document
then holds two characters with the id of `c` and is two characters longer. Every
`IntegrateInsert` that returns no error, and every handled insert message whose `Insert` returns
no error, makes the document one character longer. -/
theorem integration_is_repeated (document : Document) (c prev next : Character)
    (hnd : (ids document.Characters).Nodup)
    (h0 : 0 < document.Position prev.ID)
    (h : document.Position prev.ID < document.Position next.ID)
    (hc : c.ID ≠ "") (hfresh : c.ID ∉ ids document.Characters) :
    (∃ once twice, document.IntegrateInsert c prev next = some (once, none)
      ∧ once.IntegrateInsert c prev next = some (twice, none)
      ∧ (ids once.Characters).count c.ID = 1
      ∧ (ids twice.Characters).count c.ID = 2
      ∧ twice.Characters.length = document.Characters.length + 2)
    ∧ (∀ (before after : Document) (x left right : Character),
        before.IntegrateInsert x left right = some (after, none) →
        after.Characters.length = before.Characters.length + 1)
    ∧ (∀ (atoi : String → Int) (replica : Replica) (message : Message) (globals : Globals)
        (after : Document) (content : String),
        message.MessageType = "operation" → message.Operation.OperationType = "insert" →
        replica.document.Insert replica.globals message.Operation.Position
          message.Operation.Value = some (globals, after, content, none) →
        handleMsg atoi replica message = some { document := after, globals := globals }
        ∧ after.Characters.length = replica.document.Characters.length + 1) := by
  refine ⟨IntegrateInsert_twice document c prev next hnd h0 h hc hfresh, ?_, ?_⟩
  · intro before after x left right hI
    exact IntegrateInsert_success_length before x left right after hI
  · intro atoi replica message globals after content hT hO hI
    exact ⟨handleMsg_insert atoi replica message hT hO globals after content none hI,
      Insert_success_length _ _ _ _ _ _ _ hI⟩

/-- C6, witness: `insertX` between the sentinels of a fresh document. -/
theorem integration_is_repeated_witness :
    ∃ once twice, New.IntegrateInsert insertX StartCharacter EndCharacter = some (once, none)
      ∧ once.IntegrateInsert insertX StartCharacter EndCharacter = some (twice, none)
      ∧ (ids once.Characters).count insertX.ID = 1
      ∧ (ids twice.Characters).count insertX.ID = 2
      ∧ twice.Characters.length = New.Characters.length + 2 :=
  (integration_is_repeated New insertX StartCharacter EndCharacter
    (by decide) (by decide) (by decide) (by decide) (by decide)).1

/-- C7 (as stated, refuted): replicas A (site 1) and B (site 2) both hold a fresh document. A
inserts "x" at the cursor 0 and B handles the message A writes: A holds the character "11", B
the character "21", so their `Characters` are not identical. At a position out of range the
id decides the place: both replicas hold `threeLetters`, A (site 1, clock 3) inserts "v" at
position 10 and gets "abvc", B (site 10) handles the message and gets "avbc". -/
theorem remote_insert_gets_a_new_id :
    (performOperation { document := New, globals := { SiteID := 1, LocalClock := 0 } } 0
        OperationInsert 'x').map
      (fun result => (ids result.1.document.Characters, result.2))
      = some (["start", "11", "end"], insertMessage 1 "x")
    ∧ (handleMsg (fun _ => 0) { document := New, globals := { SiteID := 2, LocalClock := 0 } }
        (insertMessage 1 "x")).map (fun b => ids b.document.Characters)
      = some ["start", "21", "end"]
    ∧ (performOperation { document := threeLetters, globals := { SiteID := 1, LocalClock := 3 } }
        9 OperationInsert 'v').map
      (fun result => (Content result.1.document, result.2))
      = some ("abvc", insertMessage 10 "v")
    ∧ (handleMsg (fun _ => 0)
        { document := threeLetters, globals := { SiteID := 10, LocalClock := 0 } }
        (insertMessage 10 "v")).map (fun b => Content b.document)
      = some "avbc" := by
  decide

/-- C7 (amended): a remote insert is replayed by position, with an id of the receiver. If
replicas A and B hold the same document (with sentinels, pairwise distinct ids, no visible
character with the id "-1"), A inserts a character at a cursor between 0 and the number of
visible characters, and B handles the message A writes, then both calls succeed, the new
character has the same value, `PrevID` and `NextID` on both replicas and on each the id built
from its own `SiteID` and `LocalClock`, and both replicas have the same visible values and the
same `Content`. Their documents are element-wise identical exactly when the two ids are
equal. -/
theorem remote_insert_same_content (atoi : String → Int) (document : Document)
    (globalsA globalsB : Globals) (cursor : Int) (ch : Char)
    (hstart : StartsWithStart document) (hend : EndsWithEnd document)
    (hnd : (ids document.Characters).Nodup)
    (hmark : ∀ x ∈ document.Characters, x.Visible = true → x.ID ≠ "-1")
    (h1 : 0 ≤ cursor) (h2 : cursor ≤ visibleCount document.Characters) :
    ∃ a b message,
      performOperation { document := document, globals := globalsA } cursor OperationInsert ch
        = some (a, message)
      ∧ handleMsg atoi { document := document, globals := globalsB } message = some b
      ∧ generated globalsA (String.singleton ch) (prevBound document (cursor + 1))
          (nextBound document (cursor + 1)) ∈ a.document.Characters
      ∧ generated globalsB (String.singleton ch) (prevBound document (cursor + 1))
          (nextBound document (cursor + 1)) ∈ b.document.Characters
      ∧ visibleValues a.document.Characters = visibleValues b.document.Characters
      ∧ Content a.document = Content b.document
      ∧ (a.document.Characters = b.document.Characters
          ↔ Sprint globalsA.SiteID ++ Sprint (globalsA.LocalClock + 1)
            = Sprint globalsB.SiteID ++ Sprint (globalsB.LocalClock + 1)) := by
  obtain ⟨L, M, R, k, hdoc, hM, hcount, -, hA⟩ :=
    Insert_of_bounds globalsA document (cursor + 1) (String.singleton ch) hstart hend hnd hmark
      (by omega) (by omega)
  obtain ⟨L', M', R', k', hdoc', hM', hcount', -, hB⟩ :=
    Insert_of_bounds globalsB document (cursor + 1) (String.singleton ch) hstart hend hnd hmark
      (by omega) (by omega)
  have hvA := visibleValues_insert document.Characters L M R _ _
    (generated globalsA (String.singleton ch) (prevBound document (cursor + 1))
      (nextBound document (cursor + 1))) k (cursor + 1) hdoc hM hcount rfl
  have hvB := visibleValues_insert document.Characters L' M' R' _ _
    (generated globalsB (String.singleton ch) (prevBound document (cursor + 1))
      (nextBound document (cursor + 1))) k' (cursor + 1) hdoc' hM' hcount' rfl
  have hvv : visibleValues (splice (L ++ prevBound document (cursor + 1) :: M.take k)
        (M.drop k ++ nextBound document (cursor + 1) :: R)
        (generated globalsA (String.singleton ch) (prevBound document (cursor + 1))
          (nextBound document (cursor + 1))))
      = visibleValues (splice (L' ++ prevBound document (cursor + 1) :: M'.take k')
        (M'.drop k' ++ nextBound document (cursor + 1) :: R')
        (generated globalsB (String.singleton ch) (prevBound document (cursor + 1))
          (nextBound document (cursor + 1)))) := by
    rw [hvA, hvB]
    rfl
  have hsame : (L ++ prevBound document (cursor + 1) :: M.take k)
        ++ (M.drop k ++ nextBound document (cursor + 1) :: R)
      = (L' ++ prevBound document (cursor + 1) :: M'.take k')
        ++ (M'.drop k' ++ nextBound document (cursor + 1) :: R') := by
    have e : ∀ (X Y Z : List Character) (j : Nat) (p n : Character),
        (X ++ p :: Y.take j) ++ (Y.drop j ++ n :: Z) = X ++ p :: (Y ++ n :: Z) := by
      intro X Y Z j p n
      simp only [List.append_assoc, List.cons_append]
      rw [← List.append_assoc (Y.take j), List.take_append_drop]
    rw [e, e, ← hdoc, ← hdoc']
  obtain ⟨afterA, errA, hTA, hIA⟩ :=
    Insert_total globalsA document (cursor + 1) (String.singleton ch)
  obtain ⟨afterB, errB, hTB, hIB⟩ :=
    Insert_total globalsB document (cursor + 1) (String.singleton ch)
  rw [hA] at hTA
  rw [hB] at hTB
  simp only [Option.some.injEq, Prod.mk.injEq, true_and] at hTA hTB
  refine ⟨_, _, _,
    performOperation_insert { document := document, globals := globalsA } cursor ch _ _ _ _ hA,
    handleMsg_insert atoi { document := document, globals := globalsB } _ rfl rfl _ _ _ _ hB,
    mem_splice _ _ _, mem_splice _ _ _, hvv, ?_, ?_⟩
  · rw [Content_eq_join, Content_eq_join]
    exact congrArg String.join hvv
  · constructor
    · intro h
      exact splice_eq_ID _ _ _ _ _ _ hsame h
    · intro hid
      have hc : generated globalsA (String.singleton ch) (prevBound document (cursor + 1))
            (nextBound document (cursor + 1))
          = generated globalsB (String.singleton ch) (prevBound document (cursor + 1))
            (nextBound document (cursor + 1)) := by
        simp only [generated]
        rw [hid]
      rw [hc, hIB] at hIA
      simp only [Option.some.injEq, Prod.mk.injEq] at hIA
      have hAB : afterA = afterB := hIA.1.symm
      rw [← hTA.1, ← hTB.1] at hAB
      exact congrArg Document.Characters hAB

/-- C7, witness: both replicas hold `sample`; A inserts "a" at the cursor 1. -/
theorem remote_insert_same_content_witness :
    ∃ a b message,
      performOperation { document := sample, globals := { SiteID := 1, LocalClock := 3 } } 1
        OperationInsert 'a' = some (a, message)
      ∧ handleMsg (fun _ => 0) { document := sample, globals := { SiteID := 2, LocalClock := 0 } }
        message = some b
      ∧ generated { SiteID := 1, LocalClock := 3 } (String.singleton 'a')
          (prevBound sample (1 + 1)) (nextBound sample (1 + 1)) ∈ a.document.Characters
      ∧ generated { SiteID := 2, LocalClock := 0 } (String.singleton 'a')
          (prevBound sample (1 + 1)) (nextBound sample (1 + 1)) ∈ b.document.Characters
      ∧ visibleValues a.document.Characters = visibleValues b.document.Characters
      ∧ Content a.document = Content b.document
      ∧ (a.document.Characters = b.document.Characters
          ↔ Sprint (1 : Int) ++ Sprint ((3 : Int) + 1)
            = Sprint (2 : Int) ++ Sprint ((0 : Int) + 1)) :=
  remote_insert_same_content (fun _ => 0) sample { SiteID := 1, LocalClock := 3 }
    { SiteID := 2, LocalClock := 0 } 1 'a'
    (by decide) (by decide) (by decide) (by decide) (by decide) (by decide)

end client

namespace crdt

/-- C11: the sentinels stay. For every document and each of `LocalInsert`, `IntegrateInsert`,
`GenerateInsert`, `Insert`, `IntegrateDelete`, `GenerateDelete` and `Delete`, with any arguments
and whether the call fails or not, the call returns and the first character after it is the
first character before it, and the last the last: same id, same value, and invisible if it was
invisible (`SentinelsKept`). So a first character with the id "start" and a last character with
the id "end" stay first and last, and when they are invisible with an empty value they still
are after the call. -/
theorem sentinels_stay (globals : Globals) (document : Document)
    (c prev next : Character) (position : Int) (value : String) :
    SentinelsKept document (document.LocalInsert c position).1
    ∧ (∃ result, document.IntegrateInsert c prev next = some result
        ∧ SentinelsKept document result.1)
    ∧ (∃ result, document.GenerateInsert globals position value = some result
        ∧ SentinelsKept document result.2.1)
    ∧ (∃ result, document.Insert globals position value = some result
        ∧ SentinelsKept document result.2.1)
    ∧ SentinelsKept document (document.IntegrateDelete c)
    ∧ SentinelsKept document (document.GenerateDelete position)
    ∧ SentinelsKept document (document.Delete position).1
    ∧ ∀ after, SentinelsKept document after →
        (HasSentinelIds document → HasSentinelIds after)
        ∧ (HasSentinels document → HasSentinels after) := by
  have hgen : ∃ result, document.GenerateInsert globals position value = some result
      ∧ SentinelsKept document result.2.1 := by
    obtain ⟨r, hr, hs⟩ := IntegrateInsert_sentinels document
      (generated globals value (prevBound document position) (nextBound document position))
      (prevBound document position) (nextBound document position)
    exact ⟨_, by rw [GenerateInsert_eq, hr]; rfl, hs⟩
  exact ⟨LocalInsert_sentinels document c position,
    IntegrateInsert_sentinels document c prev next, hgen,
    Insert_sentinels globals document position value,
    IntegrateDelete_sentinels document c, IntegrateDelete_sentinels document _,
    IntegrateDelete_sentinels document _,
    fun _ h => ⟨SentinelsKept_ids h, SentinelsKept_sentinels h⟩⟩

/-- C12: on a document with pairwise distinct ids in which the character with the id of `prev`
is immediately followed by the character with the id of `next`, for every `c` with a non-empty
id, `IntegrateInsert(c, prev, next)` returns no error and the document with `c` between the
two, at the index `next` had: the `NextID` of the left neighbour and the `PrevID` of the right
neighbour are the id of `c`, `c` is stored as given, and nothing else changes. -/
theorem IntegrateInsert_between_adjacent (document : Document)
    (c prev next p n : Character) (L R : List Character)
    (h : document.Characters = L ++ p :: n :: R)
    (hnd : (ids document.Characters).Nodup) (hp : p.ID = prev.ID) (hn : n.ID = next.ID)
    (hc : c.ID ≠ "") :
    document.IntegrateInsert c prev next
      = some (Document.mk
          (L ++ { p with NextID := c.ID } :: c :: { n with PrevID := c.ID } :: R), none)
    ∧ document.Position next.ID - 1 = L.length + 1
    ∧ (L ++ { p with NextID := c.ID } :: c :: { n with PrevID := c.ID } :: R)[L.length + 1]?
      = some c := by
  have hI := IntegrateInsert_place document c prev next p n L [] R (by simpa using h)
    hnd hp hn hc
  have hk : placeIndex c.ID [] = 0 := rfl
  rw [hk] at hI
  simp only [List.take_nil, List.drop_nil, List.nil_append] at hI
  rw [splice_concat_cons] at hI
  obtain ⟨-, hN, -⟩ := Subseq_between document prev next p n L [] R (by simpa using h)
    hnd hp hn
  refine ⟨hI, ?_, ?_⟩
  · rw [hN]; simp only [List.length_nil]; push_cast; omega
  · have e : L ++ { p with NextID := c.ID } :: c :: { n with PrevID := c.ID } :: R
        = (L ++ [{ p with NextID := c.ID }]) ++ c :: { n with PrevID := c.ID } :: R := by
      simp
    have e2 : L.length + 1 = (L ++ [{ p with NextID := c.ID }]).length := by simp
    rw [e, e2, List.getElem?_append_right (le_refl _)]
    simp

/-- C12, witness: `TestIntegrateInsert_BetweenTwoPositions`, the character "3" between "1"
and "2". -/
theorem IntegrateInsert_between_adjacent_witness :
    testDocument.IntegrateInsert
        { ID := "3", Visible := false, Value := "a", PrevID := "1", NextID := "2" }
        { ID := "1", Visible := false, Value := "c", PrevID := "start", NextID := "2" }
        { ID := "2", Visible := false, Value := "t", PrevID := "1", NextID := "end" }
      = some (Document.mk
          [ { ID := "start", Visible := false, Value := "", PrevID := "", NextID := "1" },
            { ID := "1", Visible := false, Value := "c", PrevID := "start", NextID := "3" },
            { ID := "3", Visible := false, Value := "a", PrevID := "1", NextID := "2" },
            { ID := "2", Visible := false, Value := "t", PrevID := "3", NextID := "end" },
            { ID := "end", Visible := false, Value := "", PrevID := "2", NextID := "" } ],
          none) :=
  (IntegrateInsert_between_adjacent testDocument
    { ID := "3", Visible := false, Value := "a", PrevID := "1", NextID := "2" }
    { ID := "1", Visible := false, Value := "c", PrevID := "start", NextID := "2" }
    { ID := "2", Visible := false, Value := "t", PrevID := "1", NextID := "end" }
    { ID := "1", Visible := false, Value := "c", PrevID := "start", NextID := "2" }
    { ID := "2", Visible := false, Value := "t", PrevID := "1", NextID := "end" }
    [{ ID := "start", Visible := false, Value := "", PrevID := "", NextID := "1" }]
    [{ ID := "end", Visible := false, Value := "", PrevID := "2", NextID := "" }]
    rfl (by decide) rfl rfl (by decide)).1

/-- C13: `Subseq(a, b)` returns `ErrBoundsMissing` exactly when the id of `a` or the id of `b`
is not in the document or `Position(a) > Position(b)`, and no error otherwise. With both ids
present it returns the empty sequence when the positions are equal, and when `a` comes first it
returns the characters `M` strictly between the first character with the id of `a` and the
first character with the id of `b`, `Position(b) - Position(a) - 1` of them: none when the two
are adjacent. -/
theorem Subseq_specification (document : Document) (a b : Character) :
    ((document.Subseq a b).2 = some Error.ErrBoundsMissing
      ↔ (a.ID ∉ ids document.Characters ∨ b.ID ∉ ids document.Characters
          ∨ document.Position a.ID > document.Position b.ID))
    ∧ ((document.Subseq a b).2 = some Error.ErrBoundsMissing ∨ (document.Subseq a b).2 = none)
    ∧ (a.ID ∈ ids document.Characters → b.ID ∈ ids document.Characters →
        document.Position a.ID = document.Position b.ID → document.Subseq a b = ([], none))
    ∧ (a.ID ∈ ids document.Characters → b.ID ∈ ids document.Characters →
        document.Position a.ID < document.Position b.ID →
        ∃ L x M y R, document.Characters = L ++ x :: (M ++ y :: R)
          ∧ x.ID = a.ID ∧ a.ID ∉ ids L ∧ y.ID = b.ID ∧ b.ID ∉ ids (L ++ x :: M)
          ∧ document.Subseq a b = (M, none)
          ∧ (M.length : Int) = document.Position b.ID - document.Position a.ID - 1) := by
  refine ⟨Subseq_error_iff document a b, ?_, ?_, ?_⟩
  · rcases Subseq_error_or_none document a b with h | h
    · left; rw [h]
    · right; exact h
  · intro ha _ h
    exact Subseq_same_position document a b h
      (fun h' => (Position_eq_neg_one_iff document a.ID).mp h' ha)
  · intro ha _ h
    have h0 : 0 < document.Position a.ID := by
      have hne : document.Position a.ID ≠ -1 :=
        fun h' => (Position_eq_neg_one_iff document a.ID).mp h' ha
      have r := PositionLoop_range a.ID document.Characters 0
      unfold Document.Position at hne ⊢
      omega
    obtain ⟨L, x, M, y, R, hdoc, hx, hxL, hy, hyL⟩ :=
      split_of_positions_first document a b h0 h
    obtain ⟨hP, hN, hS⟩ := Subseq_between_first document a b x y L M R hdoc hx hxL hy hyL
    exact ⟨L, x, M, y, R, hdoc, hx, hxL, hy, hyL, hS, by rw [hP, hN]; ring⟩

/-- C14: `Left` does not return the id of the character before. `Position` is the index plus
one, and `Left` reads `Characters[index-1]`: for every id in the document it returns that id
itself. On a fresh document `Left("end")` is "end", while the character before has the id
"start". -/
theorem Left_returns_the_id_itself :
    New.Left "end" = some "end"
    ∧ New.Position "end" = 2
    ∧ New.Characters.map Character.ID = ["start", "end"]
    ∧ sample.Left "13" = some "13"
    ∧ ∀ (document : Document) (id : String), id ∈ ids document.Characters →
        document.Left id = some id :=
  ⟨by decide, by decide, by decide, by decide, Left_present⟩

/-- C15: `Right` does not return the id of the character after. For an id first found at the
index `i` it reads `Characters[i+2]`, and `Characters[i]` when at most one character follows.
On a fresh document `Right("start")` is "start", not "end"; on `sample`, whose ids are "start",
"11", "12", "13", "end", `Right("start")` is "12" and `Right("13")` is "13". -/
theorem Right_skips_the_neighbour :
    New.Right "start" = some "start"
    ∧ sample.Characters.map Character.ID = ["start", "11", "12", "13", "end"]
    ∧ sample.Right "start" = some "12"
    ∧ sample.Right "13" = some "13"
    ∧ ∀ (document : Document) (A : List Character) (x : Character) (B : List Character),
        document.Characters = A ++ x :: B → x.ID ∉ ids A →
        (B.length ≤ 1 → document.Right x.ID = some x.ID)
        ∧ (∀ b₁ b₂ B', B = b₁ :: b₂ :: B' → document.Right x.ID = some b₂.ID) :=
  ⟨by decide, by decide, by decide, by decide, Right_present⟩

/-- C16: `Left` and `Right` can panic. `Left` of an id that is not in the document reads
`Characters[-1]`: a panic, on a fresh document as on every other. `Right` on the empty document
reads `Characters[-2]`. The other operations never index out of range: written with every
index and slice expression checked, `ElementAt`, `Subseq`, `LocalInsert`, `IntegrateInsert`,
`IntegrateDelete`, `GenerateInsert` and `GenerateDelete` return, with the result of the
embedding without checks; `Position`, `Contains`, `Find` and `IthVisible` are loops over the
slice without an index expression. -/
theorem Left_panics_on_absent_id :
    New.Left "x" = none
    ∧ (Document.mk []).Right "x" = none
    ∧ (∀ (document : Document) (id : String), id ∉ ids document.Characters →
        document.Left id = none
        ∧ document.Right id = document.Characters.head?.map Character.ID)
    ∧ ∀ (globals : Globals) (document : Document) (c prev next : Character) (position : Int)
        (value : String),
        (∃ result, document.ElementAt position = some result)
        ∧ document.SubseqChecked prev next = some (document.Subseq prev next)
        ∧ document.LocalInsertChecked c position = some (document.LocalInsert c position)
        ∧ (∃ result, document.IntegrateInsertChecked c prev next = Run.done result
            ∧ document.IntegrateInsert c prev next = some result)
        ∧ document.IntegrateDeleteChecked c = some (document.IntegrateDelete c)
        ∧ (∃ result, document.GenerateInsertChecked globals position value = Run.done result
            ∧ document.GenerateInsert globals position value = some result)
        ∧ document.GenerateDeleteChecked position = some (document.GenerateDelete position) :=
  ⟨by decide, by decide,
    fun document id h => ⟨Left_absent document id h, Right_absent document id h⟩,
    fun globals document c prev next position value =>
      ⟨(ElementAt_some document position).1, SubseqChecked_eq document prev next,
        LocalInsertChecked_eq document c position,
        IntegrateInsertChecked_done document c prev next,
        IntegrateDeleteChecked_eq document c,
        GenerateInsertChecked_done globals document position value,
        IntegrateDeleteChecked_eq document _⟩⟩

/-- C17 (as stated, refuted): `markerDocument` has the two visible characters "a" and "b", and
"a" has the id "-1". `Delete(5)` and `Delete(0)` find no visible character at the position,
get the marker `Character{ID: "-1"}` from `IthVisible` and delete the character with that id:
the content becomes "b". -/
theorem Delete_out_of_range_hides_marker_id :
    visibleValues markerDocument.Characters = ["a", "b"]
    ∧ (markerDocument.Delete 5).2 = "b"
    ∧ (markerDocument.Delete 0).2 = "b"
    ∧ (markerDocument.Delete 5).1 ≠ markerDocument := by
  decide

/-- C17 (amended): on a document with `n` visible characters and no visible character with the
id "-1", for every position `p > n` and every `p ≤ 0`, `Delete(p)` leaves the document as it is
and returns its content. -/
theorem Delete_out_of_range (document : Document) (position : Int)
    (hmark : ∀ x ∈ document.Characters, x.Visible = true → x.ID ≠ "-1")
    (h : position ≤ 0 ∨ position > visibleCount document.Characters) :
    document.Delete position = (document, Content document) := by
  unfold Document.Delete
  simp only
  rw [GenerateDelete_out_of_range document position hmark h]

/-- C17, witness: `sample` has two visible characters; the positions 3 and 0 are out of
range. -/
theorem Delete_out_of_range_witness :
    sample.Delete 3 = (sample, Content sample) ∧ sample.Delete 0 = (sample, Content sample) :=
  ⟨Delete_out_of_range sample 3 (by decide) (by decide),
    Delete_out_of_range sample 0 (by decide) (by decide)⟩

/-- C18: `LocalInsert(c, position)` returns `ErrOutOfBounds` when `position <= 0` or
`position >= Length`, `ErrEmptyCharacter` when the position is in range and the id of `c` is
empty, and otherwise no error and the document with `c` at the index `position`, linked to its
two neighbours. Whenever `LocalInsert`, `IntegrateInsert` or `Insert` returns an error, the
document is the document before the call. -/
theorem insert_errors_leave_the_document (globals : Globals) (document : Document)
    (c prev next : Character) (position : Int) (value : String) :
    ((position ≤ 0 ∨ position ≥ document.Length) →
      document.LocalInsert c position = (document, some Error.ErrOutOfBounds))
    ∧ (0 < position → position < document.Length → c.ID = "" →
      document.LocalInsert c position = (document, some Error.ErrEmptyCharacter))
    ∧ (0 < position → position < document.Length → c.ID ≠ "" →
      document.LocalInsert c position
        = (Document.mk (splice (document.Characters.take position.toNat)
            (document.Characters.drop position.toNat) c), none))
    ∧ (∀ err, (document.LocalInsert c position).2 = some err →
      (document.LocalInsert c position).1 = document)
    ∧ (∃ result, document.IntegrateInsert c prev next = some result
      ∧ ∀ err, result.2 = some err → result.1 = document)
    ∧ (∃ result, document.Insert globals position value = some result
      ∧ ∀ err, result.2.2.2 = some err →
        result.2.1 = document ∧ result.2.2.1 = Content document) := by
  refine ⟨LocalInsert_outOfBounds document c position,
    LocalInsert_emptyID document c position, LocalInsert_inRange document c position,
    LocalInsert_error document c position, ?_, ?_⟩
  · obtain ⟨r, hr⟩ := IntegrateInsert_total document c prev next
    exact ⟨r, hr, fun err he => IntegrateInsert_error document c prev next r hr err he⟩
  · obtain ⟨after, err, hI, hr⟩ := Insert_total globals document position value
    refine ⟨_, hI, ?_⟩
    intro e he
    simp only at he
    have := IntegrateInsert_error document _ _ _ _ hr e he
    simp only at this ⊢
    rw [this]
    exact ⟨rfl, rfl⟩

/-- C19: `Insert(1, v)` on a fresh document with site id `s` and clock `k` returns no error and
the content `v`, sets the clock to `k + 1`, and leaves three characters: the start sentinel with
`NextID = id`, the new character with `ID = id`, `Visible = true`, `Value = v`,
`PrevID = "start"`, `NextID = "end"`, and the end sentinel with `PrevID = id`, where `id` is the
decimal text of `s` followed by the decimal text of `k + 1`. The new character is the first
visible character. -/
theorem Insert_into_fresh_document (s k : Int) (v : String) :
    New.Insert { SiteID := s, LocalClock := k } 1 v
      = some ({ SiteID := s, LocalClock := k + 1 },
          Document.mk
            [ { ID := "start", Visible := false, Value := "", PrevID := "",
                NextID := Sprint s ++ Sprint (k + 1) },
              { ID := Sprint s ++ Sprint (k + 1), Visible := true, Value := v,
                PrevID := "start", NextID := "end" },
              { ID := "end", Visible := false, Value := "",
                PrevID := Sprint s ++ Sprint (k + 1), NextID := "" } ],
          v, none)
    ∧ IthVisible (Document.mk
            [ { ID := "start", Visible := false, Value := "", PrevID := "",
                NextID := Sprint s ++ Sprint (k + 1) },
              { ID := Sprint s ++ Sprint (k + 1), Visible := true, Value := v,
                PrevID := "start", NextID := "end" },
              { ID := "end", Visible := false, Value := "",
                PrevID := Sprint s ++ Sprint (k + 1), NextID := "" } ]) 1
      = { ID := Sprint s ++ Sprint (k + 1), Visible := true, Value := v,
          PrevID := "start", NextID := "end" }
    ∧ (New.Insert { SiteID := 0, LocalClock := 0 } 1 "a").map
        (fun result => (ids result.2.1.Characters, result.2.2))
      = some (["start", "01", "end"], "a", none) :=
  ⟨fresh_Insert { SiteID := s, LocalClock := k } v, by simp [IthVisible, IthVisibleLoop],
    by decide⟩

end crdt

namespace client

open crdt

/-- C20: replaying the inserts reproduces the content. For every sequence of inserts
`(position, value)` whose positions are each between 1 and the number of visible characters at
that moment plus one, the calls `Insert(position, value)` on a fresh document succeed, and a
peer that starts from a fresh document with any site id and clock and handles the messages
`performOperation` writes for them, in the same order, ends with the same visible values, those
of the sequence, and the same `Content`. The message `performOperation` writes for the insert at
the position `cursor + 1` carries that position and the value. -/
theorem replay_reproduces_content (atoi : String → Int) (inserts : List (Int × String))
    (globalsA globalsB : Globals) (h : inRange 0 inserts = true) :
    (∃ globalsA' a b,
      insertAll inserts globalsA New = some (globalsA', a)
      ∧ handleAll atoi (inserts.map (fun insert => insertMessage insert.1 insert.2))
          { document := New, globals := globalsB } = some b
      ∧ visibleValues a.Characters = insertValues [] inserts
      ∧ visibleValues b.document.Characters = insertValues [] inserts
      ∧ Content a = Content b.document)
    ∧ ∀ (replica : Replica) (cursor : Int) (ch : Char),
        ∃ after, performOperation replica cursor OperationInsert ch
          = some (after, insertMessage (cursor + 1) (String.singleton ch)) := by
  constructor
  · obtain ⟨gA', a, hA, -, hvA⟩ :=
      insertAll_BuiltBy inserts globalsA New (BuiltBy_New globalsA) h
    obtain ⟨gB', b, hB, -, hvB⟩ :=
      insertAll_BuiltBy inserts globalsB New (BuiltBy_New globalsB) h
    refine ⟨gA', a, { document := b, globals := gB' }, hA, ?_, hvA, hvB, ?_⟩
    · rw [handleAll_insertMessages, hB]
      rfl
    · rw [Content_eq_join, Content_eq_join]
      show String.join (visibleValues a.Characters) = String.join (visibleValues b.Characters)
      rw [hvA, hvB]
  · intro replica cursor ch
    obtain ⟨after, err, hI, -⟩ :=
      Insert_total replica.globals replica.document (cursor + 1) (String.singleton ch)
    exact ⟨_, performOperation_insert replica cursor ch _ _ _ _ hI⟩

/-- C20, witness: "a", then "c" after it, then "b" between the two; the peer has site 2 and
clock 7. -/
theorem replay_reproduces_content_witness :
    ∃ globalsA' a b,
      insertAll [(1, "a"), (2, "c"), (2, "b")] { SiteID := 1, LocalClock := 0 } New
        = some (globalsA', a)
      ∧ handleAll (fun _ => 0)
          ([(1, "a"), (2, "c"), (2, "b")].map (fun insert => insertMessage insert.1 insert.2))
          { document := New, globals := { SiteID := 2, LocalClock := 7 } } = some b
      ∧ visibleValues a.Characters = insertValues [] [(1, "a"), (2, "c"), (2, "b")]
      ∧ visibleValues b.document.Characters = insertValues [] [(1, "a"), (2, "c"), (2, "b")]
      ∧ Content a = Content b.document :=
  (replay_reproduces_content (fun _ => 0) [(1, "a"), (2, "c"), (2, "b")]
    { SiteID := 1, LocalClock := 0 } { SiteID := 2, LocalClock := 7 } (by decide)).1

end client

namespace crdt

/-- C21: on a document with `n` visible characters, `IthVisible(doc, k)` is the `k`-th of the
characters whose `Visible` flag is true, in sequence order, for `1 <= k <= n`, and the marker
`Character{ID: "-1"}` for `k > n` and for `k <= 0`; `Content(doc)` is the concatenation of the
values of `IthVisible(doc, 1)`, ..., `IthVisible(doc, n)`. -/
theorem IthVisible_specification (document : Document) :
    (∀ k : Nat, 1 ≤ k → k ≤ visibleCount document.Characters →
      (document.Characters.filter Character.Visible)[k - 1]? = some (IthVisible document k))
    ∧ (∀ k : Int, k ≤ 0 ∨ k > visibleCount document.Characters →
      IthVisible document k
        = { ID := "-1", Visible := false, Value := "", PrevID := "", NextID := "" })
    ∧ visibleCount document.Characters = (document.Characters.filter Character.Visible).length
    ∧ Content document
      = String.join ((List.range (visibleCount document.Characters)).map
          (fun (i : Nat) => (IthVisible document ((i : Int) + 1)).Value)) := by
  refine ⟨IthVisible_filter document, IthVisible_out_of_range document, rfl, ?_⟩
  rw [Content_eq_join, ← visibleValues_eq_range]

/-- C22: `Position(id)` is `i + 1` for the smallest index `i` whose character has the id (the
characters `A` before it have not), and `-1` exactly when no character has the id;
`Contains(id)` is true exactly when `Position(id)` is not `-1`; and when the id is in the
document, `Find(id)` and `ElementAt(Position(id) - 1)` return the first character with the id,
`ElementAt` without error. -/
theorem Position_specification (document : Document) (id : String) :
    (document.Position id = -1 ↔ id ∉ ids document.Characters)
    ∧ (document.Contains id = true ↔ document.Position id ≠ -1)
    ∧ (id ∈ ids document.Characters →
        ∃ A x B, document.Characters = A ++ x :: B ∧ id ∉ ids A ∧ x.ID = id)
    ∧ (∀ A x B, document.Characters = A ++ x :: B → id ∉ ids A → x.ID = id →
        document.Position id = A.length + 1
        ∧ document.Characters[A.length]? = some x
        ∧ document.Find id = x
        ∧ document.ElementAt (document.Position id - 1) = some (x, none)) := by
  refine ⟨Position_eq_neg_one_iff document id, by simp [Document.Contains],
    split_of_mem document.Characters id, ?_⟩
  intro A x B hl hA hx
  have hpos := Position_eq_of_split document id A x B hl hA hx
  refine ⟨hpos, by rw [hl, List.getElem?_append_right (le_refl _)]; simp, ?_, ?_⟩
  · unfold Document.Find
    rw [hl]
    exact FindLoop_append id A x B hA hx
  · rw [hpos]
    have e : (A.length : Int) + 1 - 1 = A.length := by ring
    rw [e]
    exact ElementAt_of_split document A x B hl

/-- C23: `New()` has `Length` 2: the start sentinel followed by the end sentinel, both
invisible with an empty value, `NextID` of start being "end" and `PrevID` of end "start"; its
`Content` is the empty string. -/
theorem New_is_two_sentinels :
    New.Length = 2
    ∧ New.Characters
      = [ { ID := "start", Visible := false, Value := "", PrevID := "", NextID := "end" },
          { ID := "end", Visible := false, Value := "", PrevID := "start", NextID := "" } ]
    ∧ Content New = "" := by
  decide

/-- C25: `IntegrateInsert` returns on every input. The right bound of each recursive call has
a `Position` below that of the right bound of the call that makes it (`IntegrateInsertCalls`
lists the recursive calls, and returns with the fuel with which `IntegrateInsertFuel` returns);
with pairwise distinct ids there is at most one recursive call. -/
theorem IntegrateInsert_terminates (document : Document) (c prev next : Character) :
    (∃ result, document.IntegrateInsert c prev next = some result)
    ∧ (∀ fuel, (IntegrateInsertCalls fuel document c prev next).isSome
        = (IntegrateInsertFuel fuel document c prev next).isSome)
    ∧ ∃ calls, IntegrateInsertCalls (document.Characters.length + 1) document c prev next
          = some calls
        ∧ List.Chain (fun outer inner : Character =>
            document.Position inner.ID < document.Position outer.ID) next (calls.map Prod.snd)
        ∧ ((ids document.Characters).Nodup → calls.length ≤ 1) := by
  refine ⟨IntegrateInsert_total document c prev next,
    fun fuel => IntegrateInsertCalls_isSome fuel document c prev next, ?_⟩
  have hfuel : document.Position next.ID ≤ document.Characters.length := by
    have := PositionLoop_range next.ID document.Characters 0
    unfold Document.Position
    omega
  obtain ⟨calls, hcalls, hchain⟩ :=
    IntegrateInsertCalls_chain document.Characters.length document c prev next hfuel
  exact ⟨calls, hcalls, hchain,
    fun hnd => IntegrateInsertCalls_nodup _ document c prev next hnd calls hcalls⟩

/-- C26: on a document with pairwise distinct ids, with `prev` in the document and
`Position(prev) < Position(next)` (so that `next` is in the document too), for every `c` whose id is not empty and not in the document,
`IntegrateInsert(c, prev, next)` returns no error, makes `Length` one more, places `c` with
`Position(prev) < Position(c) < Position(next)`, and keeps every character of the document
with its id, value and visibility in the same order (`AddsOne`). -/
theorem IntegrateInsert_adds_between (document : Document) (c prev next : Character)
    (hnd : (ids document.Characters).Nodup)
    (hprev : prev.ID ∈ ids document.Characters)
    (hlt : document.Position prev.ID < document.Position next.ID)
    (hc : c.ID ≠ "") (hfresh : c.ID ∉ ids document.Characters) :
    ∃ after, document.IntegrateInsert c prev next = some (after, none)
      ∧ after.Length = document.Length + 1
      ∧ after.Position prev.ID < after.Position c.ID
      ∧ after.Position c.ID < after.Position next.ID
      ∧ AddsOne document after c := by
  have h0 : 0 < document.Position prev.ID := by
    have hne : document.Position prev.ID ≠ -1 :=
      fun h' => (Position_eq_neg_one_iff document prev.ID).mp h' hprev
    have r := PositionLoop_range prev.ID document.Characters 0
    unfold Document.Position at hne ⊢
    omega
  obtain ⟨after, hI, hlen, hP, -, hPC, hCN, hadds, -⟩ :=
    IntegrateInsert_frame document c prev next hnd h0 hlt hc hfresh
  exact ⟨after, hI, hlen, by rw [hP]; exact hPC, hCN, hadds⟩

/-- C26, witness: the character "3" between the sentinels of the document of
`TestIntegrateInsert_BetweenTwoPositions`. -/
theorem IntegrateInsert_adds_between_witness :
    ∃ after, testDocument.IntegrateInsert
        { ID := "3", Visible := true, Value := "a", PrevID := "start", NextID := "end" }
        StartCharacter EndCharacter = some (after, none)
      ∧ after.Length = testDocument.Length + 1
      ∧ after.Position StartCharacter.ID < after.Position "3"
      ∧ after.Position "3" < after.Position EndCharacter.ID
      ∧ AddsOne testDocument after
          { ID := "3", Visible := true, Value := "a", PrevID := "start", NextID := "end" } :=
  IntegrateInsert_adds_between testDocument
    { ID := "3", Visible := true, Value := "a", PrevID := "start", NextID := "end" }
    StartCharacter EndCharacter (by decide) (by decide) (by decide) (by decide) (by decide)

/-- C27 (as stated, refuted): a call that returns an error splices nothing. On a fresh
document, whose ids are distinct, `Subseq(start, end)` and `Subseq(start, start)` are empty and
return no error; `IntegrateInsert(c, start, end)` with an empty id of `c` returns
`ErrEmptyCharacter`, `IntegrateInsert(c, start, start)` returns `ErrOutOfBounds`, and the
document is as before: `c` is not spliced before `next`. -/
theorem IntegrateInsert_error_splices_nothing :
    (ids New.Characters).Nodup
    ∧ New.Subseq StartCharacter EndCharacter = ([], none)
    ∧ New.IntegrateInsert
        { ID := "", Visible := true, Value := "x", PrevID := "start", NextID := "end" }
        StartCharacter EndCharacter = some (New, some Error.ErrEmptyCharacter)
    ∧ New.Subseq StartCharacter StartCharacter = ([], none)
    ∧ New.IntegrateInsert insertX StartCharacter StartCharacter
        = some (New, some Error.ErrOutOfBounds) := by
  decide

/-- C27 (amended): the placement rule of `IntegrateInsert`. On a document with pairwise
distinct ids, with `S = Subseq(prev, next)`, `IntegrateInsert(c, prev, next)` returns no error
exactly when the id of `c` is not empty and `next` is not the first character of the document
(`Position(next) > 1`), and then it splices `c` immediately before `S[k]`, and immediately
before `next` when `S` is empty: `k` is 0 when `S` has one element, and with two or more it is
the smallest index `>= 1` whose id is not below the id of `c`, or the last index of `S` when
there is none (`StopsAt`), so that `S[0]` comes before `c` and the last element of `S` after
it. -/
theorem IntegrateInsert_placement_rule (document : Document) (c prev next : Character)
    (S : List Character)
    (hnd : (ids document.Characters).Nodup)
    (hS : document.Subseq prev next = (S, none)) :
    ((∃ after, document.IntegrateInsert c prev next = some (after, none))
      ↔ (c.ID ≠ "" ∧ 1 < document.Position next.ID))
    ∧ ∀ after, document.IntegrateInsert c prev next = some (after, none) →
        ∃ L R k, document.Characters = L ++ (S ++ R)
          ∧ R.head?.map Character.ID = some next.ID
          ∧ after.Characters = splice (L ++ S.take k) (S.drop k ++ R) c
          ∧ (S.length ≤ 1 → k = 0)
          ∧ (2 ≤ S.length → StopsAt c.ID S k) := by
  refine ⟨IntegrateInsert_success_iff document c prev next S hnd hS, ?_⟩
  intro after h
  obtain ⟨L, R, hdoc, hR, hafter⟩ := IntegrateInsert_rule document c prev next S after hnd hS h
  exact ⟨L, R, placeIndex c.ID S, hdoc, hR, hafter, placeIndex_short c.ID S,
    placeIndex_StopsAt c.ID S⟩

/-- C27, witness: "14" between the sentinels of `fiveLetters`, whose ids are "start", "11",
"13", "15", "end": the call returns no error, the loop passes "13" and stops at the last index,
and "14" is spliced before "15". -/
theorem IntegrateInsert_placement_rule_witness :
    (∃ after, fiveLetters.IntegrateInsert newLetter StartCharacter EndCharacter
        = some (after, none))
    ∧ ∃ L R k, fiveLetters.Characters = L ++ ((fiveLetters.Characters.take 4).drop 1 ++ R)
      ∧ R.head?.map Character.ID = some EndCharacter.ID
      ∧ sixLetters.Characters
        = splice (L ++ ((fiveLetters.Characters.take 4).drop 1).take k)
            (((fiveLetters.Characters.take 4).drop 1).drop k ++ R) newLetter
      ∧ (((fiveLetters.Characters.take 4).drop 1).length ≤ 1 → k = 0)
      ∧ (2 ≤ ((fiveLetters.Characters.take 4).drop 1).length →
          StopsAt newLetter.ID ((fiveLetters.Characters.take 4).drop 1) k) :=
  ⟨(IntegrateInsert_placement_rule fiveLetters newLetter StartCharacter EndCharacter
      ((fiveLetters.Characters.take 4).drop 1) (by decide) (by decide)).1.mpr
      ⟨by decide, by decide⟩,
    (IntegrateInsert_placement_rule fiveLetters newLetter StartCharacter EndCharacter
      ((fiveLetters.Characters.take 4).drop 1) (by decide) (by decide)).2 sixLetters
      (by decide)⟩

/-- C28: `Insert` never fails on a well-formed document. On a document that starts with the
start sentinel, ends with the end sentinel and has pairwise distinct ids, for every position
`p`, `Insert(p, v)` returns no error and the content of the new document, which has one
character more and one visible character more: the characters of the document, unchanged and
in their order, and the new visible character (`AddsOne`). For `p <= 0` and for `p` above the
number of visible characters plus one the bounds are the two sentinels: the new document is
that of `IntegrateInsert` between start and end. -/
theorem Insert_never_fails (globals : Globals) (document : Document) (position : Int)
    (value : String) (hstart : StartsWithStart document) (hend : EndsWithEnd document)
    (hnd : (ids document.Characters).Nodup) :
    ∃ after, document.Insert globals position value
        = some ({ globals with LocalClock := globals.LocalClock + 1 }, after, Content after, none)
      ∧ after.Length = document.Length + 1
      ∧ visibleCount after.Characters = visibleCount document.Characters + 1
      ∧ AddsOne document after
          (generated globals value (prevBound document position) (nextBound document position))
      ∧ (generated globals value (prevBound document position)
          (nextBound document position)).Visible = true
      ∧ ((position ≤ 0 ∨ position > visibleCount document.Characters + 1) →
          document.IntegrateInsert
            (generated globals value (document.Find "start") (document.Find "end"))
            (document.Find "start") (document.Find "end") = some (after, none)) := by
  obtain ⟨L, M, R, hdoc⟩ := bounds_split_any document position hstart hend hnd
  obtain ⟨after, hins, hlen, hvis, hadds, -⟩ :=
    Insert_of_split globals document position value L M R hdoc hnd
  refine ⟨after, hins, ?_, hvis, hadds, rfl, ?_⟩
  · unfold Document.Length
    rw [hlen]
    push_cast
    rfl
  · intro hout
    obtain ⟨hP, hN⟩ := bounds_out_of_range document position hout
    obtain ⟨after', err, hins', hI⟩ := Insert_total globals document position value
    rw [hins] at hins'
    simp only [Option.some.injEq, Prod.mk.injEq, true_and] at hins'
    rw [← hins'.1, ← hins'.2.2, hP, hN] at hI
    exact hI

/-- C28, witness: `Insert(9, "x")` and `Insert(0, "x")` on `sample`, which has two visible
characters. -/
theorem Insert_never_fails_witness :
    (∃ after, sample.Insert { SiteID := 1, LocalClock := 5 } 9 "x"
        = some ({ SiteID := 1, LocalClock := 6 }, after, Content after, none)
      ∧ after.Length = sample.Length + 1
      ∧ visibleCount after.Characters = visibleCount sample.Characters + 1)
    ∧ ∃ after, sample.Insert { SiteID := 1, LocalClock := 5 } 0 "x"
        = some ({ SiteID := 1, LocalClock := 6 }, after, Content after, none)
      ∧ after.Length = sample.Length + 1
      ∧ visibleCount after.Characters = visibleCount sample.Characters + 1 := by
  obtain ⟨a, h1, h2, h3, -⟩ := Insert_never_fails { SiteID := 1, LocalClock := 5 } sample 9 "x"
    (by decide) (by decide) (by decide)
  obtain ⟨b, k1, k2, k3, -⟩ := Insert_never_fails { SiteID := 1, LocalClock := 5 } sample 0 "x"
    (by decide) (by decide) (by decide)
  exact ⟨⟨a, h1, h2, h3⟩, ⟨b, k1, k2, k3⟩⟩

/-- C29: link consistency without tombstones. After every sequence of calls `Insert` on a
fresh document, each at a position between 1 and the number of visible characters at that
moment plus one, with any site id (which the calls do not change) and any clock, every two
adjacent characters of the document name each other, `Characters[i].NextID` being
`Characters[i+1].ID` and `Characters[i+1].PrevID` being `Characters[i].ID`, and the ids are
pairwise distinct. -/
theorem inserts_keep_links (inserts : List (Int × String)) (globals : Globals)
    (h : inRange 0 inserts = true) :
    ∃ globals' after, insertAll inserts globals New = some (globals', after)
      ∧ globals'.SiteID = globals.SiteID
      ∧ (∀ i left right, after.Characters[i]? = some left →
          after.Characters[i + 1]? = some right →
          left.NextID = right.ID ∧ right.PrevID = left.ID)
      ∧ Linked after
      ∧ (ids after.Characters).Nodup := by
  obtain ⟨globals', after, hrun, hbuilt, hlinked, -, hsite⟩ :=
    insertAll_Linked inserts globals New (BuiltBy_New globals) Linked_New NoTombstones_New h
  exact ⟨globals', after, hrun, hsite,
    fun i left right hl hr => chain'_getElem? after.Characters hlinked i left right hl hr,
    hlinked, hbuilt.2.2.1⟩

/-- C29, witness: "a", then "c" after it, then "b" between the two, at site 1. -/
theorem inserts_keep_links_witness :
    ∃ globals' after,
      insertAll [(1, "a"), (2, "c"), (2, "b")] { SiteID := 1, LocalClock := 0 } New
        = some (globals', after)
      ∧ globals'.SiteID = 1
      ∧ (∀ i left right, after.Characters[i]? = some left →
          after.Characters[i + 1]? = some right →
          left.NextID = right.ID ∧ right.PrevID = left.ID)
      ∧ Linked after
      ∧ (ids after.Characters).Nodup :=
  inserts_keep_links [(1, "a"), (2, "c"), (2, "b")] { SiteID := 1, LocalClock := 0 }
    (by decide)

end crdt

namespace server

/-- C24: two connections accepted concurrently can get the same site id. `nextSiteID` is
read by `strconv.Itoa(nextSiteID)` after `siteIDMutex.Unlock()`: when the second handler
increments between the unlock and the read of the first (handler 0 locks, increments and
unlocks, handler 1 does the same, then both read), both connections are assigned "2". The
mutex is respected by the schedule: a handler cannot lock while the other holds it. One handler
after the other gives "1" and "2". -/
theorem concurrent_connections_share_a_site_id :
    (run [0, 0, 0, 1, 1, 1, 0, 1] (accepted 2)).bind siteIDs = some ["2", "2"]
    ∧ (run [0, 0, 0, 0, 1, 1, 1, 1] (accepted 2)).bind siteIDs = some ["1", "2"]
    ∧ run [0, 1] (accepted 2) = none := by
  decide

end server
